import Mathlib

/-!
# Verification of the lance-code-mcp indexing and query engine

Shallow embedding of the core of the repository:

* `src/lance_code_rag/merkle.py` — Merkle forest construction and diffing,
* `src/lance_code_rag/indexer.py` — the indexing pipeline,
* `src/lance_code_rag/storage.py` — chunk table and embedding cache,
* `src/lance_code_rag/chunker.py` — chunk extraction,
* `src/lance_code_mcp/search.py` — search engine (vector / FTS / fuzzy / hybrid, RRF),
* `src/lance_code_mcp/server.py` — staleness check.

External capabilities (SHA-256, tree-sitter parsing, the LanceDB engine,
embedding providers) are modelled as opaque function parameters, exactly at the
call boundary where the Python code invokes them.  Python `float` values that
the code only stores and moves around are modelled as `ℚ`; the arithmetic on
them (`1/(k+rank)` in RRF) is modelled as exact rational arithmetic.  Python
`float` mtimes are only ever compared for equality, so they are modelled
as `Nat`.
-/

/-! ## A stable insertion sort

Python's `sorted(...)` is a stable sort.  `List.mergeSort` does not reduce
in the kernel, so we model `sorted` by a stable insertion sort: an element is
inserted after all elements `b` of the already-sorted accumulator with
`le b a`, which is exactly the stable order. -/

def sinsert {α : Type} (le : α → α → Bool) (a : α) : List α → List α
  | [] => [a]
  | b :: l => if le b a then b :: sinsert le a l else a :: b :: l

def ssort {α : Type} (le : α → α → Bool) (l : List α) : List α :=
  l.foldl (fun acc a => sinsert le a acc) []

theorem sinsert_perm {α : Type} (le : α → α → Bool) (a : α) (l : List α) :
    List.Perm (sinsert le a l) (a :: l) := by
  induction l with
  | nil => simp [sinsert]
  | cons b l ih =>
    simp only [sinsert]
    split
    · exact (ih.cons b).trans (List.Perm.swap a b l)
    · exact List.Perm.refl _

theorem ssort_perm {α : Type} (le : α → α → Bool) (l : List α) :
    List.Perm (ssort le l) l := by
  suffices h : ∀ acc : List α,
      List.Perm (l.foldl (fun acc a => sinsert le a acc) acc) (l ++ acc) by
    simpa using h []
  induction l with
  | nil => intro acc; simp
  | cons a l ih =>
    intro acc
    simp only [List.foldl_cons, List.cons_append]
    refine (ih (sinsert le a acc)).trans ?_
    exact (List.Perm.append_left l (sinsert_perm le a acc)).trans
      List.perm_middle

theorem mem_ssort {α : Type} {le : α → α → Bool} {a : α} {l : List α} :
    a ∈ ssort le l ↔ a ∈ l :=
  (ssort_perm le l).mem_iff

theorem ssort_nodup {α : Type} {le : α → α → Bool} {l : List α}
    (h : l.Nodup) : (ssort le l).Nodup :=
  ((ssort_perm le l).nodup_iff).mpr h

theorem sinsert_pairwise {α : Type} {le : α → α → Bool}
    (hto : ∀ a b, le a b || le b a)
    (htr : ∀ a b c, le a b → le b c → le a c)
    {l : List α} (a : α) (h : l.Pairwise (fun x y => le x y = true)) :
    (sinsert le a l).Pairwise (fun x y => le x y = true) := by
  induction l with
  | nil => simp [sinsert]
  | cons b l ih =>
    simp only [sinsert]
    rcases List.pairwise_cons.mp h with ⟨hb, hl⟩
    split
    · rename_i hba
      refine List.pairwise_cons.mpr ⟨?_, ih hl⟩
      intro x hx
      rcases List.mem_cons.mp ((sinsert_perm le a l).mem_iff.mp hx) with hc | hc
      · simpa [hc] using hba
      · exact hb x hc
    · rename_i hba
      have hab : le a b := by
        rcases Bool.or_eq_true_iff.mp (hto a b) with hc | hc
        · exact hc
        · exact absurd hc hba
      refine List.pairwise_cons.mpr ⟨?_, h⟩
      intro x hx
      rcases List.mem_cons.mp hx with hc | hc
      · simpa [hc] using hab
      · exact htr a b x hab (hb x hc)

theorem ssort_pairwise {α : Type} {le : α → α → Bool}
    (hto : ∀ a b, le a b || le b a)
    (htr : ∀ a b c, le a b → le b c → le a c)
    (l : List α) : (ssort le l).Pairwise (fun x y => le x y = true) := by
  suffices h : ∀ acc : List α, acc.Pairwise (fun x y => le x y = true) →
      (l.foldl (fun acc a => sinsert le a acc) acc).Pairwise
        (fun x y => le x y = true) by
    exact h [] (by simp)
  induction l with
  | nil => intro acc hacc; simpa using hacc
  | cons a l ih =>
    intro acc hacc
    exact ih _ (sinsert_pairwise hto htr a hacc)

/-! ## String comparison

Python compares `str` values lexicographically by code point
(`sorted(children.keys())` in `compute_directory_hash`, `sorted(path.iterdir())`
in `_build_node`).  We model it on `String.data` so it evaluates in the
kernel. -/

def charLe (a b : Char) : Bool := decide (a ≤ b)

def strLeAux : List Char → List Char → Bool
  | [], _ => true
  | _ :: _, [] => false
  | a :: as, b :: bs => if a = b then strLeAux as bs else charLe a b

/-- Lexicographic code-point order on strings; models Python `<=` on `str`. -/
def strLe (a b : String) : Bool := strLeAux a.data b.data

theorem strLeAux_total (a b : List Char) : strLeAux a b || strLeAux b a := by
  induction a generalizing b with
  | nil => simp [strLeAux]
  | cons x as ih =>
    cases b with
    | nil => simp [strLeAux]
    | cons y bs =>
      by_cases hxy : x = y
      · subst hxy; simpa [strLeAux] using ih bs
      · have hne : ¬y = x := fun h => hxy h.symm
        simp only [strLeAux, if_neg hxy, if_neg hne, charLe,
          Bool.or_eq_true, decide_eq_true_eq]
        exact le_total x y

theorem strLeAux_trans : ∀ a b c : List Char,
    strLeAux a b → strLeAux b c → strLeAux a c
  | [], _, _, _, _ => by simp [strLeAux]
  | _ :: _, [], _, h, _ => by simp [strLeAux] at h
  | _ :: _, _ :: _, [], _, h => by simp [strLeAux] at h
  | a :: as, b :: bs, c :: cs, hab, hbc => by
    by_cases h1 : a = b
    · subst h1
      by_cases h2 : a = c
      · subst h2
        simp only [strLeAux, if_pos rfl] at hab hbc ⊢
        exact strLeAux_trans as bs cs hab hbc
      · simpa [strLeAux, h2] using hbc
    · by_cases h2 : b = c
      · subst h2
        simpa [strLeAux, h1] using hab
      · by_cases h3 : a = c
        · subst h3
          simp only [strLeAux, if_neg h1, if_neg h2, charLe,
            decide_eq_true_eq] at hab hbc
          exact absurd (le_antisymm hab hbc) h1
        · simp only [strLeAux, if_neg h1, if_neg h2, if_neg h3, charLe,
            decide_eq_true_eq] at hab hbc ⊢
          exact le_trans hab hbc

theorem strLe_total (a b : String) : strLe a b || strLe b a :=
  strLeAux_total a.data b.data

theorem strLe_trans (a b c : String) (h1 : strLe a b) (h2 : strLe b c) :
    strLe a c :=
  strLeAux_trans a.data b.data c.data h1 h2

/-! ## Merkle tree data model (`merkle.py`)

`MerkleNode` mirrors the Python dataclass: `children` is the
`dict[str, MerkleNode]` as an association list in insertion order (Python
dicts preserve insertion order). -/

inductive MerkleNode : Type where
  | mk (hash : String) (type : String) (path : String)
      (children : List (String × MerkleNode))
      (size : Option Nat) (mtime : Option Nat)

def MerkleNode.hash : MerkleNode → String
  | .mk h _ _ _ _ _ => h

def MerkleNode.type : MerkleNode → String
  | .mk _ t _ _ _ _ => t

def MerkleNode.path : MerkleNode → String
  | .mk _ _ p _ _ _ => p

def MerkleNode.children : MerkleNode → List (String × MerkleNode)
  | .mk _ _ _ c _ _ => c

def MerkleNode.size : MerkleNode → Option Nat
  | .mk _ _ _ _ s _ => s

def MerkleNode.mtime : MerkleNode → Option Nat
  | .mk _ _ _ _ _ m => m

/-- Induction over `MerkleNode` (the nested inductive has no directly usable
auto-generated eliminator for the `induction` tactic). -/
theorem MerkleNode.indNode {motive : MerkleNode → Prop}
    (h : ∀ hs ty pa ch sz mt, (∀ p ∈ ch, motive p.2) →
      motive (MerkleNode.mk hs ty pa ch sz mt)) :
    ∀ t, motive t
  | .mk hs ty pa ch sz mt => h hs ty pa ch sz mt
      (fun p hp => MerkleNode.indNode h p.2)
termination_by t => sizeOf t
decreasing_by
  have h1 : sizeOf p.2 < sizeOf p := by
    cases p with
    | mk a b => simp
  have h2 : sizeOf p < sizeOf ch := List.sizeOf_lt_of_mem hp
  simp only [MerkleNode.mk.sizeOf_spec]
  omega

/-- `TreeDiff` from `merkle.py`. -/
structure TreeDiff where
  new : List String := []
  modified : List String := []
  deleted : List String := []
deriving DecidableEq

/-- Pointwise concatenation of diffs; models appending to the three mutable
lists of the Python `TreeDiff` across recursive calls. -/
def TreeDiff.append (a b : TreeDiff) : TreeDiff :=
  ⟨a.new ++ b.new, a.modified ++ b.modified, a.deleted ++ b.deleted⟩

/-- `TreeDiff.has_changes`. -/
def TreeDiff.has_changes (d : TreeDiff) : Bool :=
  !(d.new.isEmpty && d.modified.isEmpty && d.deleted.isEmpty)

mutual

/-- `_collect_all_files` (`merkle.py`): collect paths of all `file` nodes. -/
def collectAllFiles : MerkleNode → List String
  | .mk _ ty pa ch _ _ => if ty = "file" then [pa] else collectChildren ch

def collectChildren : List (String × MerkleNode) → List String
  | [] => []
  | (_, c) :: rest => collectAllFiles c ++ collectChildren rest

end

mutual

/-- `_compare_nodes` (`merkle.py`).  The Python function mutates the `diff`
argument; here each call returns its own contribution and contributions are
concatenated.  Python iterates the name sets `new - old`, `old - new` and
`old ∩ new` in unspecified (hash) order; we iterate in list order, which only
permutes the emitted lists. -/
def compareNodes (o n : MerkleNode) : TreeDiff :=
  if o.hash = n.hash then {}
  else if o.type = "file" && n.type = "file" then { modified := [n.path] }
  else
    let oldCh := if o.type = "directory" then o.children else []
    let newCh := if n.type = "directory" then n.children else []
    if o.type ≠ n.type then
      { new := collectAllFiles n, deleted := collectAllFiles o }
    else
      let newOnly := newCh.filter (fun p => !(oldCh.any (fun q => q.1 = p.1)))
      let delOnly := oldCh.filter (fun p => !(newCh.any (fun q => q.1 = p.1)))
      TreeDiff.append
        { new := collectChildren newOnly, deleted := collectChildren delOnly }
        (compareBoth oldCh newCh)
termination_by sizeOf o + sizeOf n
decreasing_by
  cases o with
  | mk h1 t1 p1 c1 s1 m1 =>
    cases n with
    | mk h2 t2 p2 c2 s2 m2 =>
      have hd1 : 0 < sizeOf c1 := by cases c1 <;> simp
      have hd2 : 0 < sizeOf c2 := by cases c2 <;> simp
      simp_all only [MerkleNode.type, MerkleNode.children,
        MerkleNode.mk.sizeOf_spec]
      split <;> split <;>
        first
        | omega
        | (simp only [List.nil.sizeOf_spec]; omega)

/-- The `old_names & new_names` recursion of `_compare_nodes`. -/
def compareBoth :
    List (String × MerkleNode) → List (String × MerkleNode) → TreeDiff
  | [], _ => {}
  | (nm, oc) :: rest, newCh =>
    match hq : newCh.find? (fun q => q.1 = nm) with
    | some q => TreeDiff.append (compareNodes oc q.2) (compareBoth rest newCh)
    | none => compareBoth rest newCh
termination_by l r => sizeOf l + sizeOf r
decreasing_by
  · have h1 : sizeOf q < sizeOf newCh :=
      List.sizeOf_lt_of_mem (List.mem_of_find?_eq_some hq)
    have h2 : sizeOf q.2 < sizeOf q := by
      cases q with
      | mk a b => simp
    simp only [List.cons.sizeOf_spec, Prod.mk.sizeOf_spec]
    omega
  · simp only [List.cons.sizeOf_spec, Prod.mk.sizeOf_spec]
    omega
  · simp only [List.cons.sizeOf_spec, Prod.mk.sizeOf_spec]
    omega

end

/-- `MerkleTree.compare` (`merkle.py`): the tree is its optional root. -/
def treeCompare (o n : Option MerkleNode) : TreeDiff :=
  match o, n with
  | none, none => {}
  | none, some r => { new := collectAllFiles r }
  | some r, none => { deleted := collectAllFiles r }
  | some a, some b => compareNodes a b

/-- Dict lookup `children[name]` used by `compute_directory_hash`; the name
always comes from the dict's own key set, so the default is never hit there. -/
def childHashLookup (children : List (String × MerkleNode)) (nm : String) :
    String :=
  match children.find? (fun p => p.1 = nm) with
  | some p => p.2.hash
  | none => ""

/-- The byte stream hashed by `compute_directory_hash` (`merkle.py`):
`f"{name}{children[name].hash}"` for each name in sorted order. -/
def dirHashInput (children : List (String × MerkleNode)) : String :=
  (ssort strLe (children.map (fun p => p.1))).foldl
    (fun acc nm => acc ++ nm ++ childHashLookup children nm) ""

/-- `compute_directory_hash` (`merkle.py`), with SHA-256 over the concatenated
stream abstracted as `hd`. -/
def compute_directory_hash (hd : String → String)
    (children : List (String × MerkleNode)) : String :=
  hd (dirHashInput children)

/-- C7 helper: comparing a node with itself short-circuits on the hash. -/
theorem compareNodes_self (t : MerkleNode) : compareNodes t t = {} := by
  unfold compareNodes
  simp

/-- **C7.** For every Merkle forest `T`, comparing `T` with itself yields an
empty diff: equal node hashes short-circuit `_compare_nodes` at the root. -/
theorem c7_tree_diff_self_empty (t : Option MerkleNode) :
    treeCompare t t = { new := [], modified := [], deleted := [] } := by
  cases t with
  | none => rfl
  | some r => simpa [treeCompare] using compareNodes_self r

/-! ## Relative paths

`_build_node` records `str(path.relative_to(project_root))` in each node: `"."`
for the root, and the `"/"`-joined name components below it.  `childRel`
models one step of that path arithmetic, `encode` the whole position. -/

def childRel (parent nm : String) : String :=
  if parent = "." then nm else parent ++ "/" ++ nm

def encode (P : List String) : String := P.foldl childRel "."

/-- A sound filesystem entry name: nonempty, no path separator, not `"."`.
Every real directory entry satisfies this. -/
def goodName (s : String) : Bool :=
  decide (s.data ≠ [] ∧ '/' ∉ s.data ∧ s ≠ ".")

/-- `'/'`-prefixed flattening of name components — the tail of an encoded
path below its first component. -/
def flatParts (ns : List (List Char)) : List Char :=
  (ns.map (fun n => '/' :: n)).flatten

theorem flatParts_nil : flatParts [] = [] := rfl

theorem flatParts_cons (n : List Char) (ns : List (List Char)) :
    flatParts (n :: ns) = '/' :: (n ++ flatParts ns) := by
  simp [flatParts]

theorem flatParts_head (ns : List (List Char)) :
    flatParts ns = [] ∨ ∃ r, flatParts ns = '/' :: r := by
  cases ns with
  | nil => exact Or.inl rfl
  | cons n ns => exact Or.inr ⟨n ++ flatParts ns, flatParts_cons n ns⟩

/-- Extract the maximal separator-free prefix: if two concatenations agree and
both prefixes are slash-free while both tails are empty or slash-headed, then
prefix and tail agree. -/
theorem splitFirst_inj : ∀ (n m t u : List Char),
    '/' ∉ n → '/' ∉ m →
    (t = [] ∨ ∃ r, t = '/' :: r) → (u = [] ∨ ∃ r, u = '/' :: r) →
    n ++ t = m ++ u → n = m ∧ t = u
  | [], [], t, u, _, _, _, _, h => ⟨rfl, by simpa using h⟩
  | [], c :: m', t, u, _, hm, ht, _, h => by
    exfalso
    rcases ht with h1 | ⟨r, h1⟩ <;> subst h1 <;> simp at h
    exact hm (by simp [← h.1])
  | c :: n', [], t, u, hn, _, _, hu, h => by
    exfalso
    rcases hu with h1 | ⟨r, h1⟩ <;> subst h1 <;> simp at h
    exact hn (by simp [h.1])
  | a :: n', b :: m', t, u, hn, hm, ht, hu, h => by
    simp only [List.cons_append, List.cons.injEq] at h
    have ih := splitFirst_inj n' m' t u
      (fun hc => hn (List.mem_cons_of_mem a hc))
      (fun hc => hm (List.mem_cons_of_mem b hc)) ht hu h.2
    exact ⟨by rw [h.1, ih.1], ih.2⟩

theorem flatParts_inj : ∀ (ns ms : List (List Char)),
    (∀ n ∈ ns, '/' ∉ n) → (∀ m ∈ ms, '/' ∉ m) →
    flatParts ns = flatParts ms → ns = ms
  | [], [], _, _, _ => rfl
  | [], m :: ms', _, _, h => by simp [flatParts_cons, flatParts_nil] at h
  | n :: ns', [], _, _, h => by simp [flatParts_cons, flatParts_nil] at h
  | n :: ns', m :: ms', hns, hms, h => by
    rw [flatParts_cons, flatParts_cons] at h
    have h2 := List.cons.inj h |>.2
    have hsp := splitFirst_inj n m (flatParts ns') (flatParts ms')
      (hns n (by simp)) (hms m (by simp))
      (flatParts_head ns') (flatParts_head ms') h2
    have ih := flatParts_inj ns' ms'
      (fun x hx => hns x (by simp [hx])) (fun x hx => hms x (by simp [hx]))
      hsp.2
    rw [hsp.1, ih]

theorem childRel_data_of_ne (s nm : String) (h : s ≠ ".") :
    (childRel s nm).data = s.data ++ '/' :: nm.data := by
  simp only [childRel, if_neg h, String.data_append]
  have : ("/" : String).data = ['/'] := rfl
  simp [this]

theorem encode_go_data (P : List String) :
    ∀ s : String, s ≠ "." →
      (P.foldl childRel s).data = s.data ++ flatParts (P.map String.data) := by
  induction P with
  | nil => intro s _; simp [flatParts]
  | cons n P ih =>
    intro s hs
    have hstep : (childRel s n).data = s.data ++ '/' :: n.data :=
      childRel_data_of_ne s n hs
    have hne : childRel s n ≠ "." := by
      intro hdot
      have : (childRel s n).data = ['.'] := by rw [hdot]
      rw [hstep] at this
      have : '/' ∈ (['.'] : List Char) := by
        rw [← this]; simp
      simp at this
    simp only [List.foldl_cons]
    rw [ih (childRel s n) hne, hstep]
    simp [flatParts_cons]

theorem encode_nil : encode [] = "." := rfl

theorem goodName_parts (a : String) (ha : goodName a = true) :
    a.data ≠ [] ∧ '/' ∉ a.data ∧ a ≠ "." :=
  of_decide_eq_true ha

theorem encode_cons_data (a : String) (P : List String)
    (ha : goodName a = true) :
    (encode (a :: P)).data = a.data ++ flatParts (P.map String.data) := by
  have h1 : childRel "." a = a := by simp [childRel]
  simp only [encode, List.foldl_cons, h1]
  exact encode_go_data P a (goodName_parts a ha).2.2

/-- The relative-path encoding is injective on positions with sound names. -/
theorem encode_inj : ∀ (P Q : List String),
    (∀ a ∈ P, goodName a = true) → (∀ a ∈ Q, goodName a = true) →
    encode P = encode Q → P = Q
  | [], [], _, _, _ => rfl
  | [], b :: Q', _, hQ, h => by
    exfalso
    have hgb := hQ b (by simp)
    have hb := goodName_parts b hgb
    have hd : (['.'] : List Char) = b.data ++ flatParts (Q'.map String.data) := by
      have h1 : (encode []).data = (encode (b :: Q')).data := by rw [h]
      rw [encode_cons_data b Q' hgb] at h1
      have h0 : (encode []).data = ['.'] := rfl
      rw [h0] at h1
      exact h1
    rcases flatParts_head (Q'.map String.data) with hf | ⟨r, hf⟩
    · rw [hf, List.append_nil] at hd
      exact hb.2.2 (String.ext hd.symm)
    · rw [hf] at hd
      have hmem : '/' ∈ (['.'] : List Char) := by
        rw [hd]
        exact List.mem_append_right _ (by simp)
      simp at hmem
  | a :: P', [], hP, _, h => by
    exfalso
    have hga := hP a (by simp)
    have ha := goodName_parts a hga
    have hd : (['.'] : List Char) = a.data ++ flatParts (P'.map String.data) := by
      have h1 : (encode []).data = (encode (a :: P')).data := by rw [h]
      rw [encode_cons_data a P' hga] at h1
      have h0 : (encode []).data = ['.'] := rfl
      rw [h0] at h1
      exact h1
    rcases flatParts_head (P'.map String.data) with hf | ⟨r, hf⟩
    · rw [hf, List.append_nil] at hd
      exact ha.2.2 (String.ext hd.symm)
    · rw [hf] at hd
      have hmem : '/' ∈ (['.'] : List Char) := by
        rw [hd]
        exact List.mem_append_right _ (by simp)
      simp at hmem
  | a :: P', b :: Q', hP, hQ, h => by
    have hga := hP a (by simp)
    have hgb := hQ b (by simp)
    have ha := goodName_parts a hga
    have hb := goodName_parts b hgb
    have hd : (encode (a :: P')).data = (encode (b :: Q')).data := by rw [h]
    rw [encode_cons_data a P' hga, encode_cons_data b Q' hgb] at hd
    have hsp := splitFirst_inj a.data b.data _ _ ha.2.1 hb.2.1
      (flatParts_head (P'.map String.data)) (flatParts_head (Q'.map String.data))
      hd
    have hab : a = b := String.ext hsp.1
    have hmap : P'.map String.data = Q'.map String.data :=
      flatParts_inj (P'.map String.data) (Q'.map String.data)
        (by intro n hn
            rcases List.mem_map.mp hn with ⟨x, hx, hxe⟩
            exact hxe ▸ (goodName_parts x (hP x (by simp [hx]))).2.1)
        (by intro n hn
            rcases List.mem_map.mp hn with ⟨x, hx, hxe⟩
            exact hxe ▸ (goodName_parts x (hQ x (by simp [hx]))).2.1)
        hsp.2
    have htails : P' = Q' :=
      List.map_injective_iff.mpr (fun x y hxy => String.ext hxy) hmap
    rw [hab, htails]

/-! ## Tree positions and well-formed trees

A *position* is the list of child names leading from the root to a node.
`nodeAt` descends by name, mirroring how both `_compare_nodes` and
`_build_node` match nodes of the two trees by child name.  `WFT t P` says the
recorded `path` strings of `t` are exactly the encoded positions (which is
what `_build_node` produces), node types are `file`/`directory`, file nodes
are leaves, sibling names are distinct directory entries. -/

def nodeAt : MerkleNode → List String → Option MerkleNode
  | t, [] => some t
  | t, nm :: rest =>
    match t.children.find? (fun p => p.1 = nm) with
    | some p => nodeAt p.2 rest
    | none => none

/-- Lookup below a child list (the two child dicts inside `_compare_nodes`). -/
def chAt (ch : List (String × MerkleNode)) : List String → Option MerkleNode
  | [] => none
  | nm :: rest =>
    match ch.find? (fun p => p.1 = nm) with
    | some p => nodeAt p.2 rest
    | none => none

theorem nodeAt_cons (t : MerkleNode) (nm : String) (rest : List String) :
    nodeAt t (nm :: rest) = chAt t.children (nm :: rest) := by
  cases t with
  | mk hs ty pa ch sz mt => rfl

def IsFileVia (f : List String → Option MerkleNode) (q : List String) : Prop :=
  ∃ m, f q = some m ∧ m.type = "file"

inductive WFT : MerkleNode → List String → Prop where
  | node : ∀ hs ty pa ch sz mt P,
      pa = encode P →
      (ty = "file" ∨ ty = "directory") →
      (ty = "file" → ch = []) →
      (ch.map (fun p => p.1)).Nodup →
      (∀ p ∈ ch, goodName p.1 = true) →
      (∀ p ∈ ch, WFT p.2 (P ++ [p.1])) →
      WFT (MerkleNode.mk hs ty pa ch sz mt) P

theorem WFT.destruct {t : MerkleNode} {P : List String} (h : WFT t P) :
    t.path = encode P ∧ (t.type = "file" ∨ t.type = "directory") ∧
    (t.type = "file" → t.children = []) ∧
    (t.children.map (fun p => p.1)).Nodup ∧
    (∀ p ∈ t.children, goodName p.1 = true) ∧
    (∀ p ∈ t.children, WFT p.2 (P ++ [p.1])) := by
  cases h with
  | node hs ty pa ch sz mt P h1 h2 h3 h4 h5 h6 =>
    exact ⟨h1, h2, h3, h4, h5, h6⟩

mutual

/-- Executable well-formedness check, for witnesses. -/
def tcB : MerkleNode → List String → Bool
  | .mk _ ty pa ch _ _, P =>
    decide (pa = encode P) &&
    (decide (ty = "file") || decide (ty = "directory")) &&
    (!decide (ty = "file") || ch.isEmpty) &&
    decide ((ch.map (fun p => p.1)).Nodup) &&
    ch.all (fun p => goodName p.1) &&
    tcChildren ch P

def tcChildren : List (String × MerkleNode) → List String → Bool
  | [], _ => true
  | p :: rest, P => tcB p.2 (P ++ [p.1]) && tcChildren rest P

end

theorem tcChildren_mem {ch : List (String × MerkleNode)} {P : List String}
    (h : tcChildren ch P = true) :
    ∀ p ∈ ch, tcB p.2 (P ++ [p.1]) = true := by
  induction ch with
  | nil => intro p hp; simp at hp
  | cons q rest ih =>
    intro p hp
    simp only [tcChildren, Bool.and_eq_true] at h
    rcases List.mem_cons.mp hp with hc | hc
    · rw [hc]; exact h.1
    · exact ih h.2 p hc

theorem tcB_sound : ∀ (t : MerkleNode) (P : List String),
    tcB t P = true → WFT t P := by
  intro t
  induction t using MerkleNode.indNode with
  | h hs ty pa ch sz mt ih =>
    intro P h
    simp only [tcB, Bool.and_eq_true, Bool.or_eq_true, decide_eq_true_eq,
      Bool.not_eq_true', decide_eq_false_iff_not, List.all_eq_true] at h
    obtain ⟨⟨⟨⟨⟨h1, h2⟩, h3⟩, h4⟩, h5⟩, h6⟩ := h
    refine WFT.node hs ty pa ch sz mt P h1 h2 ?_ h4 h5 ?_
    · intro hf
      rcases h3 with hc | hc
      · exact absurd hf hc
      · exact List.isEmpty_iff.mp hc
    · intro p hp
      exact ih p hp (P ++ [p.1]) (tcChildren_mem h6 p hp)

def optWFT : Option MerkleNode → Prop
  | none => True
  | some r => WFT r []

def optTcB : Option MerkleNode → Bool
  | none => true
  | some r => tcB r []

theorem optTcB_sound (o : Option MerkleNode) (h : optTcB o = true) : optWFT o := by
  cases o with
  | none => trivial
  | some r => exact tcB_sound r [] h

/-- In a child list with distinct names, `find?` by an element's name returns
that element. -/
theorem find_of_nodup {ch : List (String × MerkleNode)}
    (hnd : (ch.map (fun p => p.1)).Nodup) {p : String × MerkleNode}
    (hp : p ∈ ch) : ch.find? (fun q => q.1 = p.1) = some p := by
  induction ch with
  | nil => simp at hp
  | cons a rest ih =>
    rcases List.mem_cons.mp hp with hc | hc
    · subst hc
      exact List.find?_cons_of_pos _ (by simp)
    · have hnd2 : a.1 ∉ rest.map (fun p => p.1) ∧
          (rest.map (fun p => p.1)).Nodup := by
        rw [List.map_cons, List.nodup_cons] at hnd
        exact hnd
      have hne : ¬(a.1 = p.1) := by
        intro he
        exact hnd2.1 (he ▸ List.mem_map.mpr ⟨p, hc, rfl⟩)
      rw [List.find?_cons_of_neg _ (by simpa using hne)]
      exact ih hnd2.2 hc

theorem collectChildren_mem {x : String} :
    ∀ {ch : List (String × MerkleNode)},
      x ∈ collectChildren ch ↔ ∃ p ∈ ch, x ∈ collectAllFiles p.2 := by
  intro ch
  induction ch with
  | nil => simp [collectChildren]
  | cons a rest ih =>
    cases a with
    | mk nm c =>
      simp only [collectChildren, List.mem_append, ih]
      constructor
      · rintro (hc | ⟨p, hp, hx⟩)
        · exact ⟨(nm, c), by simp, hc⟩
        · exact ⟨p, by simp [hp], hx⟩
      · rintro ⟨p, hp, hx⟩
        rcases List.mem_cons.mp hp with hc | hc
        · subst hc; exact Or.inl hx
        · exact Or.inr ⟨p, hc, hx⟩

theorem WFT_nodeAt : ∀ (q : List String) (t : MerkleNode) (P : List String)
    (m : MerkleNode), WFT t P → nodeAt t q = some m → WFT m (P ++ q)
  | [], t, P, m, h, hm => by
    simp only [nodeAt, Option.some.injEq] at hm
    subst hm
    simpa using h
  | nm :: rest, t, P, m, h, hm => by
    simp only [nodeAt] at hm
    rcases hfind : t.children.find? (fun p => p.1 = nm) with _ | p
    · rw [hfind] at hm; simp at hm
    · rw [hfind] at hm
      have hp : p ∈ t.children := List.mem_of_find?_eq_some hfind
      have hnm : p.1 = nm := by
        have := List.find?_some hfind
        simpa using this
      have hwp : WFT p.2 (P ++ [p.1]) := (h.destruct).2.2.2.2.2 p hp
      have := WFT_nodeAt rest p.2 (P ++ [p.1]) m hwp hm
      rw [hnm] at this
      simpa [List.append_assoc] using this

theorem nodeAt_good : ∀ (q : List String) (t : MerkleNode) (P : List String)
    (m : MerkleNode), WFT t P → nodeAt t q = some m →
    ∀ a ∈ q, goodName a = true
  | [], _, _, _, _, _ => by simp
  | nm :: rest, t, P, m, h, hm => by
    simp only [nodeAt] at hm
    rcases hfind : t.children.find? (fun p => p.1 = nm) with _ | p
    · rw [hfind] at hm; simp at hm
    · rw [hfind] at hm
      have hp : p ∈ t.children := List.mem_of_find?_eq_some hfind
      have hnm : p.1 = nm := by
        have := List.find?_some hfind
        simpa using this
      have hwp : WFT p.2 (P ++ [p.1]) := (h.destruct).2.2.2.2.2 p hp
      intro a ha
      rcases List.mem_cons.mp ha with hc | hc
      · subst hc
        exact hnm ▸ (h.destruct).2.2.2.2.1 p hp
      · exact nodeAt_good rest p.2 (P ++ [p.1]) m hwp hm a hc

theorem collect_sound : ∀ (t : MerkleNode) (P : List String), WFT t P →
    ∀ x ∈ collectAllFiles t,
      ∃ q, (∀ a ∈ q, goodName a = true) ∧
        (∃ m, nodeAt t q = some m ∧ m.type = "file") ∧
        x = encode (P ++ q) := by
  intro t
  induction t using MerkleNode.indNode with
  | h hs ty pa ch sz mt ih =>
    intro P hw x hx
    by_cases hty : ty = "file"
    · simp only [collectAllFiles, if_pos hty, List.mem_singleton] at hx
      refine ⟨[], by simp, ⟨MerkleNode.mk hs ty pa ch sz mt, rfl, hty⟩, ?_⟩
      rw [hx, List.append_nil]
      exact (hw.destruct).1
    · simp only [collectAllFiles, if_neg hty] at hx
      rcases collectChildren_mem.mp hx with ⟨p, hp, hxp⟩
      have hwp : WFT p.2 (P ++ [p.1]) :=
        (hw.destruct).2.2.2.2.2 p hp
      rcases ih p hp (P ++ [p.1]) hwp x hxp with ⟨q, hgood, ⟨m, hm, hmf⟩, hxe⟩
      refine ⟨p.1 :: q, ?_, ⟨m, ?_, hmf⟩, ?_⟩
      · intro a ha
        rcases List.mem_cons.mp ha with hc | hc
        · exact hc ▸ (hw.destruct).2.2.2.2.1 p hp
        · exact hgood a hc
      · have hfind : (MerkleNode.mk hs ty pa ch sz mt).children.find?
            (fun q => q.1 = p.1) = some p :=
          find_of_nodup (hw.destruct).2.2.2.1 hp
        simp only [nodeAt, hfind]
        exact hm
      · rw [hxe]
        simp [List.append_assoc]

theorem collect_complete : ∀ (q : List String) (t : MerkleNode)
    (P : List String) (m : MerkleNode), WFT t P → nodeAt t q = some m →
    m.type = "file" → encode (P ++ q) ∈ collectAllFiles t
  | [], t, P, m, hw, hm, hf => by
    simp only [nodeAt, Option.some.injEq] at hm
    subst hm
    cases t with
    | mk hs ty pa ch sz mt =>
      simp only [collectAllFiles]
      rw [if_pos (by simpa [MerkleNode.type] using hf)]
      simp only [List.append_nil, List.mem_singleton]
      exact ((hw.destruct).1).symm ▸ rfl
  | nm :: rest, t, P, m, hw, hm, hf => by
    simp only [nodeAt] at hm
    rcases hfind : t.children.find? (fun p => p.1 = nm) with _ | p
    · rw [hfind] at hm; simp at hm
    · rw [hfind] at hm
      have hp : p ∈ t.children := List.mem_of_find?_eq_some hfind
      have hnm : p.1 = nm := by
        have := List.find?_some hfind
        simpa using this
      have hwp : WFT p.2 (P ++ [p.1]) := (hw.destruct).2.2.2.2.2 p hp
      have hty : t.type ≠ "file" := by
        intro hc
        have : t.children = [] := (hw.destruct).2.2.1 hc
        rw [this] at hp
        simp at hp
      have hrec := collect_complete rest p.2 (P ++ [p.1]) m hwp hm hf
      cases t with
      | mk hs ty pa ch sz mt =>
        simp only [collectAllFiles]
        rw [if_neg (by simpa [MerkleNode.type] using hty)]
        refine collectChildren_mem.mpr ⟨p, by simpa [MerkleNode.children]
          using hp, ?_⟩
        rw [hnm] at hrec
        simpa [List.append_assoc] using hrec

mutual

/-- All `file` nodes of a tree (used to name "the file at a path"). -/
def fileNodesList : MerkleNode → List MerkleNode
  | .mk hs ty pa ch sz mt =>
    if ty = "file" then [MerkleNode.mk hs ty pa ch sz mt]
    else fileNodesChildren ch

def fileNodesChildren : List (String × MerkleNode) → List MerkleNode
  | [] => []
  | (_, c) :: rest => fileNodesList c ++ fileNodesChildren rest

end

theorem fileNodesChildren_mem {m : MerkleNode} :
    ∀ {ch : List (String × MerkleNode)},
      m ∈ fileNodesChildren ch ↔ ∃ p ∈ ch, m ∈ fileNodesList p.2 := by
  intro ch
  induction ch with
  | nil => simp [fileNodesChildren]
  | cons a rest ih =>
    cases a with
    | mk nm c =>
      simp only [fileNodesChildren, List.mem_append, ih]
      constructor
      · rintro (hc | ⟨p, hp, hx⟩)
        · exact ⟨(nm, c), by simp, hc⟩
        · exact ⟨p, by simp [hp], hx⟩
      · rintro ⟨p, hp, hx⟩
        rcases List.mem_cons.mp hp with hc | hc
        · subst hc; exact Or.inl hx
        · exact Or.inr ⟨p, hc, hx⟩

theorem fileNodes_sound : ∀ (t : MerkleNode) (P : List String), WFT t P →
    ∀ m ∈ fileNodesList t,
      ∃ q, (∀ a ∈ q, goodName a = true) ∧ nodeAt t q = some m ∧
        m.type = "file" := by
  intro t
  induction t using MerkleNode.indNode with
  | h hs ty pa ch sz mt ih =>
    intro P hw m hm
    by_cases hty : ty = "file"
    · simp only [fileNodesList, if_pos hty, List.mem_singleton] at hm
      subst hm
      exact ⟨[], by simp, rfl, hty⟩
    · simp only [fileNodesList, if_neg hty] at hm
      rcases fileNodesChildren_mem.mp hm with ⟨p, hp, hmp⟩
      have hwp : WFT p.2 (P ++ [p.1]) := (hw.destruct).2.2.2.2.2 p hp
      rcases ih p hp (P ++ [p.1]) hwp m hmp with ⟨q, hgood, hnode, hmf⟩
      refine ⟨p.1 :: q, ?_, ?_, hmf⟩
      · intro a ha
        rcases List.mem_cons.mp ha with hc | hc
        · exact hc ▸ (hw.destruct).2.2.2.2.1 p hp
        · exact hgood a hc
      · have hfind : (MerkleNode.mk hs ty pa ch sz mt).children.find?
            (fun q => q.1 = p.1) = some p :=
          find_of_nodup (hw.destruct).2.2.2.1 hp
        simp only [nodeAt, hfind]
        exact hnode

theorem fileNodes_complete : ∀ (q : List String) (t : MerkleNode)
    (P : List String) (m : MerkleNode), WFT t P → nodeAt t q = some m →
    m.type = "file" → m ∈ fileNodesList t
  | [], t, P, m, hw, hm, hf => by
    simp only [nodeAt, Option.some.injEq] at hm
    subst hm
    cases t with
    | mk hs ty pa ch sz mt =>
      simp only [fileNodesList]
      rw [if_pos (by simpa [MerkleNode.type] using hf)]
      simp
  | nm :: rest, t, P, m, hw, hm, hf => by
    simp only [nodeAt] at hm
    rcases hfind : t.children.find? (fun p => p.1 = nm) with _ | p
    · rw [hfind] at hm; simp at hm
    · rw [hfind] at hm
      have hp : p ∈ t.children := List.mem_of_find?_eq_some hfind
      have hwp : WFT p.2 (P ++ [p.1]) := (hw.destruct).2.2.2.2.2 p hp
      have hty : t.type ≠ "file" := by
        intro hc
        have : t.children = [] := (hw.destruct).2.2.1 hc
        rw [this] at hp
        simp at hp
      have hrec := fileNodes_complete rest p.2 (P ++ [p.1]) m hwp hm hf
      cases t with
      | mk hs ty pa ch sz mt =>
        simp only [fileNodesList]
        rw [if_neg (by simpa [MerkleNode.type] using hty)]
        exact fileNodesChildren_mem.mpr
          ⟨p, by simpa [MerkleNode.children] using hp, hrec⟩

theorem nodeAt_leaf (t : MerkleNode) (h : t.children = []) (nm : String)
    (rest : List String) : nodeAt t (nm :: rest) = none := by
  cases t with
  | mk hs ty pa ch sz mt =>
    simp only [MerkleNode.children] at h
    subst h
    rfl

/-! ## Soundness of the tree diff (claim C1) -/

/-- Soundness of one diff contribution at base position `P`: every emitted
path is the encoded position of a file that is present / absent / changed as
required.  `ok` constrains the shape of the witness position (used during the
induction over child lists). -/
def DiffSound (ok : List String → Prop)
    (fo fn : List String → Option MerkleNode) (P : List String)
    (d : TreeDiff) : Prop :=
  (∀ x ∈ d.new, ∃ q, ok q ∧ (∀ a ∈ q, goodName a = true) ∧
    IsFileVia fn q ∧ ¬ IsFileVia fo q ∧ x = encode (P ++ q)) ∧
  (∀ x ∈ d.deleted, ∃ q, ok q ∧ (∀ a ∈ q, goodName a = true) ∧
    IsFileVia fo q ∧ ¬ IsFileVia fn q ∧ x = encode (P ++ q)) ∧
  (∀ x ∈ d.modified, ∃ q a b, ok q ∧ (∀ y ∈ q, goodName y = true) ∧
    fo q = some a ∧ fn q = some b ∧ a.type = "file" ∧ b.type = "file" ∧
    a.hash ≠ b.hash ∧ x = encode (P ++ q))

theorem DiffSound_empty (ok : List String → Prop)
    (fo fn : List String → Option MerkleNode) (P : List String) :
    DiffSound ok fo fn P {} := by
  refine ⟨?_, ?_, ?_⟩ <;> intro x hx <;> simp at hx

theorem DiffSound_append {ok fo fn P d1 d2}
    (h1 : DiffSound ok fo fn P d1) (h2 : DiffSound ok fo fn P d2) :
    DiffSound ok fo fn P (d1.append d2) := by
  refine ⟨?_, ?_, ?_⟩ <;> intro x hx
  · rcases List.mem_append.mp hx with hc | hc
    · exact h1.1 x hc
    · exact h2.1 x hc
  · rcases List.mem_append.mp hx with hc | hc
    · exact h1.2.1 x hc
    · exact h2.2.1 x hc
  · rcases List.mem_append.mp hx with hc | hc
    · exact h1.2.2 x hc
    · exact h2.2.2 x hc

theorem DiffSound_mono {ok ok2 : List String → Prop} {fo fn P d}
    (hmono : ∀ q, ok q → ok2 q) (h : DiffSound ok fo fn P d) :
    DiffSound ok2 fo fn P d := by
  refine ⟨?_, ?_, ?_⟩ <;> intro x hx
  · rcases h.1 x hx with ⟨q, h1, h2, h3, h4, h5⟩
    exact ⟨q, hmono q h1, h2, h3, h4, h5⟩
  · rcases h.2.1 x hx with ⟨q, h1, h2, h3, h4, h5⟩
    exact ⟨q, hmono q h1, h2, h3, h4, h5⟩
  · rcases h.2.2 x hx with ⟨q, a, b, h1, h2, h3, h4, h5, h6, h7, h8⟩
    exact ⟨q, a, b, hmono q h1, h2, h3, h4, h5, h6, h7, h8⟩

theorem DiffSound_congr {ok : List String → Prop}
    {fo fn fo2 fn2 : List String → Option MerkleNode} {P d}
    (ho : ∀ q, ok q → fo2 q = fo q) (hn : ∀ q, ok q → fn2 q = fn q)
    (h : DiffSound ok fo fn P d) : DiffSound ok fo2 fn2 P d := by
  refine ⟨?_, ?_, ?_⟩ <;> intro x hx
  · rcases h.1 x hx with ⟨q, h1, h2, h3, h4, h5⟩
    refine ⟨q, h1, h2, ?_, ?_, h5⟩
    · rcases h3 with ⟨m, hm, hf⟩
      exact ⟨m, (hn q h1).trans hm, hf⟩
    · rintro ⟨m, hm, hf⟩
      exact h4 ⟨m, ((ho q h1).symm.trans hm), hf⟩
  · rcases h.2.1 x hx with ⟨q, h1, h2, h3, h4, h5⟩
    refine ⟨q, h1, h2, ?_, ?_, h5⟩
    · rcases h3 with ⟨m, hm, hf⟩
      exact ⟨m, (ho q h1).trans hm, hf⟩
    · rintro ⟨m, hm, hf⟩
      exact h4 ⟨m, ((hn q h1).symm.trans hm), hf⟩
  · rcases h.2.2 x hx with ⟨q, a, b, h1, h2, h3, h4, h5, h6, h7, h8⟩
    exact ⟨q, a, b, h1, h2, (ho q h1).trans h3, (hn q h1).trans h4,
      h5, h6, h7, h8⟩

theorem DiffSound_shift {ok : List String → Prop}
    {fo fn : List String → Option MerkleNode} {P : List String} {d : TreeDiff}
    {nm : String} {ok2 : List String → Prop}
    {fo2 fn2 : List String → Option MerkleNode}
    (hok : ∀ q, ok q → ok2 (nm :: q))
    (ho : ∀ q, fo2 (nm :: q) = fo q) (hn : ∀ q, fn2 (nm :: q) = fn q)
    (hg : goodName nm = true)
    (h : DiffSound ok fo fn (P ++ [nm]) d) : DiffSound ok2 fo2 fn2 P d := by
  have henc : ∀ q : List String, encode ((P ++ [nm]) ++ q) =
      encode (P ++ nm :: q) := by
    intro q
    rw [List.append_assoc]
    rfl
  refine ⟨?_, ?_, ?_⟩ <;> intro x hx
  · rcases h.1 x hx with ⟨q, h1, h2, h3, h4, h5⟩
    refine ⟨nm :: q, hok q h1, ?_, ?_, ?_, by rw [h5, henc]⟩
    · intro a ha
      rcases List.mem_cons.mp ha with hc | hc
      · exact hc ▸ hg
      · exact h2 a hc
    · rcases h3 with ⟨m, hm, hf⟩
      exact ⟨m, (hn q).trans hm, hf⟩
    · rintro ⟨m, hm, hf⟩
      exact h4 ⟨m, ((ho q).symm.trans hm), hf⟩
  · rcases h.2.1 x hx with ⟨q, h1, h2, h3, h4, h5⟩
    refine ⟨nm :: q, hok q h1, ?_, ?_, ?_, by rw [h5, henc]⟩
    · intro a ha
      rcases List.mem_cons.mp ha with hc | hc
      · exact hc ▸ hg
      · exact h2 a hc
    · rcases h3 with ⟨m, hm, hf⟩
      exact ⟨m, (ho q).trans hm, hf⟩
    · rintro ⟨m, hm, hf⟩
      exact h4 ⟨m, ((hn q).symm.trans hm), hf⟩
  · rcases h.2.2 x hx with ⟨q, a, b, h1, h2, h3, h4, h5, h6, h7, h8⟩
    refine ⟨nm :: q, a, b, hok q h1, ?_, (ho q).trans h3, (hn q).trans h4,
      h5, h6, h7, by rw [h8, henc]⟩
    intro y hy
    rcases List.mem_cons.mp hy with hc | hc
    · exact hc ▸ hg
    · exact h2 y hc

theorem nodeAt_cons_some {t : MerkleNode} {nm : String}
    {p : String × MerkleNode} (h : t.children.find? (fun q => q.1 = nm) = some p)
    (rest : List String) : nodeAt t (nm :: rest) = nodeAt p.2 rest := by
  cases t with
  | mk hs ty pa ch sz mt =>
    simp only [MerkleNode.children] at h
    simp only [nodeAt, MerkleNode.children, h]

theorem nodeAt_cons_none {t : MerkleNode} {nm : String}
    (h : t.children.find? (fun q => q.1 = nm) = none)
    (rest : List String) : nodeAt t (nm :: rest) = none := by
  cases t with
  | mk hs ty pa ch sz mt =>
    simp only [MerkleNode.children] at h
    simp only [nodeAt, MerkleNode.children, h]

theorem chAt_cons_some {ch : List (String × MerkleNode)} {nm : String}
    {p : String × MerkleNode} (h : ch.find? (fun q => q.1 = nm) = some p)
    (rest : List String) : chAt ch (nm :: rest) = nodeAt p.2 rest := by
  simp only [chAt, h]

theorem chAt_cons_none {ch : List (String × MerkleNode)} {nm : String}
    (h : ch.find? (fun q => q.1 = nm) = none)
    (rest : List String) : chAt ch (nm :: rest) = none := by
  simp only [chAt, h]

theorem compareNodes_hash_eq {o n : MerkleNode} (h : o.hash = n.hash) :
    compareNodes o n = {} := by
  unfold compareNodes
  rw [if_pos h]

theorem compareNodes_files {o n : MerkleNode} (h1 : ¬(o.hash = n.hash))
    (h2 : o.type = "file") (h3 : n.type = "file") :
    compareNodes o n = { modified := [n.path] } := by
  unfold compareNodes
  rw [if_neg h1, if_pos (by simp [h2, h3])]

theorem compareNodes_typechange {o n : MerkleNode} (h1 : ¬(o.hash = n.hash))
    (h2 : ¬(o.type = "file" ∧ n.type = "file")) (h3 : o.type ≠ n.type) :
    compareNodes o n =
      { new := collectAllFiles n, deleted := collectAllFiles o } := by
  unfold compareNodes
  rw [if_neg h1, if_neg (by simpa using h2)]
  simp only [if_pos h3]

theorem compareNodes_dirs {o n : MerkleNode} (h1 : ¬(o.hash = n.hash))
    (h2 : o.type = "directory") (h3 : n.type = "directory") :
    compareNodes o n = TreeDiff.append
      { new := collectChildren (n.children.filter
          (fun p => !(o.children.any (fun q => q.1 = p.1)))),
        modified := [],
        deleted := collectChildren (o.children.filter
          (fun p => !(n.children.any (fun q => q.1 = p.1)))) }
      (compareBoth o.children n.children) := by
  unfold compareNodes
  rw [if_neg h1, if_neg (by simp [h2]), if_pos h2, if_pos h3]
  rw [if_neg (by simp [h2, h3])]

theorem compareBoth_nil (r : List (String × MerkleNode)) :
    compareBoth [] r = {} := by
  unfold compareBoth
  rfl

theorem compareBoth_cons_some {nm : String} {oc : MerkleNode}
    {rest newCh : List (String × MerkleNode)} {q : String × MerkleNode}
    (hq : newCh.find? (fun p => p.1 = nm) = some q) :
    compareBoth ((nm, oc) :: rest) newCh =
      TreeDiff.append (compareNodes oc q.2) (compareBoth rest newCh) := by
  conv_lhs => unfold compareBoth
  split
  · rename_i q2 hq2
    rw [hq] at hq2
    rw [Option.some.injEq] at hq2
    rw [hq2]
  · rename_i hq2
    rw [hq] at hq2
    simp at hq2

theorem compareBoth_cons_none {nm : String} {oc : MerkleNode}
    {rest newCh : List (String × MerkleNode)}
    (hq : newCh.find? (fun p => p.1 = nm) = none) :
    compareBoth ((nm, oc) :: rest) newCh = compareBoth rest newCh := by
  conv_lhs => unfold compareBoth
  split
  · rename_i q2 hq2
    rw [hq] at hq2
    simp at hq2
  · rfl

def SoundN (o n : MerkleNode) : Prop :=
  ∀ P, WFT o P → WFT n P →
    DiffSound (fun _ => True) (nodeAt o) (nodeAt n) P (compareNodes o n)

def SoundB (l r : List (String × MerkleNode)) : Prop :=
  ∀ P, (∀ p ∈ l, goodName p.1 = true ∧ WFT p.2 (P ++ [p.1])) →
    (∀ p ∈ r, goodName p.1 = true ∧ WFT p.2 (P ++ [p.1])) →
    (l.map (fun p => p.1)).Nodup →
    DiffSound
      (fun q => ∃ nm rest, q = nm :: rest ∧ nm ∈ l.map (fun p => p.1))
      (chAt l) (chAt r) P (compareBoth l r)

theorem compare_sound : ∀ (o n : MerkleNode), SoundN o n := by
  refine compareNodes.induct SoundN SoundB ?_ ?_ ?_ ?_ ?_ ?_ ?_
  · -- node hashes equal: empty diff
    intro o n h P hwo hwn
    rw [compareNodes_hash_eq h]
    exact DiffSound_empty _ _ _ _
  · -- both files: one modified entry
    intro o n h1 h2 P hwo hwn
    have h2e : o.type = "file" ∧ n.type = "file" := by simpa using h2
    rw [compareNodes_files h1 h2e.1 h2e.2]
    refine ⟨?_, ?_, ?_⟩
    · intro x hx; simp at hx
    · intro x hx; simp at hx
    · intro x hx
      have hx2 : x = n.path := by simpa using hx
      refine ⟨[], o, n, trivial, by simp, rfl, rfl, h2e.1, h2e.2, h1, ?_⟩
      rw [hx2, List.append_nil]
      exact (hwn.destruct).1
  · -- type change: whole subtrees emitted
    intro o n h1 h2 h3 P hwo hwn
    have h2e : ¬(o.type = "file" ∧ n.type = "file") := by simpa using h2
    rw [compareNodes_typechange h1 h2e h3]
    refine ⟨?_, ?_, ?_⟩
    · intro x hx
      rcases collect_sound n P hwn x hx with ⟨q, hg, ⟨m, hm, hf⟩, he⟩
      refine ⟨q, trivial, hg, ⟨m, hm, hf⟩, ?_, he⟩
      rintro ⟨m2, hm2, hf2⟩
      cases q with
      | nil =>
        simp only [nodeAt, Option.some.injEq] at hm hm2
        exact h2e ⟨hm2 ▸ hf2, hm ▸ hf⟩
      | cons nm rest =>
        rcases (hwo.destruct).2.1 with hof | hod
        · have hleaf : o.children.find? (fun q => q.1 = nm) = none := by
            rw [(hwo.destruct).2.2.1 hof]
            rfl
          rw [nodeAt_cons_none hleaf rest] at hm2
          exact absurd hm2 (by simp)
        · rcases (hwn.destruct).2.1 with hnf | hnd2
          · have hleaf : n.children.find? (fun q => q.1 = nm) = none := by
              rw [(hwn.destruct).2.2.1 hnf]
              rfl
            rw [nodeAt_cons_none hleaf rest] at hm
            exact absurd hm (by simp)
          · exact h3 (hod.trans hnd2.symm)
    · intro x hx
      rcases collect_sound o P hwo x hx with ⟨q, hg, ⟨m, hm, hf⟩, he⟩
      refine ⟨q, trivial, hg, ⟨m, hm, hf⟩, ?_, he⟩
      rintro ⟨m2, hm2, hf2⟩
      cases q with
      | nil =>
        simp only [nodeAt, Option.some.injEq] at hm hm2
        exact h2e ⟨hm ▸ hf, hm2 ▸ hf2⟩
      | cons nm rest =>
        rcases (hwo.destruct).2.1 with hof | hod
        · have hleaf : o.children.find? (fun q => q.1 = nm) = none := by
            rw [(hwo.destruct).2.2.1 hof]
            rfl
          rw [nodeAt_cons_none hleaf rest] at hm
          exact absurd hm (by simp)
        · rcases (hwn.destruct).2.1 with hnf | hnd2
          · have hleaf : n.children.find? (fun q => q.1 = nm) = none := by
              rw [(hwn.destruct).2.2.1 hnf]
              rfl
            rw [nodeAt_cons_none hleaf rest] at hm2
            exact absurd hm2 (by simp)
          · exact h3 (hod.trans hnd2.symm)
    · intro x hx; simp at hx
  · -- both directories: children comparison
    intro o n h1 h2 oldCh newCh hcond ihB P hwo hwn
    have heq : o.type = n.type := not_not.mp hcond
    have h2e : ¬(o.type = "file" ∧ n.type = "file") := by simpa using h2
    have hod : o.type = "directory" := by
      rcases (hwo.destruct).2.1 with hc | hc
      · exact absurd ⟨hc, heq.symm.trans hc⟩ h2e
      · exact hc
    have hnd2 : n.type = "directory" := heq.symm.trans hod
    rw [compareNodes_dirs h1 hod hnd2]
    apply DiffSound_append
    · refine ⟨?_, ?_, ?_⟩
      · intro x hx
        rcases collectChildren_mem.mp hx with ⟨p, hp, hxp⟩
        have hpf := List.mem_filter.mp hp
        have hpn : p ∈ n.children := hpf.1
        have habsent : o.children.find? (fun q => q.1 = p.1) = none := by
          apply List.find?_eq_none.mpr
          intro a ha
          have h4 := hpf.2
          simp only [Bool.not_eq_true'] at h4
          have h5 := List.any_eq_false.mp h4 a ha
          simpa using h5
        have hwp : WFT p.2 (P ++ [p.1]) := (hwn.destruct).2.2.2.2.2 p hpn
        rcases collect_sound p.2 (P ++ [p.1]) hwp x hxp with
          ⟨q, hg, ⟨m, hm, hf⟩, he⟩
        refine ⟨p.1 :: q, trivial, ?_, ⟨m, ?_, hf⟩, ?_, ?_⟩
        · intro a ha
          rcases List.mem_cons.mp ha with hc | hc
          · exact hc ▸ (hwn.destruct).2.2.2.2.1 p hpn
          · exact hg a hc
        · rw [nodeAt_cons_some (find_of_nodup (hwn.destruct).2.2.2.1 hpn) q]
          exact hm
        · rintro ⟨m2, hm2, hf2⟩
          rw [nodeAt_cons_none habsent q] at hm2
          exact absurd hm2 (by simp)
        · rw [he, List.append_assoc]
          rfl
      · intro x hx
        rcases collectChildren_mem.mp hx with ⟨p, hp, hxp⟩
        have hpf := List.mem_filter.mp hp
        have hpo : p ∈ o.children := hpf.1
        have habsent : n.children.find? (fun q => q.1 = p.1) = none := by
          apply List.find?_eq_none.mpr
          intro a ha
          have h4 := hpf.2
          simp only [Bool.not_eq_true'] at h4
          have h5 := List.any_eq_false.mp h4 a ha
          simpa using h5
        have hwp : WFT p.2 (P ++ [p.1]) := (hwo.destruct).2.2.2.2.2 p hpo
        rcases collect_sound p.2 (P ++ [p.1]) hwp x hxp with
          ⟨q, hg, ⟨m, hm, hf⟩, he⟩
        refine ⟨p.1 :: q, trivial, ?_, ⟨m, ?_, hf⟩, ?_, ?_⟩
        · intro a ha
          rcases List.mem_cons.mp ha with hc | hc
          · exact hc ▸ (hwo.destruct).2.2.2.2.1 p hpo
          · exact hg a hc
        · rw [nodeAt_cons_some (find_of_nodup (hwo.destruct).2.2.2.1 hpo) q]
          exact hm
        · rintro ⟨m2, hm2, hf2⟩
          rw [nodeAt_cons_none habsent q] at hm2
          exact absurd hm2 (by simp)
        · rw [he, List.append_assoc]
          rfl
      · intro x hx; simp at hx
    · unfold_let oldCh newCh at ihB
      rw [dif_pos hod, dif_pos hnd2] at ihB
      have hsb := ihB P
        (fun p hp => ⟨(hwo.destruct).2.2.2.2.1 p hp,
          (hwo.destruct).2.2.2.2.2 p hp⟩)
        (fun p hp => ⟨(hwn.destruct).2.2.2.2.1 p hp,
          (hwn.destruct).2.2.2.2.2 p hp⟩)
        (hwo.destruct).2.2.2.1
      refine DiffSound_mono (fun q _ => trivial)
        (DiffSound_congr ?_ ?_ hsb)
      · intro q hq
        rcases hq with ⟨nm, rest, hqe, hnm⟩
        subst hqe
        exact nodeAt_cons o nm rest
      · intro q hq
        rcases hq with ⟨nm, rest, hqe, hnm⟩
        subst hqe
        exact nodeAt_cons n nm rest
  · -- compareBoth, empty old list
    intro r P hl hr hnd
    rw [compareBoth_nil]
    exact DiffSound_empty _ _ _ _
  · -- compareBoth, head matched in the new children
    intro nm oc rest newCh q hfind ih1 ihrest P hl hr hnd
    rw [compareBoth_cons_some hfind]
    have hgood_nm : goodName nm = true := (hl (nm, oc) (by simp)).1
    have hw_oc : WFT oc (P ++ [nm]) := (hl (nm, oc) (by simp)).2
    have hqmem : q ∈ newCh := List.mem_of_find?_eq_some hfind
    have hq1 : q.1 = nm := by simpa using List.find?_some hfind
    have hw_q : WFT q.2 (P ++ [nm]) := by
      have h5 := (hr q hqmem).2
      rwa [hq1] at h5
    have hnd2 : nm ∉ rest.map (fun p => p.1) ∧
        (rest.map (fun p => p.1)).Nodup := by
      rw [List.map_cons, List.nodup_cons] at hnd
      exact hnd
    apply DiffSound_append
    · have hchild := ih1 (P ++ [nm]) hw_oc hw_q
      refine DiffSound_shift ?_ ?_ ?_ hgood_nm hchild
      · intro q2 _
        exact ⟨nm, q2, rfl, by simp⟩
      · intro q2
        have hhead : ((nm, oc) :: rest).find? (fun p => p.1 = nm) =
            some (nm, oc) := List.find?_cons_of_pos _ (by simp)
        rw [chAt_cons_some hhead q2]
      · intro q2
        rw [chAt_cons_some hfind q2]
    · have hrest := ihrest P (fun p hp => hl p (by simp [hp])) hr hnd2.2
      refine DiffSound_mono ?_ (DiffSound_congr ?_ (fun q2 _ => rfl) hrest)
      · intro q2 hq2
        rcases hq2 with ⟨nm2, rest2, hq2e, hmem⟩
        exact ⟨nm2, rest2, hq2e, by simp [hmem]⟩
      · intro q2 hq2
        rcases hq2 with ⟨nm2, rest2, hq2e, hmem⟩
        subst hq2e
        have hne : ¬((nm, oc).1 = nm2) := by
          intro he
          have he2 : nm = nm2 := by simpa using he
          exact hnd2.1 (by rw [he2]; exact hmem)
        have hstep : ((nm, oc) :: rest).find? (fun p => p.1 = nm2) =
            rest.find? (fun p => p.1 = nm2) :=
          List.find?_cons_of_neg _ (by simpa using hne)
        simp only [chAt, hstep]
  · -- compareBoth, head unmatched
    intro nm oc rest newCh hfind ihrest P hl hr hnd
    rw [compareBoth_cons_none hfind]
    have hnd2 : nm ∉ rest.map (fun p => p.1) ∧
        (rest.map (fun p => p.1)).Nodup := by
      rw [List.map_cons, List.nodup_cons] at hnd
      exact hnd
    have hrest := ihrest P (fun p hp => hl p (by simp [hp])) hr hnd2.2
    refine DiffSound_mono ?_ (DiffSound_congr ?_ (fun q2 _ => rfl) hrest)
    · intro q2 hq2
      rcases hq2 with ⟨nm2, rest2, hq2e, hmem⟩
      exact ⟨nm2, rest2, hq2e, by simp [hmem]⟩
    · intro q2 hq2
      rcases hq2 with ⟨nm2, rest2, hq2e, hmem⟩
      subst hq2e
      have hne : ¬((nm, oc).1 = nm2) := by
        intro he
        have he2 : nm = nm2 := by simpa using he
        exact hnd2.1 (by rw [he2]; exact hmem)
      have hstep : ((nm, oc) :: rest).find? (fun p => p.1 = nm2) =
          rest.find? (fun p => p.1 = nm2) :=
        List.find?_cons_of_neg _ (by simpa using hne)
      simp only [chAt, hstep]

/-- The file paths of a Merkle forest (`_collect_all_files` from the root). -/
def collectTreeFiles : Option MerkleNode → List String
  | none => []
  | some r => collectAllFiles r

/-- The file node recorded at a given relative path in a forest. -/
def fileNodeAt : Option MerkleNode → String → Option MerkleNode
  | none, _ => none
  | some r, x => (fileNodesList r).find? (fun m => m.path = x)

theorem not_mem_collect {t : MerkleNode} {q : List String} (hw : WFT t [])
    (hq : ∀ a ∈ q, goodName a = true)
    (hnot : ¬ IsFileVia (nodeAt t) q) : encode q ∉ collectAllFiles t := by
  intro hmem
  rcases collect_sound t [] hw _ hmem with ⟨q2, hg2, hf2, he2⟩
  have hqq : q = q2 := encode_inj q q2 hq hg2 (by simpa using he2)
  exact hnot (hqq ▸ hf2)

theorem fileNodeAt_lookup {t : MerkleNode} {q : List String} {a : MerkleNode}
    (hw : WFT t []) (hq : ∀ y ∈ q, goodName y = true)
    (hn : nodeAt t q = some a) (hf : a.type = "file") :
    (fileNodesList t).find? (fun m => m.path = encode q) = some a := by
  have hmem : a ∈ fileNodesList t := fileNodes_complete q t [] a hw hn hf
  have hpath : a.path = encode q := by
    have h1 := ((WFT_nodeAt q t [] a hw hn).destruct).1
    simpa using h1
  rcases hfound : (fileNodesList t).find? (fun m => m.path = encode q)
    with _ | m
  · exfalso
    have h1 := List.find?_eq_none.mp hfound a hmem
    simp [hpath] at h1
  · have hm2 : m ∈ fileNodesList t := List.mem_of_find?_eq_some hfound
    have hmp : m.path = encode q := by simpa using List.find?_some hfound
    rcases fileNodes_sound t [] hw m hm2 with ⟨q2, hg2, hn2, hf2⟩
    have hq2path : m.path = encode q2 := by
      have h1 := ((WFT_nodeAt q2 t [] m hw hn2).destruct).1
      simpa using h1
    have hqq : q2 = q := encode_inj q2 q hg2 hq (by rw [← hq2path, hmp])
    subst hqq
    rw [hn] at hn2
    rw [Option.some.injEq] at hn2
    rw [hn2]
    exact hfound

/-- The conclusion of claim C1: every emitted `new` path is a file of the new
forest and not of the old, every `deleted` path a file of the old forest and
not of the new, and every `modified` path names file nodes in both forests
with different hashes. -/
def TreeCompareSound (o n : Option MerkleNode) : Prop :=
  (∀ x ∈ (treeCompare o n).new,
    x ∈ collectTreeFiles n ∧ x ∉ collectTreeFiles o) ∧
  (∀ x ∈ (treeCompare o n).deleted,
    x ∈ collectTreeFiles o ∧ x ∉ collectTreeFiles n) ∧
  (∀ x ∈ (treeCompare o n).modified, ∃ a b,
    fileNodeAt o x = some a ∧ fileNodeAt n x = some b ∧ a.hash ≠ b.hash)

/-- **C1.** For every pair of well-formed Merkle forests `(T, T')`,
`MerkleTree.compare(T, T')` returns lists `(new, modified, deleted)` such that
every path in `new` names a file present in `T'` but not in `T`, every path
in `deleted` names a file present in `T` but not in `T'`, and every path in
`modified` names a file present in both trees whose file hashes differ. -/
theorem c1_tree_compare_correct (o n : Option MerkleNode)
    (ho : optWFT o) (hn : optWFT n) : TreeCompareSound o n := by
  cases o with
  | none =>
    cases n with
    | none =>
      refine ⟨?_, ?_, ?_⟩ <;> intro x hx <;> simp [treeCompare] at hx
    | some rn =>
      refine ⟨?_, ?_, ?_⟩
      · intro x hx
        simp only [treeCompare] at hx
        exact ⟨hx, by simp [collectTreeFiles]⟩
      · intro x hx
        simp [treeCompare] at hx
      · intro x hx
        simp [treeCompare] at hx
  | some ro =>
    cases n with
    | none =>
      refine ⟨?_, ?_, ?_⟩
      · intro x hx
        simp [treeCompare] at hx
      · intro x hx
        simp only [treeCompare] at hx
        exact ⟨hx, by simp [collectTreeFiles]⟩
      · intro x hx
        simp [treeCompare] at hx
    | some rn =>
      have hwo : WFT ro [] := ho
      have hwn : WFT rn [] := hn
      have hso := compare_sound ro rn [] hwo hwn
      have htc : treeCompare (some ro) (some rn) = compareNodes ro rn := rfl
      refine ⟨?_, ?_, ?_⟩
      · intro x hx
        rw [htc] at hx
        rcases hso.1 x hx with ⟨q, _, hg, hfn, hfo, he⟩
        constructor
        · rcases hfn with ⟨m, hm, hf⟩
          have h1 := collect_complete q rn [] m hwn hm hf
          simpa [collectTreeFiles, he] using h1
        · have h1 := not_mem_collect hwo hg hfo
          simpa [collectTreeFiles, he] using h1
      · intro x hx
        rw [htc] at hx
        rcases hso.2.1 x hx with ⟨q, _, hg, hfo, hfn, he⟩
        constructor
        · rcases hfo with ⟨m, hm, hf⟩
          have h1 := collect_complete q ro [] m hwo hm hf
          simpa [collectTreeFiles, he] using h1
        · have h1 := not_mem_collect hwn hg hfn
          simpa [collectTreeFiles, he] using h1
      · intro x hx
        rw [htc] at hx
        rcases hso.2.2 x hx with ⟨q, a, b, _, hg, hfo, hfn, hfa, hfb, hne, he⟩
        refine ⟨a, b, ?_, ?_, hne⟩
        · simp only [fileNodeAt]
          rw [he]
          simp only [List.nil_append]
          exact fileNodeAt_lookup hwo hg hfo hfa
        · simp only [fileNodeAt]
          rw [he]
          simp only [List.nil_append]
          exact fileNodeAt_lookup hwn hg hfn hfb

theorem c1_tree_compare_correct_witness :
    optTcB (some (MerkleNode.mk "r1" "directory" "."
      [("a.py", MerkleNode.mk "x" "file" "a.py" [] (some 3) (some 7))]
      none none)) = true ∧
    optTcB (some (MerkleNode.mk "r2" "directory" "."
      [("a.py", MerkleNode.mk "y" "file" "a.py" [] (some 4) (some 9))]
      none none)) = true ∧
    TreeCompareSound
      (some (MerkleNode.mk "r1" "directory" "."
        [("a.py", MerkleNode.mk "x" "file" "a.py" [] (some 3) (some 7))]
        none none))
      (some (MerkleNode.mk "r2" "directory" "."
        [("a.py", MerkleNode.mk "y" "file" "a.py" [] (some 4) (some 9))]
        none none)) :=
  ⟨by decide, by decide,
    c1_tree_compare_correct _ _ (optTcB_sound _ (by decide))
      (optTcB_sound _ (by decide))⟩

/-! ## Search engine (`lance_code_mcp/search.py`)

The LanceDB-backed mode implementations (`vector_search`, `fts_search`,
`fuzzy_search`) issue engine queries, so they enter the model as opaque
functions `String → Nat → List SearchResult`; the pure control flow of
`search`, `hybrid_search` and `_rerank_rrf` is embedded directly.  Scores are
`ℚ`; `elapsed_ms` (wall-clock time) is omitted. -/

structure SearchResult where
  id : String
  text : String
  filepath : String
  filename : String
  name : String
  type : String
  start_line : Nat
  end_line : Nat
  score : ℚ
  vector_score : Option ℚ := none
  fts_score : Option ℚ := none
deriving DecidableEq

structure SearchResults where
  results : List SearchResult
  query : String
  search_type : String
deriving DecidableEq

/-- Python `dict` assignment `d[k] = v`: replace in place, else append. -/
def dictSet {α : Type} : List (String × α) → String → α → List (String × α)
  | [], k, v => [(k, v)]
  | p :: rest, k, v =>
    if p.1 = k then (k, v) :: rest else p :: dictSet rest k v

/-- Python `d.get(k, dflt)`. -/
def dictGetD {α : Type} (l : List (String × α)) (k : String) (dflt : α) : α :=
  match l.find? (fun p => p.1 = k) with
  | some p => p.2
  | none => dflt

/-- Python `d.get(k)` / `d[k]` where presence is known. -/
def dictGet? {α : Type} (l : List (String × α)) (k : String) : Option α :=
  (l.find? (fun p => p.1 = k)).map (fun p => p.2)

/-- Python `k in d`. -/
def dictHas {α : Type} (l : List (String × α)) (k : String) : Bool :=
  l.any (fun p => p.1 = k)

/-- Python `d.keys()` (insertion order). -/
def dictKeys {α : Type} (l : List (String × α)) : List String :=
  l.map (fun p => p.1)

/-- `SearchEngine._rerank_rrf` (`search.py`).  `k` is the RRF constant
(60 at the call site).  Python's `sorted(..., key=..., reverse=True)` is the
stable descending sort `ssort` with `le a b := score b ≤ score a`. -/
def rerankRRF (k : Nat) (vector_results fts_results : List SearchResult)
    (limit : Nat) : List SearchResult :=
  let scores1 := vector_results.enum.foldl
    (fun sc p => dictSet sc p.2.id
      (dictGetD sc p.2.id 0 + 1 / ((k : ℚ) + (p.1 + 1)))) []
  let result_map1 := vector_results.foldl (fun m r => dictSet m r.id r) []
  let vector_scores := vector_results.foldl
    (fun m r => dictSet m r.id (r.vector_score.getD 0)) []
  let scores := fts_results.enum.foldl
    (fun sc p => dictSet sc p.2.id
      (dictGetD sc p.2.id 0 + 1 / ((k : ℚ) + (p.1 + 1)))) scores1
  let result_map := fts_results.foldl
    (fun m r => if dictHas m r.id then m else dictSet m r.id r) result_map1
  let fts_scores := fts_results.foldl
    (fun m r => dictSet m r.id (r.fts_score.getD 0)) []
  let sorted_ids := ssort
    (fun a b => dictGetD scores b 0 ≤ dictGetD scores a 0) (dictKeys scores)
  (sorted_ids.take limit).filterMap (fun idv =>
    (dictGet? result_map idv).map (fun r =>
      { id := r.id, text := r.text, filepath := r.filepath,
        filename := r.filename, name := r.name, type := r.type,
        start_line := r.start_line, end_line := r.end_line,
        score := dictGetD scores idv 0,
        vector_score := dictGet? vector_scores idv,
        fts_score := dictGet? fts_scores idv }))

/-- `SearchEngine.hybrid_search` (`search.py`).  The two mode implementations
are opaque; `bm25_weight` is accepted but unused, exactly as in the source. -/
def hybrid_search (vectorSearch ftsSearch : String → Nat → List SearchResult)
    (query : String) (limit : Nat) (bm25_weight : ℚ) : List SearchResult :=
  let fetch_k := limit * 3
  let vector_results := vectorSearch query fetch_k
  let fts_results := ftsSearch query fetch_k
  if vector_results.isEmpty && fts_results.isEmpty then []
  else if vector_results.isEmpty then fts_results.take limit
  else if fts_results.isEmpty then vector_results.take limit
  else rerankRRF 60 vector_results fts_results limit

/-- Python `str.strip()` (whitespace on both ends). -/
def isPySpace (c : Char) : Bool :=
  c = ' ' || c = '\t' || c = '\n' || c = '\r' || c = '\x0b' || c = '\x0c'

def pyStrip (s : String) : String :=
  String.mk (((s.data.dropWhile isPySpace).reverse.dropWhile isPySpace).reverse)

/-- `SearchEngine.search` (`search.py`).  `count_chunks` is the value of
`self.storage.count_chunks()`; the four mode implementations are opaque
parameters, invoked only after both precondition checks pass. -/
def searchengine_search (count_chunks : Nat)
    (vectorSearch ftsSearch fuzzySearch : String → Nat → List SearchResult)
    (query : String) (limit : Nat) (fuzzy : Bool) (bm25_weight : ℚ) :
    Except String SearchResults :=
  if pyStrip query = "" then .error "Query cannot be empty"
  else if count_chunks = 0 then .error "No index found. Run 'lcm index' first."
  else
    let rs :=
      if fuzzy then (fuzzySearch query limit, "fuzzy")
      else if bm25_weight ≤ 0 then (vectorSearch query limit, "vector")
      else if 1 ≤ bm25_weight then (ftsSearch query limit, "fts")
      else (hybrid_search vectorSearch ftsSearch query limit bm25_weight,
        "hybrid")
    .ok { results := rs.1, query := query, search_type := rs.2 }

/-- **C8.** `SearchEngine.search` raises a typed search error whenever the
query is empty after trimming whitespace, and whenever the chunk store
contains zero chunks; in either case no search mode is executed (the result
does not depend on the mode implementations) and the store is not queried
for results. -/
theorem c8_search_preconditions (count_chunks : Nat)
    (vs fts fz : String → Nat → List SearchResult)
    (query : String) (limit : Nat) (fuzzy : Bool) (w : ℚ) :
    (pyStrip query = "" →
      searchengine_search count_chunks vs fts fz query limit fuzzy w =
        .error "Query cannot be empty") ∧
    (count_chunks = 0 →
      ∃ msg, searchengine_search count_chunks vs fts fz query limit fuzzy w =
        .error msg) ∧
    ((pyStrip query = "" ∨ count_chunks = 0) →
      ∀ vs2 fts2 fz2 : String → Nat → List SearchResult,
        searchengine_search count_chunks vs fts fz query limit fuzzy w =
          searchengine_search count_chunks vs2 fts2 fz2 query limit fuzzy w) := by
  refine ⟨?_, ?_, ?_⟩
  · intro h
    simp [searchengine_search, h]
  · intro h
    by_cases hq : pyStrip query = ""
    · exact ⟨"Query cannot be empty", by simp [searchengine_search, hq]⟩
    · exact ⟨"No index found. Run 'lcm index' first.",
        by simp [searchengine_search, hq, h]⟩
  · intro h vs2 fts2 fz2
    rcases h with hq | hc
    · simp [searchengine_search, hq]
    · by_cases hq : pyStrip query = ""
      · simp [searchengine_search, hq]
      · simp [searchengine_search, hq, hc]

theorem c8_search_preconditions_witness :
    pyStrip "   " = "" ∧
    searchengine_search 7 (fun _ _ => []) (fun _ _ => []) (fun _ _ => [])
      "   " 10 false (1 / 2) = .error "Query cannot be empty" :=
  ⟨by decide,
    (c8_search_preconditions 7 (fun _ _ => []) (fun _ _ => []) (fun _ _ => [])
      "   " 10 false (1 / 2)).1 (by decide)⟩

theorem dictSet_find_self {α : Type} (l : List (String × α)) (k : String)
    (v : α) : (dictSet l k v).find? (fun p => p.1 = k) = some (k, v) := by
  induction l with
  | nil => simp [dictSet, List.find?]
  | cons p rest ih =>
    by_cases hp : p.1 = k
    · simp [dictSet, hp, List.find?]
    · simp only [dictSet, if_neg hp]
      rw [List.find?_cons_of_neg _ (by simpa using hp)]
      exact ih

theorem dictSet_find_other {α : Type} (l : List (String × α)) (k k2 : String)
    (v : α) (h : k2 ≠ k) :
    (dictSet l k v).find? (fun p => p.1 = k2) =
      l.find? (fun p => p.1 = k2) := by
  induction l with
  | nil =>
    simp only [dictSet, List.find?_nil]
    rw [List.find?_cons_of_neg _ (by simp; exact fun he => h he.symm)]
    rfl
  | cons p rest ih =>
    by_cases hp : p.1 = k
    · simp only [dictSet, if_pos hp]
      rw [List.find?_cons_of_neg _ (by simp; exact fun he => h he.symm),
        List.find?_cons_of_neg _
          (by simp [hp]; exact fun he => h he.symm)]
    · simp only [dictSet, if_neg hp]
      by_cases hp2 : p.1 = k2
      · rw [List.find?_cons_of_pos _ (by simpa using hp2),
          List.find?_cons_of_pos _ (by simpa using hp2)]
      · rw [List.find?_cons_of_neg _ (by simpa using hp2),
          List.find?_cons_of_neg _ (by simpa using hp2)]
        exact ih

theorem dictGetD_set_self {α : Type} (l : List (String × α)) (k : String)
    (v d : α) : dictGetD (dictSet l k v) k d = v := by
  simp [dictGetD, dictSet_find_self]

theorem dictGetD_set_other {α : Type} (l : List (String × α)) (k k2 : String)
    (v d : α) (h : k2 ≠ k) :
    dictGetD (dictSet l k v) k2 d = dictGetD l k2 d := by
  simp [dictGetD, dictSet_find_other l k k2 v h]

theorem mem_dictKeys_set {α : Type} {l : List (String × α)} {k k2 : String}
    {v : α} : k2 ∈ dictKeys (dictSet l k v) ↔ k2 = k ∨ k2 ∈ dictKeys l := by
  induction l with
  | nil => simp [dictSet, dictKeys]
  | cons p rest ih =>
    by_cases hp : p.1 = k
    · simp only [dictSet, if_pos hp, dictKeys, List.map_cons, List.mem_cons]
      rw [hp]
      simp only [dictKeys] at *
      tauto
    · simp only [dictSet, if_neg hp, dictKeys, List.map_cons, List.mem_cons]
      simp only [dictKeys] at ih
      rw [ih]
      tauto

/-- Reference definition, following the claim wording: each occurrence of a
chunk id in a ranked list contributes `1/(k + rank)`, rank 1-based (`n` is
the 0-based rank already consumed). -/
def contribFrom (k : Nat) : Nat → List SearchResult → String → ℚ
  | _, [], _ => 0
  | n, r :: rest, idv =>
    (if r.id = idv then 1 / ((k : ℚ) + (n + 1)) else 0) +
      contribFrom k (n + 1) rest idv

theorem scores_fold (k : Nat) :
    ∀ (l : List SearchResult) (n : Nat) (init : List (String × ℚ))
      (idv : String),
    dictGetD ((List.enumFrom n l).foldl
      (fun sc p => dictSet sc p.2.id
        (dictGetD sc p.2.id 0 + 1 / ((k : ℚ) + (p.1 + 1)))) init) idv 0 =
    dictGetD init idv 0 + contribFrom k n l idv := by
  intro l
  induction l with
  | nil =>
    intro n init idv
    simp [contribFrom, List.enumFrom]
  | cons r rest ih =>
    intro n init idv
    simp only [List.enumFrom, List.foldl_cons]
    rw [ih]
    by_cases hid : r.id = idv
    · rw [← hid, dictGetD_set_self]
      simp only [contribFrom, if_pos hid, hid]
      push_cast
      ring
    · rw [dictGetD_set_other _ _ _ _ _ (fun he => hid he.symm)]
      simp only [contribFrom, if_neg hid]
      ring

theorem scores_fold_keys (k : Nat) :
    ∀ (l : List SearchResult) (n : Nat) (init : List (String × ℚ))
      (idv : String),
    (idv ∈ dictKeys ((List.enumFrom n l).foldl
      (fun sc p => dictSet sc p.2.id
        (dictGetD sc p.2.id 0 + 1 / ((k : ℚ) + (p.1 + 1)))) init)) ↔
    (idv ∈ dictKeys init ∨ idv ∈ l.map (fun r => r.id)) := by
  intro l
  induction l with
  | nil =>
    intro n init idv
    simp [List.enumFrom]
  | cons r rest ih =>
    intro n init idv
    simp only [List.enumFrom, List.foldl_cons]
    rw [ih]
    rw [mem_dictKeys_set]
    simp only [List.map_cons, List.mem_cons]
    tauto

/-- Invariant of `result_map`: values are stored under their own ids. -/
def MapInv (m : List (String × SearchResult)) : Prop :=
  ∀ p ∈ m, p.2.id = p.1

theorem MapInv_set {m : List (String × SearchResult)} {r : SearchResult}
    (h : MapInv m) : MapInv (dictSet m r.id r) := by
  induction m with
  | nil =>
    intro p hp
    simp only [dictSet, List.mem_singleton] at hp
    rw [hp]
  | cons q rest ih =>
    intro p hp
    by_cases hq : q.1 = r.id
    · simp only [dictSet, if_pos hq, List.mem_cons] at hp
      rcases hp with hc | hc
      · rw [hc]
      · exact h p (by simp [hc])
    · simp only [dictSet, if_neg hq, List.mem_cons] at hp
      rcases hp with hc | hc
      · exact h p (by simp [hc])
      · exact ih (fun p2 hp2 => h p2 (by simp [hp2])) p hc

theorem MapInv_lookup {m : List (String × SearchResult)} {idv : String}
    (hinv : MapInv m) (hmem : idv ∈ dictKeys m) :
    ∃ r, dictGet? m idv = some r ∧ r.id = idv := by
  have hex : ∃ p ∈ m, (fun p : String × SearchResult => p.1 = idv) p = true := by
    rcases List.mem_map.mp hmem with ⟨p, hp, he⟩
    exact ⟨p, hp, by simpa using he⟩
  rcases hfind : m.find? (fun p => p.1 = idv) with _ | p
  · exfalso
    rcases hex with ⟨p, hp, he⟩
    have h0 := List.find?_eq_none.mp hfind p hp
    simp_all
  · refine ⟨p.2, by simp [dictGet?, hfind], ?_⟩
    have h1 : p.1 = idv := by simpa using List.find?_some hfind
    rw [hinv p (List.mem_of_find?_eq_some hfind), h1]

theorem result_map_inv (l : List SearchResult)
    (init : List (String × SearchResult)) (hinv : MapInv init) :
    MapInv (l.foldl (fun m r => dictSet m r.id r) init) := by
  induction l generalizing init with
  | nil => exact hinv
  | cons r rest ih =>
    simp only [List.foldl_cons]
    exact ih _ (MapInv_set hinv)

theorem result_map_inv_cond (l : List SearchResult)
    (init : List (String × SearchResult)) (hinv : MapInv init) :
    MapInv (l.foldl
      (fun m r => if dictHas m r.id then m else dictSet m r.id r) init) := by
  induction l generalizing init with
  | nil => exact hinv
  | cons r rest ih =>
    simp only [List.foldl_cons]
    by_cases h : dictHas init r.id
    · rw [if_pos h]
      exact ih _ hinv
    · rw [if_neg h]
      exact ih _ (MapInv_set hinv)

theorem result_map_domain (l : List SearchResult)
    (init : List (String × SearchResult)) (idv : String) :
    (idv ∈ dictKeys init ∨ idv ∈ l.map (fun r => r.id)) →
    idv ∈ dictKeys (l.foldl (fun m r => dictSet m r.id r) init) := by
  induction l generalizing init with
  | nil =>
    intro h
    rcases h with hc | hc
    · exact hc
    · simp at hc
  | cons r rest ih =>
    intro h
    simp only [List.foldl_cons]
    apply ih
    rcases h with hc | hc
    · exact Or.inl (mem_dictKeys_set.mpr (Or.inr hc))
    · simp only [List.map_cons, List.mem_cons] at hc
      rcases hc with hc | hc
      · exact Or.inl (mem_dictKeys_set.mpr (Or.inl hc))
      · exact Or.inr hc

theorem result_map_domain_cond (l : List SearchResult)
    (init : List (String × SearchResult)) (idv : String) :
    (idv ∈ dictKeys init ∨ idv ∈ l.map (fun r => r.id)) →
    idv ∈ dictKeys (l.foldl
      (fun m r => if dictHas m r.id then m else dictSet m r.id r) init) := by
  induction l generalizing init with
  | nil =>
    intro h
    rcases h with hc | hc
    · exact hc
    · simp at hc
  | cons r rest ih =>
    intro h
    simp only [List.foldl_cons]
    by_cases hhas : dictHas init r.id
    · rw [if_pos hhas]
      apply ih
      rcases h with hc | hc
      · exact Or.inl hc
      · simp only [List.map_cons, List.mem_cons] at hc
        rcases hc with hc | hc
        · refine Or.inl ?_
          rw [hc]
          simp only [dictHas, List.any_eq_true] at hhas
          rcases hhas with ⟨p, hp, he⟩
          exact List.mem_map.mpr ⟨p, hp, by simpa using he.symm⟩
        · exact Or.inr hc
    · rw [if_neg hhas]
      apply ih
      rcases h with hc | hc
      · exact Or.inl (mem_dictKeys_set.mpr (Or.inr hc))
      · simp only [List.map_cons, List.mem_cons] at hc
        rcases hc with hc | hc
        · exact Or.inl (mem_dictKeys_set.mpr (Or.inl hc))
        · exact Or.inr hc

theorem filterMap_total {α β : Type} (l : List α) (f : α → Option β)
    (g : α → β) (h : ∀ a ∈ l, f a = some (g a)) :
    l.filterMap f = l.map g := by
  induction l with
  | nil => rfl
  | cons a rest ih =>
    rw [List.filterMap_cons, h a (by simp), List.map_cons]
    rw [ih (fun x hx => h x (by simp [hx]))]

/-- The `scores` dict of `_rerank_rrf` after both loops. -/
def rrfScores (k : Nat) (v f : List SearchResult) : List (String × ℚ) :=
  f.enum.foldl
    (fun sc p => dictSet sc p.2.id
      (dictGetD sc p.2.id 0 + 1 / ((k : ℚ) + (p.1 + 1))))
    (v.enum.foldl
      (fun sc p => dictSet sc p.2.id
        (dictGetD sc p.2.id 0 + 1 / ((k : ℚ) + (p.1 + 1)))) [])

/-- The `result_map` dict of `_rerank_rrf` after both loops. -/
def rrfResultMap (v f : List SearchResult) : List (String × SearchResult) :=
  f.foldl (fun m r => if dictHas m r.id then m else dictSet m r.id r)
    (v.foldl (fun m r => dictSet m r.id r) [])

def rrfVecScores (v : List SearchResult) : List (String × ℚ) :=
  v.foldl (fun m r => dictSet m r.id (r.vector_score.getD 0)) []

def rrfFtsScores (f : List SearchResult) : List (String × ℚ) :=
  f.foldl (fun m r => dictSet m r.id (r.fts_score.getD 0)) []

def rrfSortedIds (k : Nat) (v f : List SearchResult) : List String :=
  ssort
    (fun a b => dictGetD (rrfScores k v f) b 0 ≤ dictGetD (rrfScores k v f) a 0)
    (dictKeys (rrfScores k v f))

def rrfBuild (k : Nat) (v f : List SearchResult) (idv : String) :
    Option SearchResult :=
  (dictGet? (rrfResultMap v f) idv).map (fun r =>
    { id := r.id, text := r.text, filepath := r.filepath,
      filename := r.filename, name := r.name, type := r.type,
      start_line := r.start_line, end_line := r.end_line,
      score := dictGetD (rrfScores k v f) idv 0,
      vector_score := dictGet? (rrfVecScores v) idv,
      fts_score := dictGet? (rrfFtsScores f) idv })

theorem rerankRRF_eq (k : Nat) (v f : List SearchResult) (limit : Nat) :
    rerankRRF k v f limit =
      ((rrfSortedIds k v f).take limit).filterMap (rrfBuild k v f) := rfl

theorem rrfScores_getD (k : Nat) (v f : List SearchResult) (idv : String) :
    dictGetD (rrfScores k v f) idv 0 =
      contribFrom k 0 v idv + contribFrom k 0 f idv := by
  have h1 : (v.enum) = List.enumFrom 0 v := rfl
  have h2 : (f.enum) = List.enumFrom 0 f := rfl
  simp only [rrfScores, h1, h2]
  rw [scores_fold, scores_fold]
  simp [dictGetD]

theorem rrfScores_keys (k : Nat) (v f : List SearchResult) (idv : String) :
    idv ∈ dictKeys (rrfScores k v f) ↔
      idv ∈ (v ++ f).map (fun s => s.id) := by
  have h1 : (v.enum) = List.enumFrom 0 v := rfl
  have h2 : (f.enum) = List.enumFrom 0 f := rfl
  simp only [rrfScores, h1, h2]
  rw [scores_fold_keys, scores_fold_keys]
  simp [dictKeys, or_assoc]

/-- Total builder used to rewrite `filterMap` as `map`. -/
def rrfMk (k : Nat) (v f : List SearchResult) (idv : String) : SearchResult :=
  match dictGet? (rrfResultMap v f) idv with
  | some r =>
    { id := r.id, text := r.text, filepath := r.filepath,
      filename := r.filename, name := r.name, type := r.type,
      start_line := r.start_line, end_line := r.end_line,
      score := dictGetD (rrfScores k v f) idv 0,
      vector_score := dictGet? (rrfVecScores v) idv,
      fts_score := dictGet? (rrfFtsScores f) idv }
  | none =>
    { id := idv, text := "", filepath := "", filename := "", name := "",
      type := "", start_line := 0, end_line := 0, score := 0 }

theorem rrfBuild_some (k : Nat) (v f : List SearchResult) (idv : String)
    (h : idv ∈ dictKeys (rrfScores k v f)) :
    rrfBuild k v f idv = some (rrfMk k v f idv) ∧
    (rrfMk k v f idv).id = idv ∧
    (rrfMk k v f idv).score = dictGetD (rrfScores k v f) idv 0 := by
  have hids : idv ∈ (v ++ f).map (fun s => s.id) :=
    (rrfScores_keys k v f idv).mp h
  have hdom : idv ∈ dictKeys (rrfResultMap v f) := by
    rw [List.map_append, List.mem_append] at hids
    apply result_map_domain_cond
    rcases hids with hc | hc
    · exact Or.inl (result_map_domain v [] idv (Or.inr hc))
    · exact Or.inr hc
  have hinv : MapInv (rrfResultMap v f) :=
    result_map_inv_cond f _ (result_map_inv v [] (by intro p hp; simp at hp))
  rcases MapInv_lookup hinv hdom with ⟨r, hget, hid⟩
  refine ⟨?_, ?_, ?_⟩
  · simp [rrfBuild, rrfMk, hget]
  · simp [rrfMk, hget, hid]
  · simp [rrfMk, hget]

/-- The conclusion of claim C5 for the fused case: every emitted result's
score is the sum of the reciprocal-rank contributions of the two lists,
results are sorted descending by fused score, at most `limit` are emitted,
every omitted candidate scores no higher than any emitted result, and a
candidate is omitted only when the full `limit` results were emitted. -/
def RRFSound (v f : List SearchResult) (limit : Nat)
    (out : List SearchResult) : Prop :=
  (∀ r ∈ out, r.score = contribFrom 60 0 v r.id + contribFrom 60 0 f r.id) ∧
  out.length ≤ limit ∧
  List.Pairwise (fun a b => b.score ≤ a.score) out ∧
  (∀ r ∈ out, ∀ idv, idv ∈ (v ++ f).map (fun s => s.id) →
    idv ∉ out.map (fun s => s.id) →
    contribFrom 60 0 v idv + contribFrom 60 0 f idv ≤ r.score) ∧
  (∀ idv, idv ∈ (v ++ f).map (fun s => s.id) →
    idv ∉ out.map (fun s => s.id) → out.length = limit)

theorem rerankRRF_sound (v f : List SearchResult) (limit : Nat) :
    RRFSound v f limit (rerankRRF 60 v f limit) := by
  rw [rerankRRF_eq]
  have hsortmem : ∀ idv, idv ∈ rrfSortedIds 60 v f ↔
      idv ∈ dictKeys (rrfScores 60 v f) := by
    intro idv
    exact mem_ssort
  have htakekeys : ∀ idv, idv ∈ (rrfSortedIds 60 v f).take limit →
      idv ∈ dictKeys (rrfScores 60 v f) := by
    intro idv h
    exact (hsortmem idv).mp (List.mem_of_mem_take h)
  have hout_eq : ((rrfSortedIds 60 v f).take limit).filterMap
      (rrfBuild 60 v f) =
      ((rrfSortedIds 60 v f).take limit).map (rrfMk 60 v f) :=
    filterMap_total _ _ _
      (fun a ha => (rrfBuild_some 60 v f a (htakekeys a ha)).1)
  rw [hout_eq]
  have hids : ((rrfSortedIds 60 v f).take limit).map
      (fun idv => (rrfMk 60 v f idv).id) = (rrfSortedIds 60 v f).take limit := by
    have h1 : ∀ a ∈ (rrfSortedIds 60 v f).take limit,
        (rrfMk 60 v f a).id = a :=
      fun a ha => (rrfBuild_some 60 v f a (htakekeys a ha)).2.1
    calc ((rrfSortedIds 60 v f).take limit).map
          (fun idv => (rrfMk 60 v f idv).id)
        = ((rrfSortedIds 60 v f).take limit).map (fun idv => idv) :=
          List.map_congr_left h1
      _ = (rrfSortedIds 60 v f).take limit := List.map_id _
  have hmapped_ids : (((rrfSortedIds 60 v f).take limit).map
      (rrfMk 60 v f)).map (fun s => s.id) = (rrfSortedIds 60 v f).take limit := by
    rw [List.map_map]
    exact hids
  have hsorted : List.Pairwise
      (fun a b => (dictGetD (rrfScores 60 v f) b 0 ≤
        dictGetD (rrfScores 60 v f) a 0 : Bool) = true)
      (rrfSortedIds 60 v f) := by
    apply ssort_pairwise
    · intro a b
      simp only [Bool.or_eq_true, decide_eq_true_eq]
      exact le_total _ _
    · intro a b c hab hbc
      simp only [decide_eq_true_eq] at hab hbc ⊢
      exact le_trans hbc hab
  refine ⟨?_, ?_, ?_, ?_, ?_⟩
  · intro r hr
    rcases List.mem_map.mp hr with ⟨idv, hidv, he⟩
    have hk := htakekeys idv hidv
    rcases rrfBuild_some 60 v f idv hk with ⟨_, hid, hscore⟩
    rw [← he, hscore, hid, rrfScores_getD]
  · rw [List.length_map, List.length_take]
    exact min_le_left _ _
  · have htake : List.Pairwise
        (fun a b => (dictGetD (rrfScores 60 v f) b 0 ≤
          dictGetD (rrfScores 60 v f) a 0 : Bool) = true)
        ((rrfSortedIds 60 v f).take limit) :=
      hsorted.sublist (List.take_sublist _ _)
    rw [List.pairwise_map]
    refine List.Pairwise.imp_of_mem ?_ htake
    intro a b ha hb hab
    simp only [decide_eq_true_eq] at hab
    rw [(rrfBuild_some 60 v f a (htakekeys a ha)).2.2,
      (rrfBuild_some 60 v f b (htakekeys b hb)).2.2]
    exact hab
  · intro r hr idv hidv hnot
    rcases List.mem_map.mp hr with ⟨ida, hida, he⟩
    have hkeys : idv ∈ dictKeys (rrfScores 60 v f) :=
      (rrfScores_keys 60 v f idv).mpr hidv
    have hin_sorted : idv ∈ rrfSortedIds 60 v f := (hsortmem idv).mpr hkeys
    rw [hmapped_ids] at hnot
    rw [← List.take_append_drop limit (rrfSortedIds 60 v f)] at hin_sorted
    have hin_drop : idv ∈ (rrfSortedIds 60 v f).drop limit := by
      rcases List.mem_append.mp hin_sorted with hc | hc
      · exact absurd hc hnot
      · exact hc
    rw [← List.take_append_drop limit (rrfSortedIds 60 v f)] at hsorted
    have hsplit := List.pairwise_append.mp hsorted
    have hcross := hsplit.2.2 ida hida idv hin_drop
    simp only [decide_eq_true_eq] at hcross
    rw [← he, (rrfBuild_some 60 v f ida (htakekeys ida hida)).2.2,
      ← rrfScores_getD]
    exact hcross
  · intro idv hidv hnot
    have hkeys : idv ∈ dictKeys (rrfScores 60 v f) :=
      (rrfScores_keys 60 v f idv).mpr hidv
    have hin_sorted : idv ∈ rrfSortedIds 60 v f := (hsortmem idv).mpr hkeys
    rw [hmapped_ids] at hnot
    rw [List.length_map, List.length_take]
    by_cases hlen : (rrfSortedIds 60 v f).length ≤ limit
    · exfalso
      rw [List.take_of_length_le hlen] at hnot
      exact hnot hin_sorted
    · omega

/-- **C5.** In hybrid mode, search fetches vector and FTS result lists each
with `fetch_k = 3 × limit`; if exactly one list is empty it returns the other
truncated to `limit`; otherwise each list contributes `1/(60 + rank)` per
item with rank 1-based, contributions are summed per chunk id, and results
are sorted descending by the fused score with the top `limit` emitted.  The
`bm25_weight` value is not used as a weight inside the fusion (the result is
independent of it). -/
theorem c5_hybrid_search_rrf (vs fts : String → Nat → List SearchResult)
    (query : String) (limit : Nat) (w w2 : ℚ) :
    (hybrid_search vs fts query limit w =
      hybrid_search vs fts query limit w2) ∧
    (vs query (limit * 3) = [] → fts query (limit * 3) = [] →
      hybrid_search vs fts query limit w = []) ∧
    (vs query (limit * 3) = [] → fts query (limit * 3) ≠ [] →
      hybrid_search vs fts query limit w =
        (fts query (limit * 3)).take limit) ∧
    (fts query (limit * 3) = [] → vs query (limit * 3) ≠ [] →
      hybrid_search vs fts query limit w =
        (vs query (limit * 3)).take limit) ∧
    (vs query (limit * 3) ≠ [] → fts query (limit * 3) ≠ [] →
      RRFSound (vs query (limit * 3)) (fts query (limit * 3)) limit
        (hybrid_search vs fts query limit w)) := by
  refine ⟨rfl, ?_, ?_, ?_, ?_⟩
  · intro hv hf
    simp [hybrid_search, hv, hf]
  · intro hv hf
    simp [hybrid_search, hv, hf]
  · intro hf hv
    simp [hybrid_search, hv, hf]
  · intro hv hf
    have he : hybrid_search vs fts query limit w =
        rerankRRF 60 (vs query (limit * 3)) (fts query (limit * 3)) limit := by
      simp [hybrid_search, hv, hf]
    rw [he]
    exact rerankRRF_sound _ _ _

theorem c5_hybrid_search_rrf_witness :
    ((fun (_ : String) (_ : Nat) => ([] : List SearchResult)) "q" (10 * 3)
      = []) ∧
    ((fun (_ : String) (_ : Nat) =>
        [({ id := "a", text := "", filepath := "", filename := "", name := "",
            type := "", start_line := 1, end_line := 1,
            score := 0 } : SearchResult)]) "q" (10 * 3) ≠ []) ∧
    hybrid_search (fun _ _ => [])
      (fun _ _ =>
        [{ id := "a", text := "", filepath := "", filename := "", name := "",
           type := "", start_line := 1, end_line := 1, score := 0 }])
      "q" 10 (1 / 2) =
      ((fun (_ : String) (_ : Nat) =>
        [({ id := "a", text := "", filepath := "", filename := "", name := "",
            type := "", start_line := 1, end_line := 1,
            score := 0 } : SearchResult)]) "q" (10 * 3)).take 10 :=
  ⟨rfl, by simp,
    (c5_hybrid_search_rrf (fun _ _ => [])
      (fun _ _ =>
        [{ id := "a", text := "", filepath := "", filename := "", name := "",
           type := "", start_line := 1, end_line := 1, score := 0 }])
      "q" 10 (1 / 2) (1 / 2)).2.2.1 rfl (by simp)⟩


/-! ## Storage (`lance_code_rag/storage.py`)

The two LanceDB tables are modelled as optional row lists (`none` = table not
created / dropped; `_get_chunks_table` and `_get_cache_table` create an empty
table on demand).  LanceDB `where`-filters return matching rows in table
order; `add` appends; `delete` removes matching rows. -/

structure CodeChunk where
  id : String
  vector : List ℚ
  text : String
  content_hash : String
  filepath : String
  filename : String
  extension : String
  type : String
  name : String
  start_line : Nat
  end_line : Nat
  file_hash : String
deriving DecidableEq

structure CachedEmbedding where
  content_hash : String
  vector : List ℚ
  created_at : String
deriving DecidableEq

structure StorageState where
  chunksTable : Option (List CodeChunk) := none
  cacheTable : Option (List CachedEmbedding) := none
deriving DecidableEq

/-- `Storage._get_chunks_table`. -/
def getChunksTable (st : StorageState) : List CodeChunk × StorageState :=
  match st.chunksTable with
  | some rows => (rows, st)
  | none => ([], { st with chunksTable := some [] })

/-- `Storage._get_cache_table`. -/
def getCacheTable (st : StorageState) : List CachedEmbedding × StorageState :=
  match st.cacheTable with
  | some rows => (rows, st)
  | none => ([], { st with cacheTable := some [] })

/-- `Storage.upsert_chunks`: delete rows with the same ids, then append. -/
def upsert_chunks (chunks : List CodeChunk) (st : StorageState) :
    StorageState :=
  if chunks.isEmpty then st
  else
    let t := getChunksTable st
    let ids := chunks.map (fun c => c.id)
    let remaining := t.1.filter (fun r => !(ids.any (fun i => i = r.id)))
    { t.2 with chunksTable := some (remaining ++ chunks) }

/-- `Storage.delete_chunks_by_filepath`: returns the number of rows removed. -/
def delete_chunks_by_filepath (fp : String) (st : StorageState) :
    Nat × StorageState :=
  let t := getChunksTable st
  let remaining := t.1.filter (fun r => !(r.filepath = fp))
  (t.1.length - remaining.length, { t.2 with chunksTable := some remaining })

/-- `Storage.delete_chunks_by_filepaths`. -/
def delete_chunks_by_filepaths (fps : List String) (st : StorageState) :
    Nat × StorageState :=
  fps.foldl (fun acc fp =>
    let r := delete_chunks_by_filepath fp acc.2
    (acc.1 + r.1, r.2)) (0, st)

/-- `Storage.get_chunks_by_filepath`: a `where` filter in table order. -/
def get_chunks_by_filepath (fp : String) (st : StorageState) :
    List CodeChunk × StorageState :=
  let t := getChunksTable st
  (t.1.filter (fun r => r.filepath = fp), t.2)

/-- `Storage.count_chunks`. -/
def count_chunks (st : StorageState) : Nat × StorageState :=
  let t := getChunksTable st
  (t.1.length, t.2)

/-- `Storage.get_cached_embeddings`: dict of hash → vector over matching rows
(later rows overwrite earlier ones, like the Python dict assignment). -/
def get_cached_embeddings (hashes : List String) (st : StorageState) :
    List (String × List ℚ) × StorageState :=
  if hashes.isEmpty then ([], st)
  else
    let t := getCacheTable st
    let mrows := t.1.filter
      (fun r => hashes.any (fun h => h = r.content_hash))
    (mrows.foldl (fun m r => dictSet m r.content_hash r.vector) [], t.2)

/-- `Storage.cache_embeddings`: delete rows with the same hashes, append. -/
def cache_embeddings (entries : List CachedEmbedding) (st : StorageState) :
    StorageState :=
  if entries.isEmpty then st
  else
    let t := getCacheTable st
    let hashes := entries.map (fun e => e.content_hash)
    let remaining := t.1.filter
      (fun r => !(hashes.any (fun h => h = r.content_hash)))
    { t.2 with cacheTable := some (remaining ++ entries) }

/-- `Storage.count_cached_embeddings`. -/
def count_cached_embeddings (st : StorageState) : Nat × StorageState :=
  let t := getCacheTable st
  (t.1.length, t.2)

/-- `Storage.clear_all`: drop the chunk table; the cache is kept. -/
def clear_all (st : StorageState) : StorageState :=
  { st with chunksTable := none }

/-- After a delete-by-filepath the stored table is the old rows with that
path removed. -/
theorem delete_table_eq (fp : String) (st : StorageState) :
    ((delete_chunks_by_filepath fp st).2).chunksTable =
      some ((st.chunksTable.getD []).filter
        (fun r => !(r.filepath = fp))) := by
  cases h : st.chunksTable <;>
    simp [delete_chunks_by_filepath, getChunksTable, h]

/-- After a non-empty upsert the stored table is the surviving old rows
followed by the new chunks. -/
theorem upsert_table_eq (chunks : List CodeChunk) (st : StorageState)
    (R : List CodeChunk) (hne : chunks.isEmpty = false)
    (hR : st.chunksTable = some R) :
    (upsert_chunks chunks st).chunksTable =
      some (R.filter
        (fun r => !((chunks.map (fun c => c.id)).any (fun i => i = r.id)))
        ++ chunks) := by
  simp [upsert_chunks, hne, getChunksTable, hR]

def c9chunk : CodeChunk :=
  ⟨"a.py:1", [], "t", "h", "a.py", "a.py", ".py", "function", "foo", 1, 2,
    "fh"⟩

/-- **C9.** For every stored file path, `get_chunks_by_filepath` returns
exactly the stored chunks whose filepath equals the given path, in table
order — hence ascending by `start_line` whenever the table rows for that
path are ascending; and after the indexer's delete-then-upsert of a file's
chunk list (ascending by start line, as produced by the chunker), it
returns exactly that list, in ascending start-line order. -/
theorem c9_get_by_path (st : StorageState) (fp : String)
    (chunks : List CodeChunk)
    (hfp : ∀ c ∈ chunks, c.filepath = fp)
    (hsorted : List.Pairwise (fun a b => a.start_line ≤ b.start_line) chunks) :
    (∀ st2 : StorageState,
      (get_chunks_by_filepath fp st2).1 =
        (st2.chunksTable.getD []).filter (fun r => r.filepath = fp)) ∧
    (get_chunks_by_filepath fp
      (upsert_chunks chunks (delete_chunks_by_filepath fp st).2)).1 =
      chunks ∧
    List.Pairwise (fun a b => a.start_line ≤ b.start_line)
      (get_chunks_by_filepath fp
        (upsert_chunks chunks (delete_chunks_by_filepath fp st).2)).1 := by
  have hgen : ∀ st2 : StorageState,
      (get_chunks_by_filepath fp st2).1 =
        (st2.chunksTable.getD []).filter (fun r => r.filepath = fp) := by
    intro st2
    cases h : st2.chunksTable with
    | none => simp [get_chunks_by_filepath, getChunksTable, h]
    | some rows => simp [get_chunks_by_filepath, getChunksTable, h]
  have hdel := delete_table_eq fp st
  have hmain : (get_chunks_by_filepath fp
      (upsert_chunks chunks (delete_chunks_by_filepath fp st).2)).1 =
      chunks := by
    rw [hgen]
    cases hempty : chunks.isEmpty with
    | true =>
      have hc : chunks = [] := List.isEmpty_iff.mp hempty
      subst hc
      have : upsert_chunks [] (delete_chunks_by_filepath fp st).2 =
          (delete_chunks_by_filepath fp st).2 := rfl
      rw [this, hdel]
      simp only [Option.getD_some]
      apply List.filter_eq_nil_iff.mpr
      intro a ha
      have ha2 := (List.mem_filter.mp ha).2
      simp only [Bool.not_eq_true', decide_eq_false_iff_not] at ha2
      simpa using ha2
    | false =>
      rw [upsert_table_eq chunks _ _ hempty hdel]
      simp only [Option.getD_some, List.filter_append]
      have h1 : (((st.chunksTable.getD []).filter
          (fun r => !(r.filepath = fp))).filter
          (fun r =>
            !((chunks.map (fun c => c.id)).any (fun i => i = r.id)))).filter
          (fun r => r.filepath = fp) = [] := by
        apply List.filter_eq_nil_iff.mpr
        intro a ha
        have ha1 : a ∈ (st.chunksTable.getD []).filter
            (fun r => !(r.filepath = fp)) := (List.mem_filter.mp ha).1
        have ha2 := (List.mem_filter.mp ha1).2
        simp only [Bool.not_eq_true', decide_eq_false_iff_not] at ha2
        simpa using ha2
      have h2 : chunks.filter (fun r => r.filepath = fp) = chunks := by
        apply List.filter_eq_self.mpr
        intro a ha
        simpa using hfp a ha
      rw [h1, h2, List.nil_append]
  refine ⟨hgen, hmain, ?_⟩
  rw [hmain]
  exact hsorted

theorem c9_get_by_path_witness :
    (∀ c ∈ [c9chunk], c.filepath = "a.py") ∧
    List.Pairwise (fun a b => a.start_line ≤ b.start_line) [c9chunk] ∧
    (get_chunks_by_filepath "a.py"
      (upsert_chunks [c9chunk]
        (delete_chunks_by_filepath "a.py" {}).2)).1 = [c9chunk] :=
  ⟨by decide, by simp,
    (c9_get_by_path {} "a.py" [c9chunk] (by decide) (by simp)).2.1⟩

/-! ## Staleness check (`lance_code_mcp/server.py`)

`check_staleness` scans the filesystem through `MerkleTree.build`; that scan
enters the model as the opaque `buildTree` parameter (given the previous
tree, it returns the freshly built root).  The manifest is its tree plus
counters; timestamps are omitted. -/

structure Manifest where
  version : Nat := 1
  tree : Option MerkleNode := none
  statsTotalFiles : Nat := 0
  statsTotalChunks : Nat := 0

structure StalenessInfo where
  is_stale : Bool
  stale_files : List String
  message : String
deriving DecidableEq

def check_staleness (buildTree : Option MerkleNode → Option MerkleNode)
    (manifest : Option Manifest) : StalenessInfo :=
  match manifest with
  | none =>
    ⟨true, [], "No index found. Run 'lcm index' or use index_codebase tool."⟩
  | some m =>
    match m.tree with
    | none =>
      ⟨true, [], "No index found. Run 'lcm index' or use index_codebase tool."⟩
    | some oldRoot =>
      let newRoot := buildTree (some oldRoot)
      if (match newRoot with
          | some nr => decide (oldRoot.hash = nr.hash)
          | none => false) then
        ⟨false, [], "Index is up to date."⟩
      else
        let diff := treeCompare (some oldRoot) newRoot
        let stale := diff.new ++ diff.modified ++ diff.deleted
        ⟨true, stale, "Index is stale. " ++ toString stale.length ++
          " file(s) changed since last index."⟩

/-- **C10.** When the stored manifest is absent or its tree is null, the
staleness check returns `is_stale = true` with an empty `stale_files` list
and a message directing the user to index; it does not scan the filesystem
(the result does not depend on the tree builder), and being a total
function of the manifest it raises nothing. -/
theorem c10_staleness_no_manifest
    (buildTree : Option MerkleNode → Option MerkleNode)
    (manifest : Option Manifest)
    (h : manifest = none ∨ ∃ m, manifest = some m ∧ m.tree = none) :
    check_staleness buildTree manifest =
      ⟨true, [],
        "No index found. Run 'lcm index' or use index_codebase tool."⟩ ∧
    (∀ buildTree2, check_staleness buildTree manifest =
      check_staleness buildTree2 manifest) := by
  rcases h with h | ⟨m, hm, ht⟩
  · subst h
    exact ⟨rfl, fun _ => rfl⟩
  · subst hm
    refine ⟨?_, ?_⟩
    · simp only [check_staleness, ht]
    · intro b2
      simp only [check_staleness, ht]

theorem c10_staleness_no_manifest_witness :
    ((none : Option Manifest) = none ∨
      ∃ m, (none : Option Manifest) = some m ∧ m.tree = none) ∧
    check_staleness (fun t => t) none =
      ⟨true, [],
        "No index found. Run 'lcm index' or use index_codebase tool."⟩ :=
  ⟨Or.inl rfl, (c10_staleness_no_manifest (fun t => t) none (Or.inl rfl)).1⟩

/-! ## Chunker (`lance_code_rag/chunker.py`)

Tree-sitter syntax nodes are modelled by `TSNode`; the byte slicing of the
source (`content_bytes[start:end].decode()`) enters as the opaque `slice`
parameter, and the outcome of `parser.parse` as an `Option TSNode`
(`none` = the parse raised). -/

inductive TSNode : Type where
  | mk (ty : String) (text : String) (startByte endByte : Nat)
      (startRow endRow : Nat) (children : List TSNode)

def TSNode.ty : TSNode → String
  | .mk t _ _ _ _ _ _ => t

def TSNode.text : TSNode → String
  | .mk _ t _ _ _ _ _ => t

def TSNode.startByte : TSNode → Nat
  | .mk _ _ s _ _ _ _ => s

def TSNode.endByte : TSNode → Nat
  | .mk _ _ _ e _ _ _ => e

def TSNode.startRow : TSNode → Nat
  | .mk _ _ _ _ s _ _ => s

def TSNode.endRow : TSNode → Nat
  | .mk _ _ _ _ _ e _ => e

def TSNode.children : TSNode → List TSNode
  | .mk _ _ _ _ _ _ c => c

structure Chunk where
  text : String
  type : String
  name : String
  start_line : Nat
  end_line : Nat
deriving DecidableEq

def EXTENSION_TO_LANGUAGE : List (String × String) := [(".py", "python")]

/-- `Chunker.get_language_for_extension`. -/
def get_language_for_extension (ext : String) : Option String :=
  (EXTENSION_TO_LANGUAGE.find? (fun p => p.1 = ext)).map (fun p => p.2)

/-- `Chunker._get_python_name`: first identifier child, else `""`. -/
def getPythonName (n : TSNode) : String :=
  match n.children.find? (fun c => c.ty = "identifier") with
  | some c => c.text
  | none => ""

/-- `Chunker._create_fallback_chunk`. -/
def createFallbackChunk (content : String) (stem : String) : Chunk :=
  ⟨content, "module", stem, 1, (content.splitOn "\n").length⟩

mutual

/-- The `visit_node` closure of `Chunker._chunk_python`: chunks appended in
visit order. -/
def visitNode (sl : Nat → Nat → String) (n : TSNode)
    (parentClass : Option String) : List Chunk :=
  if n.ty = "function_definition" then
    [⟨sl n.startByte n.endByte,
      if parentClass.isSome then "method" else "function",
      getPythonName n, n.startRow + 1, n.endRow + 1⟩]
  else if n.ty = "class_definition" then
    ⟨sl n.startByte n.endByte, "class", getPythonName n,
      n.startRow + 1, n.endRow + 1⟩ ::
      visitBlocks sl n.children (getPythonName n)
  else
    visitList sl n.children parentClass
termination_by sizeOf n
decreasing_by
  · cases n with
    | mk a b c d e f ch => simp [TSNode.children]
  · cases n with
    | mk a b c d e f ch => simp [TSNode.children]

/-- The class-body walk: for each `block` child, visit its children with
`parent_class` set. -/
def visitBlocks (sl : Nat → Nat → String) (cs : List TSNode) (nm : String) :
    List Chunk :=
  match cs with
  | [] => []
  | c :: rest =>
    (if c.ty = "block" then visitList sl c.children (some nm) else []) ++
      visitBlocks sl rest nm
termination_by sizeOf cs
decreasing_by
  · have h1 : sizeOf c.children < sizeOf c := by
      cases c with
      | mk a b d e f g ch => simp [TSNode.children]
    simp only [List.cons.sizeOf_spec]
    omega
  · simp only [List.cons.sizeOf_spec]
    omega

/-- Visiting each node of a list in order. -/
def visitList (sl : Nat → Nat → String) (cs : List TSNode)
    (parentClass : Option String) : List Chunk :=
  match cs with
  | [] => []
  | c :: rest =>
    visitNode sl c parentClass ++ visitList sl rest parentClass
termination_by sizeOf cs
decreasing_by
  · simp only [List.cons.sizeOf_spec]
    omega
  · simp only [List.cons.sizeOf_spec]
    omega

end

/-- `Chunker._chunk_python`. -/
def chunk_python (sl : Nat → Nat → String) (content : String)
    (root : TSNode) : List Chunk :=
  let chunks := visitNode sl root none
  if chunks.isEmpty then
    [⟨content, "module", "", 1, (content.splitOn "\n").length⟩]
  else chunks

/-- `Chunker.chunk_file`, with the content already read (as the indexer
calls it). -/
def chunk_file (sl : Nat → Nat → String) (parse : Option TSNode)
    (suffix stem : String) (content : String) : List Chunk :=
  if (pyStrip content).isEmpty then []
  else
    match get_language_for_extension suffix with
    | none => [createFallbackChunk content stem]
    | some language =>
      match parse with
      | none => [createFallbackChunk content stem]
      | some root =>
        if language = "python" then chunk_python sl content root
        else [createFallbackChunk content stem]

/-- A syntax tree with no function or class definition anywhere. -/
inductive NoDefs : TSNode → Prop where
  | mk (n : TSNode) (h1 : n.ty ≠ "function_definition")
      (h2 : n.ty ≠ "class_definition")
      (h3 : ∀ c ∈ n.children, NoDefs c) : NoDefs n

theorem visitList_eq_nil (sl : Nat → Nat → String) (cs : List TSNode)
    (pc : Option String)
    (h : ∀ c ∈ cs, visitNode sl c pc = []) :
    visitList sl cs pc = [] := by
  induction cs with
  | nil => rw [visitList]
  | cons c rest ih =>
    rw [visitList]
    rw [h c (List.mem_cons_self c rest), List.nil_append]
    exact ih (fun d hd => h d (List.mem_cons_of_mem c hd))

theorem noDefs_visit_nil (sl : Nat → Nat → String) (n : TSNode)
    (h : NoDefs n) : ∀ pc, visitNode sl n pc = [] := by
  induction h with
  | mk n h1 h2 h3 ih =>
    intro pc
    rw [visitNode, if_neg h1, if_neg h2]
    exact visitList_eq_nil sl n.children pc (fun c hc => ih c hc pc)

/-- **C4.** Fallback behaviour of `Chunker.chunk_file`: an empty file
(whitespace-only content) yields no chunks; an unsupported extension or a
failing parse yields exactly one `module` chunk spanning the whole file
(lines 1 to the line count) named by the file stem; a successful Python
parse with no function or class definition anywhere yields exactly one
`module` chunk spanning the whole file with empty name. -/
theorem c4_chunker_fallbacks (sl : Nat → Nat → String)
    (parse : Option TSNode) (suffix stem content : String) (root : TSNode) :
    ((pyStrip content).isEmpty = true →
      chunk_file sl parse suffix stem content = []) ∧
    ((pyStrip content).isEmpty = false →
      get_language_for_extension suffix = none →
      chunk_file sl parse suffix stem content =
        [⟨content, "module", stem, 1, (content.splitOn "\n").length⟩]) ∧
    ((pyStrip content).isEmpty = false → parse = none →
      chunk_file sl parse suffix stem content =
        [⟨content, "module", stem, 1, (content.splitOn "\n").length⟩]) ∧
    ((pyStrip content).isEmpty = false → parse = some root →
      suffix = ".py" → NoDefs root →
      chunk_file sl parse suffix stem content =
        [⟨content, "module", "", 1, (content.splitOn "\n").length⟩]) := by
  refine ⟨?_, ?_, ?_, ?_⟩
  · intro h
    simp [chunk_file, h]
  · intro h hl
    simp [chunk_file, h, hl, createFallbackChunk]
  · intro h hp
    cases hl : get_language_for_extension suffix with
    | none => simp [chunk_file, h, hl, createFallbackChunk]
    | some lang => simp [chunk_file, h, hl, hp, createFallbackChunk]
  · intro h hp hsuf hnd
    subst hsuf
    subst hp
    have hl : get_language_for_extension ".py" = some "python" := rfl
    have hv : visitNode sl root none = [] := noDefs_visit_nil sl root hnd none
    simp [chunk_file, h, hl, chunk_python, hv]

theorem c4_chunker_fallbacks_witness :
    chunk_file (fun s e => "") none ".py" "m" "  " = [] ∧
    chunk_file (fun s e => "") none ".txt" "notes" "hello" =
      [⟨"hello", "module", "notes", 1, ("hello".splitOn "\n").length⟩] ∧
    chunk_file (fun s e => "")
      (some (TSNode.mk "module" "" 0 0 0 0 [])) ".py" "m" "x = 1" =
      [⟨"x = 1", "module", "", 1, ("x = 1".splitOn "\n").length⟩] :=
  ⟨(c4_chunker_fallbacks (fun s e => "") none ".py" "m" "  "
      (TSNode.mk "" "" 0 0 0 0 [])).1 (by decide),
   (c4_chunker_fallbacks (fun s e => "") none ".txt" "notes" "hello"
      (TSNode.mk "" "" 0 0 0 0 [])).2.1 (by decide) (by decide),
   (c4_chunker_fallbacks (fun s e => "")
      (some (TSNode.mk "module" "" 0 0 0 0 [])) ".py" "m" "x = 1"
      (TSNode.mk "module" "" 0 0 0 0 [])).2.2.2 (by decide) rfl rfl
      (NoDefs.mk _ (by decide) (by decide) (by simp [TSNode.children]))⟩

/-! ## Filesystem model and `MerkleTree.build` (`merkle.py`)

A filesystem is a tree of named regular files (content, mtime) and
directories.  Symlinks and unreadable paths — which `_build_node` skips or
drops via `OSError`/`PermissionError` — are outside the model.  SHA-256 of a
file's bytes is the opaque `h`, SHA-256 of the directory stream the opaque
`hd` (as in `compute_directory_hash` above), and `should_exclude` (an
`fnmatch` loop over the configured patterns applied to the entry name) is
the opaque `excl`. -/

inductive FSEntry : Type where
  | file (name : String) (content : String) (mtime : Nat)
  | dir (name : String) (entries : List FSEntry)

def FSEntry.name : FSEntry → String
  | .file nm _ _ => nm
  | .dir nm _ => nm

/-- Induction over `FSEntry` (nested inductive). -/
theorem FSEntry.indEntry {motive : FSEntry → Prop}
    (hf : ∀ nm c mt, motive (FSEntry.file nm c mt))
    (hdd : ∀ nm es, (∀ e ∈ es, motive e) → motive (FSEntry.dir nm es)) :
    ∀ e, motive e
  | .file nm c mt => hf nm c mt
  | .dir nm es => hdd nm es (fun e he => FSEntry.indEntry hf hdd e)
termination_by e => sizeOf e
decreasing_by
  have h2 : sizeOf e < sizeOf es := List.sizeOf_lt_of_mem he
  simp only [FSEntry.dir.sizeOf_spec]
  omega

/-- `PurePath.suffix`: the last dot-extension of a name, empty for names
with no interior dot (`"Makefile"`, `".gitignore"`, `"a."`). -/
def pySuffix (name : String) : String :=
  let r := name.data.reverse
  match r.findIdx? (fun c => c = '.') with
  | none => ""
  | some k =>
    if 0 < k ∧ k < r.length - 1 then String.mk ((r.take (k + 1)).reverse)
    else ""

/-- `is_binary_file` (`merkle.py`): a NUL byte in the first 8 KiB. -/
def is_binary_file (content : String) : Bool :=
  (content.data.take 8192).contains (Char.ofNat 0)

theorem sinsert_sizeOf {α : Type} [SizeOf α] (le : α → α → Bool) (a : α)
    (l : List α) : sizeOf (sinsert le a l) = 1 + sizeOf a + sizeOf l := by
  induction l with
  | nil => simp [sinsert]
  | cons b l ih =>
    simp only [sinsert]
    split
    · simp only [List.cons.sizeOf_spec, ih]
      omega
    · simp only [List.cons.sizeOf_spec]

theorem ssort_sizeOf {α : Type} [SizeOf α] (le : α → α → Bool) (l : List α) :
    sizeOf (ssort le l) = sizeOf l := by
  suffices hgen : ∀ acc : List α,
      sizeOf (l.foldl (fun acc a => sinsert le a acc) acc) + 1 =
        sizeOf l + sizeOf acc by
    have := hgen []
    simp only [List.nil.sizeOf_spec] at this
    simp only [ssort]
    omega
  induction l with
  | nil =>
    intro acc
    simp only [List.foldl_nil, List.nil.sizeOf_spec]
    omega
  | cons a l ih =>
    intro acc
    simp only [List.foldl_cons, List.cons.sizeOf_spec]
    have := ih (sinsert le a acc)
    rw [sinsert_sizeOf] at this
    omega

mutual

/-- `_build_node` (`merkle.py`) on the filesystem model; `P` is the position
(name components below the project root), so `str(path.relative_to(root))`
is `encode P`.  The `stat` values are the model's `mtime` and byte size
(content length); `previous_nodes` is the `prev` association list. -/
def buildNode (h hd : String → String) (excl : String → Bool)
    (exts : List String) (prev : List (String × MerkleNode)) :
    FSEntry → List String → Option MerkleNode
  | .file nm content mtime, P =>
    if excl nm then none
    else if !exts.isEmpty && !(exts.contains (pySuffix nm)) then none
    else if is_binary_file content then none
    else
      some (MerkleNode.mk
        (match dictGet? prev (encode P) with
         | some previous =>
           if previous.type = "file" ∧ previous.mtime = some mtime ∧
               previous.size = some content.length
           then previous.hash else h content
         | none => h content)
        "file" (encode P) [] (some content.length) (some mtime))
  | .dir nm entries, P =>
    if excl nm then none
    else
      let children := buildChildren h hd excl exts prev
        (ssort (fun a b => strLe a.name b.name) entries) P
      if children.isEmpty then none
      else
        some (MerkleNode.mk (compute_directory_hash hd children) "directory"
          (encode P) children none none)
termination_by e _ => sizeOf e
decreasing_by
  rw [ssort_sizeOf]
  simp only [FSEntry.dir.sizeOf_spec]
  omega

/-- The `for child in sorted(path.iterdir())` loop: the `children` dict in
insertion order (entry names are distinct, so dict insertion is appending). -/
def buildChildren (h hd : String → String) (excl : String → Bool)
    (exts : List String) (prev : List (String × MerkleNode)) :
    List FSEntry → List String → List (String × MerkleNode)
  | [], _ => []
  | e :: rest, P =>
    match buildNode h hd excl exts prev e (P ++ [e.name]) with
    | some n => (e.name, n) :: buildChildren h hd excl exts prev rest P
    | none => buildChildren h hd excl exts prev rest P
termination_by es _ => sizeOf es
decreasing_by
  all_goals
    simp only [List.cons.sizeOf_spec]
    omega

end

mutual

/-- A well-formed filesystem: entry names are sound path components and
sibling names are distinct (true of any real directory listing). -/
def wfFS : FSEntry → Bool
  | .file nm _ _ => goodName nm
  | .dir nm entries =>
    goodName nm && decide ((entries.map FSEntry.name).Nodup) && wfFSL entries

def wfFSL : List FSEntry → Bool
  | [] => true
  | e :: rest => wfFS e && wfFSL rest

end

theorem wfFSL_mem {es : List FSEntry} (h : wfFSL es = true) :
    ∀ e ∈ es, wfFS e = true := by
  induction es with
  | nil => intro e he; simp at he
  | cons a rest ih =>
    intro e he
    rw [wfFSL, Bool.and_eq_true] at h
    rcases List.mem_cons.mp he with hc | hc
    · rw [hc]; exact h.1
    · exact ih h.2 e hc

theorem wfFS_name {e : FSEntry} (h : wfFS e = true) :
    goodName e.name = true := by
  cases e with
  | file nm c mt => exact h
  | dir nm es =>
    rw [wfFS, Bool.and_eq_true, Bool.and_eq_true] at h
    exact h.1.1

mutual

/-- `_build_path_lookup` (`merkle.py`): flat `path → node` dict, assignment
modelled by `dictSet`. -/
def buildPathLookup (n : MerkleNode) (acc : List (String × MerkleNode)) :
    List (String × MerkleNode) :=
  buildPathLookupCh n.children (dictSet acc n.path n)
termination_by sizeOf n
decreasing_by
  cases n with
  | mk hs ty pa ch sz mt =>
    simp only [MerkleNode.children, MerkleNode.mk.sizeOf_spec]
    omega

def buildPathLookupCh :
    List (String × MerkleNode) → List (String × MerkleNode) →
      List (String × MerkleNode)
  | [], acc => acc
  | (_, c) :: rest, acc => buildPathLookupCh rest (buildPathLookup c acc)
termination_by cs _ => sizeOf cs
decreasing_by
  · simp only [List.cons.sizeOf_spec, Prod.mk.sizeOf_spec]
    omega
  · simp only [List.cons.sizeOf_spec, Prod.mk.sizeOf_spec]
    omega

end

/-- `/`-splitting of a stored relative path, used when `_process_file`
resolves `project_root / filepath`. -/
def splitSlashAux : List Char → List Char → List (List Char)
  | cur, [] => [cur.reverse]
  | cur, c :: rest =>
    if c = '/' then cur.reverse :: splitSlashAux [] rest
    else splitSlashAux (c :: cur) rest

def splitSlash (s : String) : List String :=
  (splitSlashAux [] s.data).map String.mk

/-- Name resolution below a directory entry. -/
def fsFind : FSEntry → List String → Option FSEntry
  | e, [] => some e
  | .file _ _ _, _ :: _ => none
  | .dir _ es, a :: rest =>
    match hq : es.find? (fun x => x.name = a) with
    | some ent => fsFind ent rest
    | none => none
termination_by e _ => sizeOf e
decreasing_by
  have h1 : sizeOf ent < sizeOf es :=
    List.sizeOf_lt_of_mem (List.mem_of_find?_eq_some hq)
  simp only [FSEntry.dir.sizeOf_spec]
  omega

/-- `abs_path.read_text()` for `abs_path = project_root / filepath`: follow
the path components; reading a directory or a missing path is the `OSError`
case (`none`). -/
def readFileAt (fs : FSEntry) (filepath : String) : Option String :=
  match fsFind fs (splitSlash filepath) with
  | some (.file _ c _) => some c
  | _ => none

/-- `abs_path.name`: the last path component. -/
def baseName (filepath : String) : String :=
  (splitSlash filepath).getLastD "."


/-! ## Indexer (`indexer.py`)

System state is the stored manifest plus the two LanceDB tables.  The
chunker enters as an opaque function of `(filepath, content)` (its
tree-sitter internals are modelled separately above), the embedding provider
as an opaque `embed : List String → List (List ℚ)`, and timestamps are
dropped (`created_at` fields are `""`). -/

structure IndexStats where
  files_scanned : Nat := 0
  files_new : Nat := 0
  files_modified : Nat := 0
  files_deleted : Nat := 0
  chunks_added : Nat := 0
  chunks_deleted : Nat := 0
  embeddings_computed : Nat := 0
  embeddings_cached : Nat := 0
deriving DecidableEq

structure SysState where
  manifest : Option Manifest := none
  storage : StorageState := {}

mutual

/-- The `visit` closure of `Indexer._count_files`. -/
def countNode : MerkleNode → Nat
  | .mk _ ty _ ch _ _ => if ty = "file" then 1 else countChildrenN ch

def countChildrenN : List (String × MerkleNode) → Nat
  | [] => 0
  | (_, c) :: rest => countNode c + countChildrenN rest

end

/-- `Indexer._count_files`. -/
def countFiles : Option MerkleNode → Nat
  | none => 0
  | some r => countNode r

/-- `Indexer._get_changes`: load the old tree from the manifest, build the
new tree (with the mtime-cache lookup unless forcing), and diff.  With
`force` or no stored tree, every file of the new tree is new. -/
def getChanges (h hd : String → String) (excl : String → Bool)
    (exts : List String) (fs : FSEntry) (manifest : Option Manifest)
    (force : Bool) : Option MerkleNode × TreeDiff :=
  let oldRoot : Option MerkleNode :=
    match manifest with
    | some m => m.tree
    | none => none
  match force, oldRoot with
  | false, some t =>
    let newRoot := buildNode h hd excl exts (buildPathLookup t []) fs []
    (newRoot, treeCompare (some t) newRoot)
  | _, _ =>
    let newRoot := buildNode h hd excl exts [] fs []
    (newRoot, { new := collectTreeFiles newRoot })

/-- `Indexer._embed_chunks_with_cache`.  `Chunk.content_hash` is SHA-256 of
the chunk text, i.e. `h chunk.text`.  Returns
`((result, computed, cached), storage)`. -/
def embedChunksWithCache (h : String → String)
    (embed : List String → List (List ℚ)) (chunks : List Chunk)
    (st : StorageState) :
    ((List (Chunk × List ℚ)) × Nat × Nat) × StorageState :=
  if chunks.isEmpty then (([], 0, 0), st)
  else
    let content_hashes := chunks.map (fun c => h c.text)
    let g := get_cached_embeddings content_hashes st
    let cached := g.1
    let result0 := (chunks.filter (fun c => dictHas cached (h c.text))).map
      (fun c => (c, dictGetD cached (h c.text) []))
    let to_embed := chunks.filter (fun c => !dictHas cached (h c.text))
    let cached_count := chunks.length - to_embed.length
    let computed_count := to_embed.length
    if to_embed.isEmpty then
      let result := ssort
        (fun a b => Nat.ble (chunks.indexOf a.1) (chunks.indexOf b.1)) result0
      ((result, computed_count, cached_count), g.2)
    else
      let vectors := embed (to_embed.map (fun c => c.text))
      let pairs := to_embed.zip vectors
      let cache_entries := pairs.map
        (fun p => CachedEmbedding.mk (h p.1.text) p.2 "")
      let st2 := cache_embeddings cache_entries g.2
      let result := ssort
        (fun a b => Nat.ble (chunks.indexOf a.1) (chunks.indexOf b.1))
        (result0 ++ pairs)
      ((result, computed_count, cached_count), st2)

/-- `Indexer._process_file`: returns
`((chunks_added, computed, cached), storage)`. -/
def processFile (h : String → String)
    (embed : List String → List (List ℚ))
    (chunkf : String → String → List Chunk) (fs : FSEntry)
    (filepath : String) (st : StorageState) :
    (Nat × Nat × Nat) × StorageState :=
  match readFileAt fs filepath with
  | none => ((0, 0, 0), st)
  | some content =>
    let file_hash := h content
    let st1 := (delete_chunks_by_filepath filepath st).2
    let chunks := chunkf filepath content
    if chunks.isEmpty then ((0, 0, 0), st1)
    else
      let e := embedChunksWithCache h embed chunks st1
      let code_chunks := e.1.1.map (fun p =>
        CodeChunk.mk (filepath ++ ":" ++ toString p.1.start_line) p.2
          p.1.text (h p.1.text) filepath (baseName filepath)
          (pySuffix (baseName filepath)) p.1.type p.1.name p.1.start_line
          p.1.end_line file_hash)
      let st2 := upsert_chunks code_chunks e.2
      ((code_chunks.length, e.1.2.1, e.1.2.2), st2)

/-- `Indexer._update_manifest`: keep the loaded manifest (or a fresh one),
store the new tree and recount the chunks. -/
def updateManifest (newRoot : Option MerkleNode) (stats : IndexStats)
    (manifest : Option Manifest) (st : StorageState) :
    Manifest × StorageState :=
  let m0 : Manifest := match manifest with
    | some m => m
    | none => {}
  let c := count_chunks st
  ({ m0 with
      tree := newRoot
      statsTotalFiles := stats.files_scanned
      statsTotalChunks := c.1 }, c.2)

/-- `Indexer.index`. -/
def indexRun (h hd : String → String) (excl : String → Bool)
    (exts : List String) (chunkf : String → String → List Chunk)
    (embed : List String → List (List ℚ)) (fs : FSEntry) (S : SysState)
    (force : Bool) : IndexStats × SysState :=
  let gc := getChanges h hd excl exts fs S.manifest force
  let newRoot := gc.1
  let diff := gc.2
  let st0 := if force then clear_all S.storage else S.storage
  let stats0 : IndexStats :=
    { files_scanned := countFiles newRoot
      files_new := diff.new.length
      files_modified := diff.modified.length
      files_deleted := diff.deleted.length }
  if diff.has_changes = false then
    let um := updateManifest newRoot stats0 S.manifest st0
    (stats0, ⟨some um.1, um.2⟩)
  else
    let d := delete_chunks_by_filepaths diff.deleted st0
    let files_to_process := diff.new ++ diff.modified
    let run := files_to_process.foldl (fun acc fp =>
      let r := processFile h embed chunkf fs fp acc.2
      ((acc.1.1 + r.1.1, acc.1.2.1 + r.1.2.1, acc.1.2.2 + r.1.2.2), r.2))
      ((0, 0, 0), d.2)
    let stats1 := { stats0 with
      chunks_deleted := d.1
      chunks_added := run.1.1
      embeddings_computed := run.1.2.1
      embeddings_cached := run.1.2.2 }
    let um := updateManifest newRoot stats1 S.manifest run.2
    (stats1, ⟨some um.1, um.2⟩)

/-! ## Cache bookkeeping lemmas for the indexer -/

/-- The set of content hashes currently stored in the embedding cache. -/
def cacheHashes (st : StorageState) : List String :=
  (st.cacheTable.getD []).map (fun r => r.content_hash)

/-- The length of the chunk table. -/
def chunksLen (st : StorageState) : Nat :=
  (st.chunksTable.getD []).length

theorem getChunksTable_fst (st : StorageState) :
    (getChunksTable st).1 = st.chunksTable.getD [] := by
  cases hc : st.chunksTable <;> simp [getChunksTable, hc]

theorem getChunksTable_cache (st : StorageState) :
    (getChunksTable st).2.cacheTable = st.cacheTable := by
  cases hc : st.chunksTable <;> simp [getChunksTable, hc]

theorem getCacheTable_fst (st : StorageState) :
    (getCacheTable st).1 = st.cacheTable.getD [] := by
  cases hc : st.cacheTable <;> simp [getCacheTable, hc]

theorem getCacheTable_chunks (st : StorageState) :
    (getCacheTable st).2.chunksTable = st.chunksTable := by
  cases hc : st.cacheTable <;> simp [getCacheTable, hc]

theorem getCacheTable_cacheHashes (st : StorageState) :
    cacheHashes (getCacheTable st).2 = cacheHashes st := by
  cases hc : st.cacheTable <;> simp [getCacheTable, cacheHashes, hc]

theorem delete_chunks_cache (fp : String) (st : StorageState) :
    ((delete_chunks_by_filepath fp st).2).cacheTable = st.cacheTable := by
  simp only [delete_chunks_by_filepath]
  exact getChunksTable_cache st

theorem upsert_chunks_cache (cs : List CodeChunk) (st : StorageState) :
    (upsert_chunks cs st).cacheTable = st.cacheTable := by
  by_cases hc : cs.isEmpty
  · simp [upsert_chunks, hc]
  · simp only [upsert_chunks, hc, Bool.false_eq_true, if_neg,
      not_false_iff]
    exact getChunksTable_cache st

theorem count_chunks_frame (st : StorageState) :
    ((count_chunks st).2).cacheTable = st.cacheTable ∧
    chunksLen (count_chunks st).2 = chunksLen st := by
  cases hc : st.chunksTable <;>
    simp [count_chunks, getChunksTable, chunksLen, hc]

theorem clear_all_cache (st : StorageState) :
    (clear_all st).cacheTable = st.cacheTable := rfl

theorem embed_chunks_table (h : String → String)
    (embed : List String → List (List ℚ)) (chunks : List Chunk)
    (st : StorageState) :
    ((embedChunksWithCache h embed chunks st).2).chunksTable =
      st.chunksTable := by
  by_cases hc : chunks.isEmpty
  · simp [embedChunksWithCache, hc]
  · simp only [embedChunksWithCache, hc, Bool.false_eq_true, if_neg,
      not_false_iff]
    split
    · simp only [get_cached_embeddings]
      split
      · rfl
      · exact getCacheTable_chunks st
    · have h1 : ((get_cached_embeddings (chunks.map (fun c => h c.text))
          st).2).chunksTable = st.chunksTable := by
        simp only [get_cached_embeddings]
        split
        · rfl
        · exact getCacheTable_chunks st
      by_cases he : (List.map
          (fun p => CachedEmbedding.mk (h p.1.text) p.2 "")
          ((chunks.filter
            (fun c => !dictHas (get_cached_embeddings
              (chunks.map (fun c => h c.text)) st).1 (h c.text))).zip
            (embed ((chunks.filter
              (fun c => !dictHas (get_cached_embeddings
                (chunks.map (fun c => h c.text)) st).1
                (h c.text))).map (fun c => c.text))))).isEmpty
      · simp [cache_embeddings, he, h1]
      · simp only [cache_embeddings, he, Bool.false_eq_true, if_neg,
          not_false_iff]
        rw [getCacheTable_chunks]
        exact h1

/-- The intermediate values of `_embed_chunks_with_cache`, named. -/
def ecCached (h : String → String) (chunks : List Chunk)
    (st : StorageState) : List (String × List ℚ) :=
  (get_cached_embeddings (chunks.map (fun c => h c.text)) st).1

def ecSt1 (h : String → String) (chunks : List Chunk) (st : StorageState) :
    StorageState :=
  (get_cached_embeddings (chunks.map (fun c => h c.text)) st).2

def ecResult0 (h : String → String) (chunks : List Chunk)
    (st : StorageState) : List (Chunk × List ℚ) :=
  (chunks.filter (fun c => dictHas (ecCached h chunks st) (h c.text))).map
    (fun c => (c, dictGetD (ecCached h chunks st) (h c.text) []))

def ecToEmbed (h : String → String) (chunks : List Chunk)
    (st : StorageState) : List Chunk :=
  chunks.filter (fun c => !dictHas (ecCached h chunks st) (h c.text))

def ecPairs (h : String → String) (embed : List String → List (List ℚ))
    (chunks : List Chunk) (st : StorageState) : List (Chunk × List ℚ) :=
  (ecToEmbed h chunks st).zip
    (embed ((ecToEmbed h chunks st).map (fun c => c.text)))

def ecEntries (h : String → String) (embed : List String → List (List ℚ))
    (chunks : List Chunk) (st : StorageState) : List CachedEmbedding :=
  (ecPairs h embed chunks st).map
    (fun p => CachedEmbedding.mk (h p.1.text) p.2 "")

def ecOrder (chunks : List Chunk) (a b : Chunk × List ℚ) : Bool :=
  Nat.ble (chunks.indexOf a.1) (chunks.indexOf b.1)

theorem embedChunksWithCache_eq (h : String → String)
    (embed : List String → List (List ℚ)) (chunks : List Chunk)
    (st : StorageState) :
    embedChunksWithCache h embed chunks st =
      if chunks.isEmpty then (([], 0, 0), st)
      else if (ecToEmbed h chunks st).isEmpty then
        ((ssort (ecOrder chunks) (ecResult0 h chunks st),
          (ecToEmbed h chunks st).length,
          chunks.length - (ecToEmbed h chunks st).length),
         ecSt1 h chunks st)
      else
        ((ssort (ecOrder chunks)
            (ecResult0 h chunks st ++ ecPairs h embed chunks st),
          (ecToEmbed h chunks st).length,
          chunks.length - (ecToEmbed h chunks st).length),
         cache_embeddings (ecEntries h embed chunks st)
           (ecSt1 h chunks st)) := rfl

theorem dictHas_iff {α : Type} (l : List (String × α)) (k : String) :
    dictHas l k = true ↔ k ∈ dictKeys l := by
  simp only [dictHas, dictKeys, List.any_eq_true, decide_eq_true_eq,
    List.mem_map]

theorem dictHas_fold_cache (rows : List CachedEmbedding)
    (acc : List (String × List ℚ)) (k : String) :
    dictHas (rows.foldl (fun m r => dictSet m r.content_hash r.vector) acc)
        k = true ↔
      k ∈ rows.map (fun r => r.content_hash) ∨ dictHas acc k = true := by
  induction rows generalizing acc with
  | nil => simp
  | cons r rest ih =>
    rw [List.foldl_cons, ih]
    rw [dictHas_iff acc, dictHas_iff (dictSet acc r.content_hash r.vector)]
    rw [mem_dictKeys_set]
    simp only [List.map_cons, List.mem_cons]
    tauto

theorem get_cached_st_cacheHashes (requested : List String)
    (st : StorageState) :
    cacheHashes (get_cached_embeddings requested st).2 = cacheHashes st := by
  by_cases hr : requested.isEmpty
  · simp [get_cached_embeddings, hr]
  · simp only [get_cached_embeddings, hr, Bool.false_eq_true, if_neg,
      not_false_iff]
    exact getCacheTable_cacheHashes st

theorem get_cached_st_chunks (requested : List String) (st : StorageState) :
    ((get_cached_embeddings requested st).2).chunksTable = st.chunksTable := by
  by_cases hr : requested.isEmpty
  · simp [get_cached_embeddings, hr]
  · simp only [get_cached_embeddings, hr, Bool.false_eq_true, if_neg,
      not_false_iff]
    exact getCacheTable_chunks st

theorem get_cached_has (requested : List String) (st : StorageState)
    (k : String) (hreq : k ∈ requested) (hk : k ∈ cacheHashes st) :
    dictHas (get_cached_embeddings requested st).1 k = true := by
  have hr : requested.isEmpty = false := by
    cases requested with
    | nil => simp at hreq
    | cons a l => simp
  simp only [get_cached_embeddings, hr, Bool.false_eq_true, if_neg,
    not_false_iff]
  apply (dictHas_fold_cache _ _ _).mpr
  left
  rcases List.mem_map.mp hk with ⟨r, hrmem, hre⟩
  rw [← getCacheTable_fst] at hrmem
  refine List.mem_map.mpr ⟨r, ?_, hre⟩
  refine List.mem_filter.mpr ⟨hrmem, ?_⟩
  simp only [List.any_eq_true, decide_eq_true_eq]
  exact ⟨k, hreq, hre.symm⟩

theorem get_cached_sound (requested : List String) (st : StorageState)
    (k : String)
    (h : dictHas (get_cached_embeddings requested st).1 k = true) :
    k ∈ cacheHashes st := by
  by_cases hr : requested.isEmpty
  · simp [get_cached_embeddings, hr, dictHas] at h
  · simp only [get_cached_embeddings, hr, Bool.false_eq_true, if_neg,
      not_false_iff] at h
    rcases (dictHas_fold_cache _ _ _).mp h with hc | hc
    · rcases List.mem_map.mp hc with ⟨r, hrmem, hre⟩
      have hrows : r ∈ (getCacheTable st).1 := (List.mem_filter.mp hrmem).1
      rw [getCacheTable_fst] at hrows
      exact List.mem_map.mpr ⟨r, hrows, hre⟩
    · simp [dictHas] at hc

theorem cache_embeddings_hash_mono (entries : List CachedEmbedding)
    (st : StorageState) (k : String) (hk : k ∈ cacheHashes st) :
    k ∈ cacheHashes (cache_embeddings entries st) := by
  by_cases he : entries.isEmpty
  · simpa [cache_embeddings, he] using hk
  · simp only [cache_embeddings, he, Bool.false_eq_true, if_neg,
      not_false_iff]
    rcases List.mem_map.mp hk with ⟨r, hrmem, hre⟩
    rw [← getCacheTable_fst] at hrmem
    simp only [cacheHashes, Option.getD_some, List.map_append,
      List.mem_append]
    by_cases hs : (entries.map (fun e => e.content_hash)).any
        (fun hh => hh = r.content_hash)
    · right
      rcases List.any_eq_true.mp hs with ⟨hh, hhmem, hhe⟩
      rw [← hre]
      have : hh = r.content_hash := by simpa using hhe
      exact this ▸ hhmem
    · left
      refine List.mem_map.mpr ⟨r, ?_, hre⟩
      refine List.mem_filter.mpr ⟨hrmem, ?_⟩
      simpa using hs

theorem cache_embeddings_adds (entries : List CachedEmbedding)
    (st : StorageState) (k : String)
    (hk : k ∈ entries.map (fun e => e.content_hash))
    (hne : entries.isEmpty = false) :
    k ∈ cacheHashes (cache_embeddings entries st) := by
  simp only [cache_embeddings, hne, Bool.false_eq_true, if_neg,
    not_false_iff]
  simp only [cacheHashes, Option.getD_some, List.map_append, List.mem_append]
  exact Or.inr hk

theorem embed_cache_mono (h : String → String)
    (embed : List String → List (List ℚ)) (chunks : List Chunk)
    (st : StorageState) (k : String) (hk : k ∈ cacheHashes st) :
    k ∈ cacheHashes (embedChunksWithCache h embed chunks st).2 := by
  rw [embedChunksWithCache_eq]
  by_cases hc : chunks.isEmpty
  · simpa [hc] using hk
  · simp only [hc, Bool.false_eq_true, if_neg, not_false_iff]
    have hk1 : k ∈ cacheHashes (ecSt1 h chunks st) := by
      rw [ecSt1, get_cached_st_cacheHashes]
      exact hk
    split
    · exact hk1
    · exact cache_embeddings_hash_mono _ _ _ hk1

theorem embed_caches_all (h : String → String)
    (embed : List String → List (List ℚ))
    (hlen : ∀ ts, (embed ts).length = ts.length) (chunks : List Chunk)
    (st : StorageState) :
    ∀ c ∈ chunks,
      h c.text ∈ cacheHashes (embedChunksWithCache h embed chunks st).2 := by
  intro c hc
  have hne : chunks.isEmpty = false := by
    cases chunks with
    | nil => simp at hc
    | cons a l => simp
  rw [embedChunksWithCache_eq]
  simp only [hne, Bool.false_eq_true, if_neg, not_false_iff]
  by_cases hd2 : dictHas (ecCached h chunks st) (h c.text) = true
  · have hk : h c.text ∈ cacheHashes st := get_cached_sound _ _ _ hd2
    have hk1 : h c.text ∈ cacheHashes (ecSt1 h chunks st) := by
      rw [ecSt1, get_cached_st_cacheHashes]
      exact hk
    split
    · exact hk1
    · exact cache_embeddings_hash_mono _ _ _ hk1
  · have hce : c ∈ ecToEmbed h chunks st :=
      List.mem_filter.mpr ⟨hc, by simpa using hd2⟩
    have hte : (ecToEmbed h chunks st).isEmpty = false := by
      cases hq : ecToEmbed h chunks st with
      | nil => rw [hq] at hce; simp at hce
      | cons a l => simp
    rw [if_neg (by simp [hte])]
    have hmap : (ecPairs h embed chunks st).map Prod.fst =
        ecToEmbed h chunks st := by
      rw [ecPairs]
      apply List.map_fst_zip
      rw [hlen]
      simp
    have hcp : c ∈ (ecPairs h embed chunks st).map Prod.fst := by
      rw [hmap]; exact hce
    rcases List.mem_map.mp hcp with ⟨p, hp, hpe⟩
    have hkh : h c.text ∈ (ecEntries h embed chunks st).map
        (fun e => e.content_hash) := by
      refine List.mem_map.mpr ⟨CachedEmbedding.mk (h p.1.text) p.2 "", ?_, ?_⟩
      · exact List.mem_map.mpr ⟨p, hp, rfl⟩
      · simp [hpe]
    have hene : (ecEntries h embed chunks st).isEmpty = false := by
      cases hq : ecEntries h embed chunks st with
      | nil => rw [hq] at hkh; simp at hkh
      | cons a l => simp
    exact cache_embeddings_adds _ _ _ hkh hene

theorem ssort_length {α : Type} (le : α → α → Bool) (l : List α) :
    (ssort le l).length = l.length :=
  (ssort_perm le l).length_eq

theorem length_filter_split {α : Type} (p : α → Bool) (l : List α) :
    (l.filter p).length + (l.filter (fun x => !p x)).length = l.length := by
  induction l with
  | nil => simp
  | cons a rest ih =>
    cases hp : p a <;> simp [List.filter_cons, hp, ← ih] <;> omega

theorem cacheHashes_eq_of {a b : StorageState}
    (h : a.cacheTable = b.cacheTable) : cacheHashes a = cacheHashes b := by
  simp [cacheHashes, h]

theorem getCacheTable_of_some {st : StorageState}
    {rows : List CachedEmbedding} (h : st.cacheTable = some rows) :
    (getCacheTable st).2 = st := by
  simp [getCacheTable, h]

/-- Chunk count the chunker yields for a stored file path (0 when the path
does not resolve to a readable file). -/
def fileChunkCount (chunkf : String → String → List Chunk) (fs : FSEntry)
    (fp : String) : Nat :=
  match readFileAt fs fp with
  | none => 0
  | some ct => (chunkf fp ct).length

/-- Every chunk of the file at `fp` already has its embedding cached. -/
def CachedAll (h : String → String) (chunkf : String → String → List Chunk)
    (fs : FSEntry) (fp : String) (st : StorageState) : Prop :=
  ∀ ct, readFileAt fs fp = some ct →
    ∀ c ∈ chunkf fp ct, h c.text ∈ cacheHashes st

theorem CachedAll_congr {h : String → String}
    {chunkf : String → String → List Chunk} {fs : FSEntry} {fp : String}
    {st st2 : StorageState} (he : st.cacheTable = st2.cacheTable)
    (hc : CachedAll h chunkf fs fp st) : CachedAll h chunkf fs fp st2 := by
  intro ct hct c hcm
  rw [← cacheHashes_eq_of he]
  exact hc ct hct c hcm

theorem processFile_cache_mono (h : String → String)
    (embed : List String → List (List ℚ))
    (chunkf : String → String → List Chunk) (fs : FSEntry) (fp : String)
    (st : StorageState) (k : String) (hk : k ∈ cacheHashes st) :
    k ∈ cacheHashes (processFile h embed chunkf fs fp st).2 := by
  simp only [processFile]
  cases hre : readFileAt fs fp with
  | none => exact hk
  | some ct =>
    have hdel : cacheHashes ((delete_chunks_by_filepath fp st).2) =
        cacheHashes st := cacheHashes_eq_of (delete_chunks_cache fp st)
    by_cases hce : (chunkf fp ct).isEmpty
    · simp only [hce, if_pos]
      rw [hdel]
      exact hk
    · simp only [hce, Bool.false_eq_true, if_neg, not_false_iff]
      rw [cacheHashes_eq_of (upsert_chunks_cache _ _)]
      apply embed_cache_mono
      rw [hdel]
      exact hk

theorem processFile_caches (h : String → String)
    (embed : List String → List (List ℚ))
    (hlen : ∀ ts, (embed ts).length = ts.length)
    (chunkf : String → String → List Chunk) (fs : FSEntry) (fp : String)
    (st : StorageState) :
    CachedAll h chunkf fs fp ((processFile h embed chunkf fs fp st).2) := by
  intro ct hct c hcm
  simp only [processFile, hct]
  have hce : (chunkf fp ct).isEmpty = false := by
    cases hq : chunkf fp ct with
    | nil => rw [hq] at hcm; simp at hcm
    | cons a l => simp
  simp only [hce, Bool.false_eq_true, if_neg, not_false_iff]
  rw [cacheHashes_eq_of (upsert_chunks_cache _ _)]
  exact embed_caches_all h embed hlen (chunkf fp ct) _ c hcm

theorem upsert_chunksLen (cs : List CodeChunk) (st : StorageState) :
    chunksLen (upsert_chunks cs st) ≤ chunksLen st + cs.length := by
  by_cases hc : cs.isEmpty
  · simp [upsert_chunks, hc]
  · simp only [upsert_chunks, hc, Bool.false_eq_true, if_neg, not_false_iff]
    simp only [chunksLen, Option.getD_some, List.length_append]
    rw [getChunksTable_fst]
    have h1 : ((st.chunksTable.getD []).filter
        (fun r => !((cs.map (fun c => c.id)).any (fun i => i = r.id)))).length
        ≤ (st.chunksTable.getD []).length := List.length_filter_le _ _
    omega

theorem embed_result_len (h : String → String)
    (embed : List String → List (List ℚ))
    (chunks : List Chunk) (st : StorageState) :
    (embedChunksWithCache h embed chunks st).1.1.length ≤ chunks.length := by
  rw [embedChunksWithCache_eq]
  by_cases hc : chunks.isEmpty
  · simp [hc]
  · simp only [hc, Bool.false_eq_true, if_neg, not_false_iff]
    have hsplit := length_filter_split
      (fun c => dictHas (ecCached h chunks st) (h c.text)) chunks
    have h4 : (chunks.filter
        (fun x => !dictHas (ecCached h chunks st) (h x.text))).length =
        (ecToEmbed h chunks st).length := rfl
    have h5 : (ecResult0 h chunks st).length = (chunks.filter
        (fun c => dictHas (ecCached h chunks st) (h c.text))).length := by
      rw [ecResult0, List.length_map]
    split
    · rw [ssort_length, h5]
      omega
    · have hz : (ecPairs h embed chunks st).length ≤
          (ecToEmbed h chunks st).length := by
        rw [ecPairs, List.length_zip]
        omega
      rw [ssort_length, List.length_append, h5]
      omega

theorem processFile_chunksLen (h : String → String)
    (embed : List String → List (List ℚ))
    (chunkf : String → String → List Chunk) (fs : FSEntry) (fp : String)
    (st : StorageState) :
    chunksLen (processFile h embed chunkf fs fp st).2 ≤
      chunksLen st + fileChunkCount chunkf fs fp := by
  cases hre : readFileAt fs fp with
  | none =>
    simp only [processFile, fileChunkCount, hre]
    omega
  | some ct =>
    simp only [processFile, fileChunkCount, hre]
    have hdel : chunksLen ((delete_chunks_by_filepath fp st).2) ≤
        chunksLen st := by
      simp only [chunksLen, delete_table_eq, Option.getD_some]
      exact List.length_filter_le _ _
    by_cases hce : (chunkf fp ct).isEmpty
    · simp only [hce, if_pos]
      omega
    · simp only [hce, Bool.false_eq_true, if_neg, not_false_iff]
      have h1 := upsert_chunksLen
        ((embedChunksWithCache h embed (chunkf fp ct)
          ((delete_chunks_by_filepath fp st).2)).1.1.map (fun p =>
            CodeChunk.mk (fp ++ ":" ++ toString p.1.start_line) p.2
              p.1.text (h p.1.text) fp (baseName fp)
              (pySuffix (baseName fp)) p.1.type p.1.name p.1.start_line
              p.1.end_line (h ct)))
        (embedChunksWithCache h embed (chunkf fp ct)
          ((delete_chunks_by_filepath fp st).2)).2
      have h2 : chunksLen (embedChunksWithCache h embed (chunkf fp ct)
          ((delete_chunks_by_filepath fp st).2)).2 =
          chunksLen ((delete_chunks_by_filepath fp st).2) := by
        simp [chunksLen, embed_chunks_table]
      have h3 := embed_result_len h embed (chunkf fp ct)
        ((delete_chunks_by_filepath fp st).2)
      rw [List.length_map] at h1
      omega

/-- When every chunk of the file is already cached, `_process_file` embeds
nothing, reports the full chunk count as cached, and leaves the embedding
cache untouched. -/
theorem processFile_cached (h : String → String)
    (embed : List String → List (List ℚ))
    (chunkf : String → String → List Chunk) (fs : FSEntry) (fp : String)
    (st : StorageState) (hc : CachedAll h chunkf fs fp st) :
    (processFile h embed chunkf fs fp st).1.2.1 = 0 ∧
    (processFile h embed chunkf fs fp st).1.2.2 =
      fileChunkCount chunkf fs fp ∧
    ((processFile h embed chunkf fs fp st).2).cacheTable = st.cacheTable := by
  cases hre : readFileAt fs fp with
  | none => simp [processFile, fileChunkCount, hre]
  | some ct =>
    by_cases hce : (chunkf fp ct).isEmpty
    · refine ⟨?_, ?_, ?_⟩ <;>
        simp only [processFile, fileChunkCount, hre, hce, if_pos]
      · rw [List.isEmpty_iff.mp hce]
        rfl
      · exact delete_chunks_cache fp st
    · have hdelc : ((delete_chunks_by_filepath fp st).2).cacheTable =
        st.cacheTable := delete_chunks_cache fp st
      have hall : ∀ c ∈ chunkf fp ct, h c.text ∈
          cacheHashes ((delete_chunks_by_filepath fp st).2) := by
        intro c hcm
        rw [cacheHashes_eq_of hdelc]
        exact hc ct hre c hcm
      have hsome : ∃ rows, st.cacheTable = some rows := by
        rcases List.exists_mem_of_ne_nil _ (List.isEmpty_iff.not.mp
          (by simp [hce]) : chunkf fp ct ≠ []) with ⟨c0, hc0⟩
        have := hc ct hre c0 hc0
        cases hq : st.cacheTable with
        | none =>
          rw [cacheHashes, hq] at this
          simp at this
        | some rows => exact ⟨rows, rfl⟩
      rcases hsome with ⟨rows, hrows⟩
      have hrows1 : ((delete_chunks_by_filepath fp st).2).cacheTable =
          some rows := by rw [hdelc, hrows]
      have hne : ((chunkf fp ct).map (fun c => h c.text)).isEmpty = false := by
        cases hq : chunkf fp ct with
        | nil => rw [hq] at hce; simp at hce
        | cons a l => simp
      have hte : ecToEmbed h (chunkf fp ct)
          ((delete_chunks_by_filepath fp st).2) = [] := by
        rw [ecToEmbed]
        apply List.filter_eq_nil_iff.mpr
        intro c hcm
        have := get_cached_has ((chunkf fp ct).map (fun c => h c.text))
          ((delete_chunks_by_filepath fp st).2) (h c.text)
          (List.mem_map.mpr ⟨c, hcm, rfl⟩) (hall c hcm)
        simp [ecCached, this]
      have hst1 : ecSt1 h (chunkf fp ct)
          ((delete_chunks_by_filepath fp st).2) =
          (delete_chunks_by_filepath fp st).2 := by
        rw [ecSt1]
        simp only [get_cached_embeddings, hne, Bool.false_eq_true, if_neg,
          not_false_iff]
        exact getCacheTable_of_some hrows1
      have hemb := embedChunksWithCache_eq h embed (chunkf fp ct)
        ((delete_chunks_by_filepath fp st).2)
      rw [if_neg (by simp [hce]), hte] at hemb
      simp only [List.isEmpty_nil, if_pos, List.length_nil] at hemb
      refine ⟨?_, ?_, ?_⟩ <;>
        simp only [processFile, hre, hce, Bool.false_eq_true, if_neg,
          not_false_iff, hemb]
      · simp [fileChunkCount, hre]
      · rw [upsert_chunks_cache, hst1, hdelc]

/-- The per-file loop of `Indexer.index` over `diff.new + diff.modified`,
accumulating `(chunks_added, computed, cached)`. -/
def indexFold (h : String → String) (embed : List String → List (List ℚ))
    (chunkf : String → String → List Chunk) (fs : FSEntry)
    (fps : List String) (acc : (Nat × Nat × Nat) × StorageState) :
    (Nat × Nat × Nat) × StorageState :=
  fps.foldl (fun acc fp =>
    let r := processFile h embed chunkf fs fp acc.2
    ((acc.1.1 + r.1.1, acc.1.2.1 + r.1.2.1, acc.1.2.2 + r.1.2.2), r.2)) acc

theorem indexFold_cache_mono (h : String → String)
    (embed : List String → List (List ℚ))
    (chunkf : String → String → List Chunk) (fs : FSEntry)
    (fps : List String) (acc : (Nat × Nat × Nat) × StorageState)
    (k : String) (hk : k ∈ cacheHashes acc.2) :
    k ∈ cacheHashes (indexFold h embed chunkf fs fps acc).2 := by
  induction fps generalizing acc with
  | nil => exact hk
  | cons fp rest ih =>
    exact ih _ (processFile_cache_mono h embed chunkf fs fp acc.2 k hk)

theorem indexFold_caches (h : String → String)
    (embed : List String → List (List ℚ))
    (hlen : ∀ ts, (embed ts).length = ts.length)
    (chunkf : String → String → List Chunk) (fs : FSEntry)
    (fps : List String) (acc : (Nat × Nat × Nat) × StorageState) :
    (∀ fp ∈ fps,
      CachedAll h chunkf fs fp (indexFold h embed chunkf fs fps acc).2) ∧
    chunksLen (indexFold h embed chunkf fs fps acc).2 ≤
      chunksLen acc.2 + (fps.map (fileChunkCount chunkf fs)).sum := by
  induction fps generalizing acc with
  | nil => exact ⟨by simp, by simp [indexFold]⟩
  | cons fp rest ih =>
    have hstep : indexFold h embed chunkf fs (fp :: rest) acc =
        indexFold h embed chunkf fs rest
          ((acc.1.1 + (processFile h embed chunkf fs fp acc.2).1.1,
            acc.1.2.1 + (processFile h embed chunkf fs fp acc.2).1.2.1,
            acc.1.2.2 + (processFile h embed chunkf fs fp acc.2).1.2.2),
           (processFile h embed chunkf fs fp acc.2).2) := rfl
    rw [hstep]
    rcases ih ((acc.1.1 + (processFile h embed chunkf fs fp acc.2).1.1,
            acc.1.2.1 + (processFile h embed chunkf fs fp acc.2).1.2.1,
            acc.1.2.2 + (processFile h embed chunkf fs fp acc.2).1.2.2),
           (processFile h embed chunkf fs fp acc.2).2) with ⟨ih1, ih2⟩
    constructor
    · intro fp2 hfp2
      rcases List.mem_cons.mp hfp2 with hc | hc
      · subst hc
        intro ct hct c hcm
        apply indexFold_cache_mono
        exact processFile_caches h embed hlen chunkf fs fp2 acc.2 ct hct c hcm
      · exact ih1 fp2 hc
    · have h1 := processFile_chunksLen h embed chunkf fs fp acc.2
      dsimp only at ih2
      simp only [List.map_cons, List.sum_cons]
      omega

theorem indexFold_all_cached (h : String → String)
    (embed : List String → List (List ℚ))
    (chunkf : String → String → List Chunk) (fs : FSEntry)
    (fps : List String) (acc : (Nat × Nat × Nat) × StorageState)
    (hc : ∀ fp ∈ fps, CachedAll h chunkf fs fp acc.2) :
    (indexFold h embed chunkf fs fps acc).1.2.1 = acc.1.2.1 ∧
    (indexFold h embed chunkf fs fps acc).1.2.2 =
      acc.1.2.2 + (fps.map (fileChunkCount chunkf fs)).sum ∧
    ((indexFold h embed chunkf fs fps acc).2).cacheTable =
      acc.2.cacheTable := by
  induction fps generalizing acc with
  | nil => exact ⟨rfl, by simp [indexFold], rfl⟩
  | cons fp rest ih =>
    have hpc := processFile_cached h embed chunkf fs fp acc.2
      (hc fp (List.mem_cons_self fp rest))
    have hstep : indexFold h embed chunkf fs (fp :: rest) acc =
        indexFold h embed chunkf fs rest
          ((acc.1.1 + (processFile h embed chunkf fs fp acc.2).1.1,
            acc.1.2.1 + (processFile h embed chunkf fs fp acc.2).1.2.1,
            acc.1.2.2 + (processFile h embed chunkf fs fp acc.2).1.2.2),
           (processFile h embed chunkf fs fp acc.2).2) := rfl
    rw [hstep]
    have hrest : ∀ fp2 ∈ rest, CachedAll h chunkf fs fp2
        ((processFile h embed chunkf fs fp acc.2).2) := by
      intro fp2 hfp2
      exact CachedAll_congr hpc.2.2.symm (hc fp2 (List.mem_cons_of_mem fp hfp2))
    rcases ih ((acc.1.1 + (processFile h embed chunkf fs fp acc.2).1.1,
            acc.1.2.1 + (processFile h embed chunkf fs fp acc.2).1.2.1,
            acc.1.2.2 + (processFile h embed chunkf fs fp acc.2).1.2.2),
           (processFile h embed chunkf fs fp acc.2).2) hrest with ⟨i1, i2, i3⟩
    refine ⟨?_, ?_, ?_⟩
    · rw [i1]
      dsimp only
      rw [hpc.1]
      omega
    · rw [i2]
      dsimp only
      simp only [List.map_cons, List.sum_cons, hpc.2.1]
      omega
    · rw [i3]
      dsimp only
      rw [hpc.2.2]

theorem delete_fps_nil (st : StorageState) :
    delete_chunks_by_filepaths [] st = (0, st) := rfl

theorem has_changes_new (L : List String) :
    (TreeDiff.mk L [] []).has_changes = !L.isEmpty := by
  simp [TreeDiff.has_changes]

theorem indexRun_nochanges (h hd : String → String) (excl : String → Bool)
    (exts : List String) (chunkf : String → String → List Chunk)
    (embed : List String → List (List ℚ)) (fs : FSEntry) (S : SysState)
    (force : Bool)
    (hnc : (getChanges h hd excl exts fs S.manifest force).2.has_changes
      = false) :
    indexRun h hd excl exts chunkf embed fs S force =
      ({ files_scanned :=
          countFiles (getChanges h hd excl exts fs S.manifest force).1
         files_new :=
          (getChanges h hd excl exts fs S.manifest force).2.new.length
         files_modified :=
          (getChanges h hd excl exts fs S.manifest force).2.modified.length
         files_deleted :=
          (getChanges h hd excl exts fs S.manifest force).2.deleted.length },
       ⟨some (updateManifest
           (getChanges h hd excl exts fs S.manifest force).1
           { files_scanned :=
              countFiles (getChanges h hd excl exts fs S.manifest force).1
             files_new :=
              (getChanges h hd excl exts fs S.manifest force).2.new.length
             files_modified :=
              (getChanges h hd excl exts fs
                S.manifest force).2.modified.length
             files_deleted :=
              (getChanges h hd excl exts fs
                S.manifest force).2.deleted.length }
           S.manifest
           (if force then clear_all S.storage else S.storage)).1,
        (updateManifest
           (getChanges h hd excl exts fs S.manifest force).1
           { files_scanned :=
              countFiles (getChanges h hd excl exts fs S.manifest force).1
             files_new :=
              (getChanges h hd excl exts fs S.manifest force).2.new.length
             files_modified :=
              (getChanges h hd excl exts fs
                S.manifest force).2.modified.length
             files_deleted :=
              (getChanges h hd excl exts fs
                S.manifest force).2.deleted.length }
           S.manifest
           (if force then clear_all S.storage else S.storage)).2⟩) := by
  simp only [indexRun, hnc]
  simp

theorem indexRun_changes (h hd : String → String) (excl : String → Bool)
    (exts : List String) (chunkf : String → String → List Chunk)
    (embed : List String → List (List ℚ)) (fs : FSEntry) (S : SysState)
    (force : Bool)
    (hnc : (getChanges h hd excl exts fs S.manifest force).2.has_changes
      = true) :
    (indexRun h hd excl exts chunkf embed fs S force).1.embeddings_computed =
      (indexFold h embed chunkf fs
        ((getChanges h hd excl exts fs S.manifest force).2.new ++
          (getChanges h hd excl exts fs S.manifest force).2.modified)
        ((0, 0, 0),
         (delete_chunks_by_filepaths
           (getChanges h hd excl exts fs S.manifest force).2.deleted
           (if force then clear_all S.storage else S.storage)).2)).1.2.1 ∧
    (indexRun h hd excl exts chunkf embed fs S force).1.embeddings_cached =
      (indexFold h embed chunkf fs
        ((getChanges h hd excl exts fs S.manifest force).2.new ++
          (getChanges h hd excl exts fs S.manifest force).2.modified)
        ((0, 0, 0),
         (delete_chunks_by_filepaths
           (getChanges h hd excl exts fs S.manifest force).2.deleted
           (if force then clear_all S.storage else S.storage)).2)).1.2.2 ∧
    (indexRun h hd excl exts chunkf embed fs S force).2.storage =
      (count_chunks
        (indexFold h embed chunkf fs
          ((getChanges h hd excl exts fs S.manifest force).2.new ++
            (getChanges h hd excl exts fs S.manifest force).2.modified)
          ((0, 0, 0),
           (delete_chunks_by_filepaths
             (getChanges h hd excl exts fs S.manifest force).2.deleted
             (if force then clear_all S.storage else S.storage)).2)).2).2 := by
  simp only [indexRun, hnc]
  refine ⟨rfl, rfl, rfl⟩

theorem updateManifest_snd (a : Option MerkleNode) (b : IndexStats)
    (c : Option Manifest) (st : StorageState) :
    (updateManifest a b c st).2 = (count_chunks st).2 := rfl

/-- **C3.** `Indexer.index(force=true)` does not shrink the embedding cache:
the force-clear (`clear_all`) drops only the chunk table and never the cache
table; and when a run completed from a fresh state and the filesystem is
unchanged, the forced re-run serves every chunk vector from the cache — it
reports `embeddings_computed = 0`, `embeddings_cached` at least the chunk
table size of the previous run, and leaves the cache table identical. -/
theorem c3_force_reindex_cache (h hd : String → String)
    (excl : String → Bool) (exts : List String)
    (chunkf : String → String → List Chunk)
    (embed : List String → List (List ℚ)) (fs : FSEntry) (f0 : Bool)
    (hlen : ∀ ts, (embed ts).length = ts.length) :
    (∀ st : StorageState, (clear_all st).cacheTable = st.cacheTable) ∧
    (indexRun h hd excl exts chunkf embed fs
      (indexRun h hd excl exts chunkf embed fs ⟨none, {}⟩ f0).2
      true).1.embeddings_computed = 0 ∧
    chunksLen (indexRun h hd excl exts chunkf embed fs
      ⟨none, {}⟩ f0).2.storage ≤
      (indexRun h hd excl exts chunkf embed fs
        (indexRun h hd excl exts chunkf embed fs ⟨none, {}⟩ f0).2
        true).1.embeddings_cached ∧
    (indexRun h hd excl exts chunkf embed fs
      (indexRun h hd excl exts chunkf embed fs ⟨none, {}⟩ f0).2
      true).2.storage.cacheTable =
      (indexRun h hd excl exts chunkf embed fs
        ⟨none, {}⟩ f0).2.storage.cacheTable := by
  refine ⟨fun st => rfl, ?_⟩
  have hg1 : getChanges h hd excl exts fs
      ((⟨none, {}⟩ : SysState)).manifest f0 =
      (buildNode h hd excl exts [] fs [],
       TreeDiff.mk (collectTreeFiles (buildNode h hd excl exts [] fs []))
         [] []) := by
    cases f0 <;> rfl
  have hg2 : ∀ S2 : SysState, getChanges h hd excl exts fs S2.manifest true =
      (buildNode h hd excl exts [] fs [],
       TreeDiff.mk (collectTreeFiles (buildNode h hd excl exts [] fs []))
         [] []) := by
    intro S2
    cases hm : S2.manifest with
    | none => simp [getChanges, hm]
    | some mm =>
      cases hmt : mm.tree with
      | none => simp [getChanges, hm, hmt]
      | some t => simp [getChanges, hm, hmt]
  cases hLe : (collectTreeFiles (buildNode h hd excl exts [] fs [])).isEmpty
    with
  | true =>
    have hnc1 : (getChanges h hd excl exts fs
        ((⟨none, {}⟩ : SysState)).manifest f0).2.has_changes = false := by
      rw [hg1]
      simp only [has_changes_new, hLe, Bool.not_true]
    have hr1 := indexRun_nochanges h hd excl exts chunkf embed fs
      ⟨none, {}⟩ f0 hnc1
    have hnc2 : (getChanges h hd excl exts fs
        ((indexRun h hd excl exts chunkf embed fs
          ⟨none, {}⟩ f0).2).manifest true).2.has_changes = false := by
      rw [hg2]
      simp only [has_changes_new, hLe, Bool.not_true]
    have hr2 := indexRun_nochanges h hd excl exts chunkf embed fs
      (indexRun h hd excl exts chunkf embed fs ⟨none, {}⟩ f0).2 true hnc2
    refine ⟨?_, ?_, ?_⟩
    · rw [hr2]
    · rw [hr2]
      dsimp only
      rw [hr1]
      dsimp only
      rw [updateManifest_snd, (count_chunks_frame _).2]
      cases f0 <;> simp [chunksLen, clear_all]
    · rw [hr2]
      dsimp only
      rw [updateManifest_snd, (count_chunks_frame _).1]
      simp [clear_all]
  | false =>
    have hnc1 : (getChanges h hd excl exts fs
        ((⟨none, {}⟩ : SysState)).manifest f0).2.has_changes = true := by
      rw [hg1]
      simp only [has_changes_new, hLe, Bool.not_false]
    have hr1 := indexRun_changes h hd excl exts chunkf embed fs
      ⟨none, {}⟩ f0 hnc1
    have hnc2 : (getChanges h hd excl exts fs
        ((indexRun h hd excl exts chunkf embed fs
          ⟨none, {}⟩ f0).2).manifest true).2.has_changes = true := by
      rw [hg2]
      simp only [has_changes_new, hLe, Bool.not_false]
    have hr2 := indexRun_changes h hd excl exts chunkf embed fs
      (indexRun h hd excl exts chunkf embed fs ⟨none, {}⟩ f0).2 true hnc2
    simp only [hg1, List.append_nil, delete_fps_nil] at hr1
    simp only [hg2, List.append_nil, delete_fps_nil, eq_self_iff_true,
      if_true] at hr2
    have hfc := indexFold_caches h embed hlen chunkf fs
      (collectTreeFiles (buildNode h hd excl exts [] fs []))
      ((0, 0, 0), if f0 then clear_all ({} : StorageState) else {})
    have hst0 : chunksLen
        (if f0 then clear_all ({} : StorageState) else {}) = 0 := by
      cases f0 <;> rfl
    have hceq : ((indexFold h embed chunkf fs
        (collectTreeFiles (buildNode h hd excl exts [] fs []))
        ((0, 0, 0),
          if f0 then clear_all ({} : StorageState) else {})).2).cacheTable =
        (clear_all ((indexRun h hd excl exts chunkf embed fs
          ⟨none, {}⟩ f0).2).storage).cacheTable := by
      rw [clear_all_cache, hr1.2.2, (count_chunks_frame _).1]
    have hall := indexFold_all_cached h embed chunkf fs
      (collectTreeFiles (buildNode h hd excl exts [] fs []))
      ((0, 0, 0), clear_all ((indexRun h hd excl exts chunkf embed fs
        ⟨none, {}⟩ f0).2).storage)
      (fun fp hfp => CachedAll_congr hceq (hfc.1 fp hfp))
    refine ⟨?_, ?_, ?_⟩
    · rw [hr2.1, hall.1]
    · rw [hr1.2.2, hr2.2.1, hall.2.1]
      have h1 : chunksLen (count_chunks (indexFold h embed chunkf fs
          (collectTreeFiles (buildNode h hd excl exts [] fs []))
          ((0, 0, 0),
            if f0 then clear_all ({} : StorageState) else {})).2).2 =
          chunksLen (indexFold h embed chunkf fs
          (collectTreeFiles (buildNode h hd excl exts [] fs []))
          ((0, 0, 0),
            if f0 then clear_all ({} : StorageState) else {})).2 :=
        (count_chunks_frame _).2
      have h2 := hfc.2
      dsimp only at h2
      rw [hst0] at h2
      omega
    · rw [hr2.2.2, (count_chunks_frame _).1, hall.2.2, clear_all_cache]

theorem c3_force_reindex_cache_witness :
    (∀ ts : List String,
      (ts.map (fun t => ([] : List ℚ))).length = ts.length) ∧
    (indexRun (fun s => s) (fun s => s) (fun nm => false) []
      (fun fp ct => []) (fun ts => ts.map (fun t => ([] : List ℚ)))
      (FSEntry.dir "r" [])
      (indexRun (fun s => s) (fun s => s) (fun nm => false) []
        (fun fp ct => []) (fun ts => ts.map (fun t => ([] : List ℚ)))
        (FSEntry.dir "r" []) ⟨none, {}⟩ false).2
      true).1.embeddings_computed = 0 :=
  ⟨fun ts => by simp,
   (c3_force_reindex_cache (fun s => s) (fun s => s) (fun nm => false) []
     (fun fp ct => []) (fun ts => ts.map (fun t => ([] : List ℚ)))
     (FSEntry.dir "r" []) false (fun ts => by simp)).2.1⟩

/-! ## Modifying one file (`merkle.py` invariant I2 / P2)

`modifyAt` rewrites the content and mtime of the file at a position of the
filesystem and leaves everything else untouched. -/

mutual

def modifyAt (c2 : String) (m2 : Nat) : FSEntry → List String → FSEntry
  | .file nm _ _, [] => .file nm c2 m2
  | .dir nm es, [] => .dir nm es
  | .file nm c m, _ :: _ => .file nm c m
  | .dir nm es, a :: rest => .dir nm (modifyAtL c2 m2 es a rest)
termination_by e _ => sizeOf e
decreasing_by
  simp only [FSEntry.dir.sizeOf_spec]
  omega

def modifyAtL (c2 : String) (m2 : Nat) :
    List FSEntry → String → List String → List FSEntry
  | [], _, _ => []
  | x :: xs, a, rest =>
    (if x.name = a then modifyAt c2 m2 x rest else x) ::
      modifyAtL c2 m2 xs a rest
termination_by es _ _ => sizeOf es
decreasing_by
  · simp only [List.cons.sizeOf_spec]
    omega
  · simp only [List.cons.sizeOf_spec]
    omega

end

theorem modifyAt_name (c2 : String) (m2 : Nat) (e : FSEntry)
    (P : List String) : (modifyAt c2 m2 e P).name = e.name := by
  cases e with
  | file nm c m => cases P <;> simp [modifyAt, FSEntry.name]
  | dir nm es => cases P <;> simp [modifyAt, FSEntry.name]

theorem modifyAtL_eq_map (c2 : String) (m2 : Nat) (es : List FSEntry)
    (a : String) (rest : List String) :
    modifyAtL c2 m2 es a rest =
      es.map (fun x => if x.name = a then modifyAt c2 m2 x rest else x) := by
  induction es with
  | nil => rw [modifyAtL, List.map_nil]
  | cons x xs ih =>
    rw [modifyAtL, ih, List.map_cons]

theorem sinsert_map_name (f : FSEntry → FSEntry)
    (hf : ∀ x, (f x).name = x.name) (x : FSEntry) (l : List FSEntry) :
    sinsert (fun a b => strLe a.name b.name) (f x) (l.map f) =
      (sinsert (fun a b => strLe a.name b.name) x l).map f := by
  induction l with
  | nil => rfl
  | cons b bs ih =>
    simp only [List.map_cons, sinsert, hf]
    split
    · rw [ih, List.map_cons]
    · rw [List.map_cons, List.map_cons]

theorem ssort_map_name (f : FSEntry → FSEntry)
    (hf : ∀ x, (f x).name = x.name) (es : List FSEntry) :
    ssort (fun a b => strLe a.name b.name) (es.map f) =
      (ssort (fun a b => strLe a.name b.name) es).map f := by
  suffices hgen : ∀ acc : List FSEntry,
      (es.map f).foldl (fun acc a =>
        sinsert (fun a b => strLe a.name b.name) a acc) (acc.map f) =
      (es.foldl (fun acc a =>
        sinsert (fun a b => strLe a.name b.name) a acc) acc).map f by
    simpa [ssort] using hgen []
  induction es with
  | nil => intro acc; simp
  | cons x xs ih =>
    intro acc
    simp only [List.map_cons, List.foldl_cons]
    rw [sinsert_map_name f hf x acc, ih]

theorem find_mid {u : MerkleNode} (a : String)
    (X Y : List (String × MerkleNode)) (hX : a ∉ X.map Prod.fst) :
    (X ++ (a, u) :: Y).find? (fun p => p.1 = a) = some (a, u) := by
  induction X with
  | nil => simp
  | cons p ps ih =>
    simp only [List.map_cons, List.mem_cons] at hX
    push_neg at hX
    rw [List.cons_append,
      List.find?_cons_of_neg _ (by simpa using fun he => hX.1 he.symm)]
    exact ih hX.2

theorem find_replace_ne {u v : MerkleNode} (a b : String) (hba : b ≠ a)
    (X Y : List (String × MerkleNode)) :
    (X ++ (a, u) :: Y).find? (fun p => p.1 = b) =
      (X ++ (a, v) :: Y).find? (fun p => p.1 = b) := by
  induction X with
  | nil =>
    simp only [List.nil_append]
    rw [List.find?_cons_of_neg _ (by simpa using fun h => hba h.symm),
      List.find?_cons_of_neg _ (by simpa using fun h => hba h.symm)]
  | cons p ps ih =>
    by_cases hp : p.1 = b
    · rw [List.cons_append, List.cons_append,
        List.find?_cons_of_pos _ (by simpa using hp),
        List.find?_cons_of_pos _ (by simpa using hp)]
    · rw [List.cons_append, List.cons_append,
        List.find?_cons_of_neg _ (by simpa using hp),
        List.find?_cons_of_neg _ (by simpa using hp)]
      exact ih

theorem childHashLookup_replace {u v : MerkleNode} (a b : String)
    (hba : b ≠ a) (X Y : List (String × MerkleNode)) :
    childHashLookup (X ++ (a, u) :: Y) b =
      childHashLookup (X ++ (a, v) :: Y) b := by
  rw [childHashLookup, childHashLookup,
    find_replace_ne a b hba X Y]

theorem childHashLookup_mid {u : MerkleNode} (a : String)
    (X Y : List (String × MerkleNode)) (hX : a ∉ X.map Prod.fst) :
    childHashLookup (X ++ (a, u) :: Y) a = u.hash := by
  rw [childHashLookup, find_mid a X Y hX]

theorem foldl_seg_data (f : String → String) :
    ∀ (ns : List String) (acc : String),
      (ns.foldl (fun acc nm => acc ++ nm ++ f nm) acc).data =
        acc.data ++ (ns.map (fun nm => nm.data ++ (f nm).data)).flatten := by
  intro ns
  induction ns with
  | nil => intro acc; simp
  | cons nm rest ih =>
    intro acc
    rw [List.foldl_cons, ih, List.map_cons, List.flatten_cons]
    simp [String.data_append]

theorem dirHashInput_data (ch : List (String × MerkleNode)) :
    (dirHashInput ch).data =
      ((ssort strLe (ch.map (fun p => p.1))).map
        (fun nm => nm.data ++ (childHashLookup ch nm).data)).flatten := by
  rw [dirHashInput, foldl_seg_data]
  rfl

theorem flatten_map_ne (f1 f2 : String → List Char) (ns : List String)
    (a : String) (ha : a ∈ ns) (hnd : ns.Nodup)
    (hagree : ∀ x ∈ ns, x ≠ a → f1 x = f2 x) (hne : f1 a ≠ f2 a) :
    (ns.map f1).flatten ≠ (ns.map f2).flatten := by
  induction ns with
  | nil => simp at ha
  | cons x rest ih =>
    rw [List.nodup_cons] at hnd
    rcases List.mem_cons.mp ha with hc | hc
    · subst hc
      have htl : rest.map f1 = rest.map f2 := by
        apply List.map_congr_left
        intro y hy
        exact hagree y (List.mem_cons_of_mem _ hy)
          (fun he => hnd.1 (he ▸ hy))
      rw [List.map_cons, List.map_cons, List.flatten_cons, List.flatten_cons,
        htl]
      intro hcontra
      exact hne (List.append_cancel_right hcontra)
    · have hxa : x ≠ a := fun he => hnd.1 (he ▸ hc)
      rw [List.map_cons, List.map_cons, List.flatten_cons, List.flatten_cons,
        hagree x (List.mem_cons_self x rest) hxa]
      intro hcontra
      exact ih hc hnd.2
        (fun y hy => hagree y (List.mem_cons_of_mem x hy))
        (List.append_cancel_left hcontra)

/-- Replacing the node of the (unique) child named `a` by one with a
different hash changes the `compute_directory_hash` input stream. -/
theorem dirHashInput_replace (a : String) (c1 c2 : MerkleNode)
    (X Y : List (String × MerkleNode))
    (hnd : ((X ++ (a, c1) :: Y).map (fun p => p.1)).Nodup)
    (hhash : c1.hash ≠ c2.hash) :
    dirHashInput (X ++ (a, c2) :: Y) ≠ dirHashInput (X ++ (a, c1) :: Y) := by
  have hnames : (X ++ (a, c2) :: Y).map (fun p => p.1) =
      (X ++ (a, c1) :: Y).map (fun p => p.1) := by
    simp
  intro hcontra
  have hdata := congrArg String.data hcontra
  rw [dirHashInput_data, dirHashInput_data, hnames] at hdata
  have haX : a ∉ X.map Prod.fst := by
    intro hmem
    rw [List.map_append, List.map_cons] at hnd
    rcases List.nodup_append.mp hnd with ⟨-, -, h3⟩
    exact h3 (by simpa using hmem) (List.mem_cons_self _ _)
  have hmem : a ∈ ssort strLe ((X ++ (a, c1) :: Y).map (fun p => p.1)) := by
    rw [mem_ssort]
    simp
  have hsnd : (ssort strLe ((X ++ (a, c1) :: Y).map
      (fun p => p.1))).Nodup := ssort_nodup hnd
  refine absurd hdata (flatten_map_ne _ _
    (ssort strLe ((X ++ (a, c1) :: Y).map (fun p => p.1))) a hmem hsnd
    ?_ ?_)
  · intro x hx hxa
    dsimp only
    rw [@childHashLookup_replace c2 c1 a x hxa X Y]
  · dsimp only
    rw [@childHashLookup_mid c2 a X Y haX, @childHashLookup_mid c1 a X Y haX]
    intro hcontra2
    have h9 := List.append_cancel_left hcontra2
    exact hhash (String.ext h9).symm

theorem buildChildren_names (h hd : String → String) (excl : String → Bool)
    (exts : List String) (prev : List (String × MerkleNode)) :
    ∀ (es : List FSEntry) (B : List String),
      ((buildChildren h hd excl exts prev es B).map
        (fun p => p.1)).Sublist (es.map FSEntry.name) := by
  intro es
  induction es with
  | nil => intro B; simp [buildChildren]
  | cons e rest ih =>
    intro B
    rw [buildChildren]
    cases hb : buildNode h hd excl exts prev e (B ++ [e.name]) with
    | none =>
      simp only
      exact (ih B).cons e.name
    | some n =>
      simp only [List.map_cons]
      exact (ih B).cons₂ e.name

theorem buildChildren_find_none (h hd : String → String)
    (excl : String → Bool) (exts : List String)
    (prev : List (String × MerkleNode)) (es : List FSEntry)
    (B : List String) (a : String) (ha : a ∉ es.map FSEntry.name) :
    (buildChildren h hd excl exts prev es B).find?
      (fun p => p.1 = a) = none := by
  apply List.find?_eq_none.mpr
  intro p hp
  simp only [decide_eq_true_eq]
  intro he
  apply ha
  have hmem : p.1 ∈ (buildChildren h hd excl exts prev es B).map
      (fun p => p.1) := List.mem_map.mpr ⟨p, hp, rfl⟩
  exact he ▸ (buildChildren_names h hd excl exts prev es B).mem hmem

theorem buildChildren_find_unique (h hd : String → String)
    (excl : String → Bool) (exts : List String)
    (prev : List (String × MerkleNode)) :
    ∀ (es : List FSEntry) (B : List String) (ent : FSEntry) (a : String),
    (es.map FSEntry.name).Nodup → ent ∈ es → ent.name = a →
    (buildChildren h hd excl exts prev es B).find? (fun p => p.1 = a) =
      (buildNode h hd excl exts prev ent (B ++ [a])).map
        (fun n => (a, n)) := by
  intro es
  induction es with
  | nil => intro B ent a _ hmem; simp at hmem
  | cons x xs ih =>
    intro B ent a hnd hmem hname
    rw [List.map_cons, List.nodup_cons] at hnd
    rw [buildChildren]
    rcases List.mem_cons.mp hmem with hc | hc
    · subst hc
      subst hname
      cases hb : buildNode h hd excl exts prev ent (B ++ [ent.name]) with
      | none =>
        simp only [Option.map_none]
        apply buildChildren_find_none
        exact fun hm => hnd.1 hm
      | some n =>
        simp only [Option.map_some]
        exact List.find?_cons_of_pos _ (by simp)
    · have hxa : ¬(x.name = a) := by
        intro he
        apply hnd.1
        rw [he, ← hname]
        exact List.mem_map.mpr ⟨ent, hc, rfl⟩
      cases hb : buildNode h hd excl exts prev x (B ++ [x.name]) with
      | none =>
        simp only
        exact ih B ent a hnd.2 hc hname
      | some n =>
        simp only
        rw [List.find?_cons_of_neg _ (by simpa using hxa)]
        exact ih B ent a hnd.2 hc hname

theorem buildChildren_replace (h hd : String → String)
    (excl : String → Bool) (exts : List String)
    (prev : List (String × MerkleNode)) (c2s : String) (m2 : Nat)
    (rest : List String) (a : String) :
    ∀ (es : List FSEntry) (B : List String) (ent : FSEntry)
      (c1 cc2 : MerkleNode),
    (es.map FSEntry.name).Nodup → ent ∈ es → ent.name = a →
    buildNode h hd excl exts prev ent (B ++ [a]) = some c1 →
    buildNode h hd excl exts prev (modifyAt c2s m2 ent rest) (B ++ [a]) =
      some cc2 →
    ∃ X Y, buildChildren h hd excl exts prev es B = X ++ (a, c1) :: Y ∧
      buildChildren h hd excl exts prev
        (es.map (fun x => if x.name = a then modifyAt c2s m2 x rest else x))
        B = X ++ (a, cc2) :: Y ∧
      a ∉ X.map Prod.fst ∧ a ∉ Y.map Prod.fst := by
  intro es
  induction es with
  | nil => intro B ent c1 cc2 _ hmem; simp at hmem
  | cons x xs ih =>
    intro B ent c1 cc2 hnd hmem hname hb1 hb2
    rw [List.map_cons, List.nodup_cons] at hnd
    rcases List.mem_cons.mp hmem with hc | hc
    · subst hc
      have hxs : xs.map (fun x => if x.name = a then modifyAt c2s m2 x rest
          else x) = xs := by
        refine (List.map_congr_left ?_).trans (List.map_id xs)
        intro y hy
        rw [if_neg]
        · rfl
        · intro he
          exact hnd.1 ((he.trans hname.symm) ▸
            List.mem_map.mpr ⟨y, hy, rfl⟩)
      refine ⟨[], buildChildren h hd excl exts prev xs B, ?_, ?_, by simp, ?_⟩
      · rw [buildChildren, hname]
        simp only [hb1, List.nil_append]
      · rw [List.map_cons, if_pos hname, buildChildren, hxs, modifyAt_name,
          hname]
        simp only [hb2, List.nil_append]
      · intro hmem2
        apply hnd.1
        rw [hname]
        exact (buildChildren_names h hd excl exts prev xs B).mem hmem2
    · have hxa : ¬(x.name = a) := by
        intro he
        apply hnd.1
        rw [he, ← hname]
        exact List.mem_map.mpr ⟨ent, hc, rfl⟩
      rcases ih B ent c1 cc2 hnd.2 hc hname hb1 hb2 with
        ⟨X, Y, he1, he2, haX, haY⟩
      rw [buildChildren]
      conv_rhs => rw [List.map_cons]
      rw [if_neg hxa]
      cases hb : buildNode h hd excl exts prev x (B ++ [x.name]) with
      | none =>
        refine ⟨X, Y, by simpa using he1, ?_, haX, haY⟩
        rw [buildChildren, hb]
        exact he2
      | some n =>
        refine ⟨(x.name, n) :: X, Y, by simp [he1], ?_, ?_, haY⟩
        · rw [buildChildren, hb]
          simp [he2]
        · simp only [List.map_cons, List.mem_cons]
          push_neg
          exact ⟨fun he => hxa he.symm, haX⟩

theorem fsFind_nil (e : FSEntry) : fsFind e [] = some e := by
  cases e <;> simp [fsFind]

theorem fsFind_file_cons (nm c : String) (m : Nat) (a : String)
    (rest : List String) :
    fsFind (FSEntry.file nm c m) (a :: rest) = none := by
  simp [fsFind]

theorem fsFind_dir_some (dnm : String) (entries : List FSEntry) (a : String)
    (rest : List String) (ent : FSEntry)
    (hfe : entries.find? (fun x => x.name = a) = some ent) :
    fsFind (FSEntry.dir dnm entries) (a :: rest) = fsFind ent rest := by
  conv_lhs => unfold fsFind
  split
  · rename_i ent2 hq
    rw [hfe] at hq
    injection hq with hq2
    rw [hq2]
  · rename_i hq
    rw [hfe] at hq
    simp at hq

theorem fsFind_dir_none (dnm : String) (entries : List FSEntry) (a : String)
    (rest : List String)
    (hfe : entries.find? (fun x => x.name = a) = none) :
    fsFind (FSEntry.dir dnm entries) (a :: rest) = none := by
  conv_lhs => unfold fsFind
  split
  · rename_i ent2 hq
    rw [hfe] at hq
    simp at hq
  · rfl

/-- Modifying the file at position `P` and rebuilding: the rebuilt subtree
exists, every node on the path to the file changes its hash (keeping type
and recorded path), and every node not on that path is rebuilt identically. -/
theorem modify_build (h hd : String → String) (excl : String → Bool)
    (exts : List String) (hinj : Function.Injective h)
    (hdinj : Function.Injective hd) (c2s : String) (m2 : Nat)
    (hbin : is_binary_file c2s = false) :
    ∀ (P : List String) (e : FSEntry) (B : List String)
      (n1 f1 : MerkleNode) (nm0 c0 : String) (mt0 : Nat),
    wfFS e = true →
    fsFind e P = some (FSEntry.file nm0 c0 mt0) →
    c2s ≠ c0 →
    buildNode h hd excl exts [] e B = some n1 →
    nodeAt n1 P = some f1 → f1.type = "file" →
    ∃ n2, buildNode h hd excl exts [] (modifyAt c2s m2 e P) B = some n2 ∧
      (∀ R S2, R ++ S2 = P →
        ∃ x y, nodeAt n1 R = some x ∧ nodeAt n2 R = some y ∧
          x.hash ≠ y.hash ∧ y.type = x.type ∧ y.path = x.path) ∧
      (∀ R, (∀ S2, R ++ S2 ≠ P) → nodeAt n2 R = nodeAt n1 R)
  | [], e, B, n1, f1, nm0, c0, mt0, hw, hfind, hne, hb1, hn1, hf1 => by
    cases e with
    | dir dnm entries =>
      rw [fsFind_nil] at hfind
      exact absurd (Option.some.inj hfind) (by simp)
    | file fnm fc fm =>
      rw [fsFind_nil] at hfind
      have hef := Option.some.inj hfind
      rw [FSEntry.file.injEq] at hef
      obtain ⟨rfl, rfl, rfl⟩ := hef
      rw [show modifyAt c2s m2 (FSEntry.file fnm fc fm) [] =
        FSEntry.file fnm c2s m2 from by rw [modifyAt]]
      rw [buildNode] at hb1
      by_cases hA : excl fnm = true
      · rw [if_pos hA] at hb1
        exact absurd hb1 (by simp)
      · rw [if_neg hA] at hb1
        by_cases hB : (!exts.isEmpty && !(exts.contains (pySuffix fnm)))
            = true
        · rw [if_pos hB] at hb1
          exact absurd hb1 (by simp)
        · rw [if_neg hB] at hb1
          by_cases hC : is_binary_file fc = true
          · rw [if_pos hC] at hb1
            exact absurd hb1 (by simp)
          · rw [if_neg hC] at hb1
            obtain rfl := (Option.some.inj hb1).symm
            rw [buildNode, if_neg hA, if_neg hB,
              if_neg (by simp [hbin] : ¬is_binary_file c2s = true)]
            refine ⟨_, rfl, ?_, ?_⟩
            · intro R S2 hRS
              have hR : R = [] := by
                cases R with
                | nil => rfl
                | cons r rs => simp at hRS
              subst hR
              refine ⟨_, _, rfl, rfl, ?_, rfl, rfl⟩
              intro hcontra
              simp only [MerkleNode.hash, dictGet?, List.find?_nil,
                Option.map_none'] at hcontra
              exact hne (hinj hcontra).symm
            · intro R hR
              cases R with
              | nil => exact absurd rfl (hR [])
              | cons r rs => rfl
  | a :: rest, e, B, n1, f1, nm0, c0, mt0, hw, hfind, hne, hb1, hn1, hf1 => by
    cases e with
    | file fnm fc fm =>
      rw [fsFind_file_cons] at hfind
      exact absurd hfind (by simp)
    | dir dnm entries =>
      cases hfe : entries.find? (fun x => x.name = a) with
      | none =>
        rw [fsFind_dir_none dnm entries a rest hfe] at hfind
        exact absurd hfind (by simp)
      | some ent =>
        rw [fsFind_dir_some dnm entries a rest ent hfe] at hfind
        rw [wfFS, Bool.and_eq_true, Bool.and_eq_true] at hw
        obtain ⟨⟨hgd, hndB⟩, hwl⟩ := hw
        have hnd : (entries.map FSEntry.name).Nodup := of_decide_eq_true hndB
        have hentmem : ent ∈ entries := List.mem_of_find?_eq_some hfe
        have hentname : ent.name = a := by
          have := List.find?_some hfe
          simpa using this
        have hwent : wfFS ent = true := wfFSL_mem hwl ent hentmem
        simp only [buildNode] at hb1
        by_cases hA : excl dnm = true
        · rw [if_pos hA] at hb1
          exact absurd hb1 (by simp)
        · by_cases hE : (buildChildren h hd excl exts []
              (ssort (fun x y => strLe x.name y.name) entries) B).isEmpty
              = true
          · rw [if_neg hA, if_pos hE] at hb1
            exact absurd hb1 (by simp)
          · rw [if_neg hA, if_neg hE] at hb1
            obtain rfl := (Option.some.inj hb1).symm
            simp only [nodeAt, MerkleNode.children] at hn1
            have hndS : ((ssort (fun x y => strLe x.name y.name)
                entries).map FSEntry.name).Nodup :=
              ((ssort_perm _ entries).map FSEntry.name).nodup_iff.mpr hnd
            have hmemS : ent ∈ ssort (fun x y => strLe x.name y.name)
                entries := mem_ssort.mpr hentmem
            have hfu := buildChildren_find_unique h hd excl exts []
              (ssort (fun x y => strLe x.name y.name) entries) B ent a
              hndS hmemS hentname
            cases hbent : buildNode h hd excl exts [] ent (B ++ [a]) with
            | none =>
              rw [hbent] at hfu
              simp only [Option.map_none'] at hfu
              rw [hfu] at hn1
              exact absurd hn1 (by simp)
            | some c1 =>
              rw [hbent] at hfu
              simp only [Option.map_some'] at hfu
              rw [hfu] at hn1
              simp only at hn1
              obtain ⟨cc2, hbcc2, anc2, oth2⟩ := modify_build h hd excl
                exts hinj hdinj c2s m2 hbin rest ent (B ++ [a]) c1 f1 nm0
                c0 mt0 hwent hfind hne hbent hn1 hf1
              obtain ⟨X, Y, hch1, hch2, haX, haY⟩ := buildChildren_replace
                h hd excl exts [] c2s m2 rest a
                (ssort (fun x y => strLe x.name y.name) entries) B ent c1
                cc2 hndS hmemS hentname hbent hbcc2
              rw [show modifyAt c2s m2 (FSEntry.dir dnm entries)
                (a :: rest) =
                FSEntry.dir dnm (modifyAtL c2s m2 entries a rest) from by
                  rw [modifyAt]]
              have hgname : ∀ x : FSEntry, ((fun x =>
                  if x.name = a then modifyAt c2s m2 x rest else x)
                  x).name = x.name := by
                intro x
                by_cases hx : x.name = a
                · simp only [if_pos hx, modifyAt_name]
                · simp only [if_neg hx]
              have hsorted2 : ssort (fun x y => strLe x.name y.name)
                  (modifyAtL c2s m2 entries a rest) =
                  (ssort (fun x y => strLe x.name y.name) entries).map
                    (fun x => if x.name = a then modifyAt c2s m2 x rest
                      else x) := by
                rw [modifyAtL_eq_map, ssort_map_name _ hgname]
              have hb2full : buildNode h hd excl exts []
                  (FSEntry.dir dnm (modifyAtL c2s m2 entries a rest)) B =
                  some (MerkleNode.mk
                    (compute_directory_hash hd (X ++ (a, cc2) :: Y))
                    "directory" (encode B) (X ++ (a, cc2) :: Y)
                    none none) := by
                simp only [buildNode]
                rw [if_neg hA, hsorted2, hch2,
                  if_neg (by simp : ¬(X ++ (a, cc2) :: Y).isEmpty = true)]
              refine ⟨_, hb2full, ?_, ?_⟩
              · intro R S2 hRS
                cases R with
                | nil =>
                  refine ⟨_, _, rfl, rfl, ?_, rfl, rfl⟩
                  simp only [MerkleNode.hash]
                  rw [hch1]
                  intro hcontra
                  have hi := hdinj hcontra
                  obtain ⟨x1, y1, hx1, hy1, hhne, -, -⟩ := anc2 [] rest rfl
                  simp only [nodeAt] at hx1 hy1
                  obtain rfl := (Option.some.inj hx1)
                  obtain rfl := (Option.some.inj hy1)
                  have hndn : ((X ++ (a, c1) :: Y).map
                      (fun p => p.1)).Nodup := by
                    rw [← hch1]
                    exact List.Nodup.sublist
                      (buildChildren_names h hd excl exts [] _ B) hndS
                  exact (dirHashInput_replace a c1 cc2 X Y hndn hhne)
                    hi.symm
                | cons b R2 =>
                  rw [List.cons_append, List.cons.injEq] at hRS
                  obtain ⟨rfl, hRS2⟩ := hRS
                  obtain ⟨x, y, hx, hy, hh, ht, hp⟩ := anc2 R2 S2 hRS2
                  refine ⟨x, y, ?_, ?_, hh, ht, hp⟩
                  · simp only [nodeAt, MerkleNode.children, hfu]
                    exact hx
                  · simp only [nodeAt, MerkleNode.children,
                      @find_mid cc2 b X Y haX]
                    exact hy
              · intro R hR
                cases R with
                | nil => exact absurd rfl (hR (a :: rest))
                | cons b R2 =>
                  by_cases hba : b = a
                  · subst hba
                    have hR2 : ∀ S2, R2 ++ S2 ≠ rest := by
                      intro S2 hc
                      exact hR S2 (by rw [List.cons_append, hc])
                    simp only [nodeAt, MerkleNode.children,
                      @find_mid cc2 b X Y haX, hfu]
                    exact oth2 R2 hR2
                  · simp only [nodeAt, MerkleNode.children]
                    rw [hch1, @find_replace_ne cc2 c1 a b hba X Y]

/-- **C6.** For every well-formed file tree, replacing the content of
exactly one file (with readable, non-binary content that differs) and
rebuilding the Merkle tree afresh changes the hash of that file node and of
every ancestor directory node — each node along the path keeps its type and
recorded path but gets a new hash — and changes no other node: every node at
a position not on that path is rebuilt identical.  SHA-256 collision
freedom enters as injectivity of the two hash abstractions. -/
theorem c6_modify_one_file (h hd : String → String) (excl : String → Bool)
    (exts : List String) (c2s : String) (m2 : Nat) (fs : FSEntry)
    (P : List String) (nm0 c0 : String) (mt0 : Nat) (t1 f1 : MerkleNode)
    (hinj : Function.Injective h) (hdinj : Function.Injective hd)
    (hw : wfFS fs = true)
    (hfind : fsFind fs P = some (FSEntry.file nm0 c0 mt0))
    (hne : c2s ≠ c0) (hbin : is_binary_file c2s = false)
    (hb1 : buildNode h hd excl exts [] fs [] = some t1)
    (hn1 : nodeAt t1 P = some f1) (hf1 : f1.type = "file") :
    ∃ t2, buildNode h hd excl exts [] (modifyAt c2s m2 fs P) [] = some t2 ∧
      (∀ R S2, R ++ S2 = P →
        ∃ x y, nodeAt t1 R = some x ∧ nodeAt t2 R = some y ∧
          x.hash ≠ y.hash ∧ y.type = x.type ∧ y.path = x.path) ∧
      (∀ R, (∀ S2, R ++ S2 ≠ P) → nodeAt t2 R = nodeAt t1 R) :=
  modify_build h hd excl exts hinj hdinj c2s m2 hbin P fs [] t1 f1 nm0 c0
    mt0 hw hfind hne hb1 hn1 hf1

theorem c6_modify_one_file_witness :
    wfFS (FSEntry.dir "r" [FSEntry.file "a" "x" 0]) = true ∧
    fsFind (FSEntry.dir "r" [FSEntry.file "a" "x" 0]) ["a"] =
      some (FSEntry.file "a" "x" 0) ∧
    ("y" : String) ≠ "x" ∧
    ∃ t2, buildNode (fun s => s) (fun s => s) (fun nm => false) [] []
        (modifyAt "y" 1 (FSEntry.dir "r" [FSEntry.file "a" "x" 0]) ["a"])
        [] = some t2 ∧
      (∀ R S2, R ++ S2 = ["a"] →
        ∃ x y, nodeAt (MerkleNode.mk "ax" "directory" "."
            [("a", MerkleNode.mk "x" "file" "a" [] (some 1) (some 0))]
            none none) R = some x ∧ nodeAt t2 R = some y ∧
          x.hash ≠ y.hash ∧ y.type = x.type ∧ y.path = x.path) ∧
      (∀ R, (∀ S2, R ++ S2 ≠ ["a"]) →
        nodeAt t2 R = nodeAt (MerkleNode.mk "ax" "directory" "."
          [("a", MerkleNode.mk "x" "file" "a" [] (some 1) (some 0))]
          none none) R) := by
  have hb1 : buildNode (fun s => s) (fun s => s) (fun nm => false) [] []
      (FSEntry.dir "r" [FSEntry.file "a" "x" 0]) [] =
      some (MerkleNode.mk "ax" "directory" "."
        [("a", MerkleNode.mk "x" "file" "a" [] (some 1) (some 0))]
        none none) := by
    simp [buildNode, buildChildren, ssort, sinsert, FSEntry.name,
      compute_directory_hash, dirHashInput, childHashLookup, encode,
      childRel, dictGet?, strLe, strLeAux, MerkleNode.hash,
      (by decide : is_binary_file "x" = false),
      (by decide : ("a" ++ "x" : String) = "ax"),
      (by decide : "x".length = 1)]
  have hfind : fsFind (FSEntry.dir "r" [FSEntry.file "a" "x" 0]) ["a"] =
      some (FSEntry.file "a" "x" 0) := by
    rw [fsFind_dir_some "r" [FSEntry.file "a" "x" 0] "a" []
      (FSEntry.file "a" "x" 0) (by simp [FSEntry.name]), fsFind_nil]
  refine ⟨by decide, hfind, by decide, ?_⟩
  exact c6_modify_one_file (fun s => s) (fun s => s) (fun nm => false) []
    "y" 1 (FSEntry.dir "r" [FSEntry.file "a" "x" 0]) ["a"] "a" "x" 0
    (MerkleNode.mk "ax" "directory" "."
      [("a", MerkleNode.mk "x" "file" "a" [] (some 1) (some 0))] none none)
    (MerkleNode.mk "x" "file" "a" [] (some 1) (some 0))
    (fun a b hab => hab) (fun a b hab => hab) (by decide) hfind
    (by decide) (by decide) hb1 rfl rfl

/-! ## Rebuilding against the previous tree (`_build_path_lookup` and the
mtime fast path) -/

theorem nodeAt_append (Q1 : List String) : ∀ (t : MerkleNode)
    (Q2 : List String), nodeAt t (Q1 ++ Q2) =
      (nodeAt t Q1).bind (fun m => nodeAt m Q2) := by
  induction Q1 with
  | nil => intro t Q2; simp [nodeAt]
  | cons nm rest ih =>
    intro t Q2
    rw [List.cons_append]
    simp only [nodeAt]
    cases hf : t.children.find? (fun p => p.1 = nm) with
    | none => simp
    | some p => simp [ih p.2 Q2]

mutual

/-- The traversal order of `_build_path_lookup`. -/
def flatNodes (n : MerkleNode) : List MerkleNode :=
  n :: flatNodesL n.children
termination_by sizeOf n
decreasing_by
  cases n with
  | mk hs ty pa ch sz mt =>
    simp only [MerkleNode.children, MerkleNode.mk.sizeOf_spec]
    omega

def flatNodesL : List (String × MerkleNode) → List MerkleNode
  | [] => []
  | (_, c) :: rest => flatNodes c ++ flatNodesL rest
termination_by cs => sizeOf cs
decreasing_by
  · simp only [List.cons.sizeOf_spec, Prod.mk.sizeOf_spec]
    omega
  · simp only [List.cons.sizeOf_spec, Prod.mk.sizeOf_spec]
    omega

end

theorem flatNodesL_mem {m : MerkleNode} :
    ∀ {ch : List (String × MerkleNode)},
      m ∈ flatNodesL ch ↔ ∃ p ∈ ch, m ∈ flatNodes p.2 := by
  intro ch
  induction ch with
  | nil => simp [flatNodesL]
  | cons a rest ih =>
    cases a with
    | mk nm c =>
      rw [flatNodesL]
      simp only [List.mem_append, ih]
      constructor
      · rintro (hc | ⟨p, hp, hx⟩)
        · exact ⟨(nm, c), by simp, hc⟩
        · exact ⟨p, by simp [hp], hx⟩
      · rintro ⟨p, hp, hx⟩
        rcases List.mem_cons.mp hp with hc | hc
        · subst hc; exact Or.inl hx
        · exact Or.inr ⟨p, hc, hx⟩

theorem nodeAt_flat : ∀ (Q : List String) (t m : MerkleNode),
    nodeAt t Q = some m → m ∈ flatNodes t
  | [], t, m, hm => by
    simp only [nodeAt, Option.some.injEq] at hm
    subst hm
    rw [flatNodes]
    simp
  | nm :: rest, t, m, hm => by
    simp only [nodeAt] at hm
    cases hf : t.children.find? (fun p => p.1 = nm) with
    | none => rw [hf] at hm; simp at hm
    | some p =>
      rw [hf] at hm
      have hp : p ∈ t.children := List.mem_of_find?_eq_some hf
      have := nodeAt_flat rest p.2 m hm
      rw [flatNodes]
      exact List.mem_cons_of_mem _ (flatNodesL_mem.mpr ⟨p, hp, this⟩)

theorem flat_nodeAt : ∀ (t : MerkleNode) (P : List String) (m : MerkleNode),
    WFT t P → m ∈ flatNodes t → ∃ Q, nodeAt t Q = some m := by
  intro t
  induction t using MerkleNode.indNode with
  | h hs ty pa ch sz mt ih =>
    intro P m hw hm
    rw [flatNodes] at hm
    rcases List.mem_cons.mp hm with hc | hc
    · exact ⟨[], by rw [hc]; rfl⟩
    · rcases flatNodesL_mem.mp hc with ⟨p, hp, hx⟩
      have hwp : WFT p.2 (P ++ [p.1]) := (hw.destruct).2.2.2.2.2 p hp
      rcases ih p hp (P ++ [p.1]) m hwp hx with ⟨Q2, hQ2⟩
      refine ⟨p.1 :: Q2, ?_⟩
      have hfind : (MerkleNode.mk hs ty pa ch sz mt).children.find?
          (fun q => q.1 = p.1) = some p :=
        find_of_nodup (hw.destruct).2.2.2.1 hp
      simp only [nodeAt, hfind]
      exact hQ2

theorem flatL_path_shape (ch : List (String × MerkleNode)) (P : List String)
    (hwc : ∀ p ∈ ch, WFT p.2 (P ++ [p.1]))
    (hgc : ∀ p ∈ ch, goodName p.1 = true) :
    ∀ x ∈ (flatNodesL ch).map MerkleNode.path,
      ∃ p ∈ ch, ∃ Q2, (∀ a ∈ p.1 :: Q2, goodName a = true) ∧
        x = encode (P ++ (p.1 :: Q2)) := by
  intro x hx
  rcases List.mem_map.mp hx with ⟨m, hm, hxe⟩
  rcases flatNodesL_mem.mp hm with ⟨p, hp, hmp⟩
  have hwp : WFT p.2 (P ++ [p.1]) := hwc p hp
  rcases flat_nodeAt p.2 (P ++ [p.1]) m hwp hmp with ⟨Q2, hQ2⟩
  have hwm : WFT m ((P ++ [p.1]) ++ Q2) := WFT_nodeAt Q2 p.2 _ m hwp hQ2
  refine ⟨p, hp, Q2, ?_, ?_⟩
  · intro a ha
    rcases List.mem_cons.mp ha with hc | hc
    · exact hc ▸ hgc p hp
    · exact nodeAt_good Q2 p.2 (P ++ [p.1]) m hwp hQ2 a hc
  · rw [← hxe, (hwm.destruct).1]
    simp

theorem flatL_paths_nodup (P : List String)
    (hgP : ∀ a ∈ P, goodName a = true) :
    ∀ (ch : List (String × MerkleNode)),
    (∀ p ∈ ch, WFT p.2 (P ++ [p.1])) →
    (∀ p ∈ ch, goodName p.1 = true) →
    (ch.map (fun p => p.1)).Nodup →
    (∀ p ∈ ch, ((flatNodes p.2).map MerkleNode.path).Nodup) →
    ((flatNodesL ch).map MerkleNode.path).Nodup := by
  intro ch
  induction ch with
  | nil => intro _ _ _ _; simp [flatNodesL]
  | cons q rest ihl =>
    intro hwc hgc hnd hflat
    cases q with
    | mk nm c =>
      rw [List.map_cons, List.nodup_cons] at hnd
      rw [flatNodesL, List.map_append, List.nodup_append]
      refine ⟨hflat (nm, c) (by simp), ?_, ?_⟩
      · exact ihl (fun p hp => hwc p (by simp [hp]))
          (fun p hp => hgc p (by simp [hp])) hnd.2
          (fun p hp => hflat p (by simp [hp]))
      · intro x hx1 hx2
        have hx1b : x ∈ (flatNodesL [(nm, c)]).map MerkleNode.path := by
          rw [flatNodesL, flatNodesL, List.append_nil]
          exact hx1
        rcases flatL_path_shape [(nm, c)] P
          (fun p hp => by
            rcases List.mem_singleton.mp hp with rfl
            exact hwc (nm, c) (by simp))
          (fun p hp => by
            rcases List.mem_singleton.mp hp with rfl
            exact hgc (nm, c) (by simp))
          x hx1b with ⟨p1, hp1, Q2, hg2, he2⟩
        rcases List.mem_singleton.mp hp1 with rfl
        rcases flatL_path_shape rest P
          (fun p hp => hwc p (by simp [hp]))
          (fun p hp => hgc p (by simp [hp]))
          x hx2 with ⟨p2, hp2, Q3, hg3, he3⟩
        have hgl : ∀ a ∈ P ++ (nm :: Q2), goodName a = true := by
          intro a ha
          rcases List.mem_append.mp ha with hc2 | hc2
          · exact hgP a hc2
          · exact hg2 a hc2
        have hgr : ∀ a ∈ P ++ (p2.1 :: Q3), goodName a = true := by
          intro a ha
          rcases List.mem_append.mp ha with hc2 | hc2
          · exact hgP a hc2
          · exact hg3 a hc2
        have heq := encode_inj _ _ hgl hgr (he2.symm.trans he3)
        have hne2 : nm = p2.1 := by
          have := List.append_cancel_left heq
          exact (List.cons.injEq _ _ _ _).mp this |>.1
        exact hnd.1 (hne2 ▸ List.mem_map.mpr ⟨p2, hp2, rfl⟩)

theorem flat_paths_nodup : ∀ (t : MerkleNode) (P : List String),
    WFT t P → (∀ a ∈ P, goodName a = true) →
    ((flatNodes t).map MerkleNode.path).Nodup := by
  intro t
  induction t using MerkleNode.indNode with
  | h hs ty pa ch sz mt ih =>
    intro P hw hgP
    have hpa : pa = encode P := by
      have := (hw.destruct).1
      simpa [MerkleNode.path] using this
    rw [flatNodes, List.map_cons, List.nodup_cons]
    constructor
    · intro hmem
      have hmem2 : MerkleNode.path (MerkleNode.mk hs ty pa ch sz mt) ∈
          (flatNodesL (MerkleNode.mk hs ty pa ch sz mt).children).map
            MerkleNode.path := hmem
      simp only [MerkleNode.path, MerkleNode.children] at hmem2
      rcases flatL_path_shape ch P (hw.destruct).2.2.2.2.2
        (hw.destruct).2.2.2.2.1 pa hmem2 with ⟨p, hp, Q2, hg2, he2⟩
      rw [hpa] at he2
      have heq := encode_inj _ _ hgP (by
        intro a ha
        rcases List.mem_append.mp ha with hc2 | hc2
        · exact hgP a hc2
        · exact hg2 a hc2) he2
      have : P.length = P.length + (Q2.length + 1) := by
        have := congrArg List.length heq
        simpa using this
      omega
    · have := flatL_paths_nodup P hgP ch
        (hw.destruct).2.2.2.2.2 (hw.destruct).2.2.2.2.1
        (hw.destruct).2.2.2.1
        (fun p hp => ih p hp (P ++ [p.1]) ((hw.destruct).2.2.2.2.2 p hp)
          (by
            intro a ha
            rcases List.mem_append.mp ha with hc2 | hc2
            · exact hgP a hc2
            · rcases List.mem_singleton.mp hc2 with rfl
              exact (hw.destruct).2.2.2.2.1 p hp))
      simpa [MerkleNode.children] using this

theorem dictSet_fresh {α : Type} (k : String) (v : α) :
    ∀ (acc : List (String × α)), dictHas acc k = false →
      dictSet acc k v = acc ++ [(k, v)] := by
  intro acc
  induction acc with
  | nil => intro _; rfl
  | cons p rest ih =>
    intro hh
    simp only [dictHas, List.any_cons, Bool.or_eq_false_iff,
      decide_eq_false_iff_not] at hh
    rw [dictSet, if_neg hh.1, ih (by simp [dictHas, hh.2])]
    rfl

theorem dictHas_append {α : Type} (a b : List (String × α)) (k : String) :
    dictHas (a ++ b) k = (dictHas a k || dictHas b k) := by
  simp [dictHas, List.any_append]

theorem dictHas_pairs (l : List MerkleNode) (k : String) :
    dictHas (l.map (fun m => (m.path, m))) k = true ↔
      k ∈ l.map MerkleNode.path := by
  rw [dictHas_iff]
  simp [dictKeys, List.map_map]

theorem buildPathLookupCh_eq :
    ∀ (ch : List (String × MerkleNode)) (acc : List (String × MerkleNode)),
    (∀ p ∈ ch, ∀ acc2 : List (String × MerkleNode),
      (∀ x ∈ (flatNodes p.2).map MerkleNode.path, dictHas acc2 x = false) →
      ((flatNodes p.2).map MerkleNode.path).Nodup →
      buildPathLookup p.2 acc2 =
        acc2 ++ (flatNodes p.2).map (fun m => (m.path, m))) →
    (∀ x ∈ (flatNodesL ch).map MerkleNode.path, dictHas acc x = false) →
    ((flatNodesL ch).map MerkleNode.path).Nodup →
    buildPathLookupCh ch acc =
      acc ++ (flatNodesL ch).map (fun m => (m.path, m)) := by
  intro ch
  induction ch with
  | nil =>
    intro acc _ _ _
    rw [buildPathLookupCh, flatNodesL]
    simp
  | cons q rest ihl =>
    intro acc hih hdisj hnd
    cases q with
    | mk nm c =>
      rw [flatNodesL, List.map_append, List.nodup_append] at hnd
      rw [buildPathLookupCh]
      have hc1 : buildPathLookup c acc =
          acc ++ (flatNodes c).map (fun m => (m.path, m)) :=
        hih (nm, c) (by simp) acc
          (fun x hx => hdisj x (by
            rw [flatNodesL, List.map_append]
            exact List.mem_append_left _ hx))
          hnd.1
      rw [hc1]
      rw [ihl (acc ++ (flatNodes c).map (fun m => (m.path, m)))
        (fun p hp => hih p (by simp [hp]))
        (fun x hx => by
          rw [dictHas_append, Bool.or_eq_false_iff]
          refine ⟨hdisj x (by
            rw [flatNodesL, List.map_append]
            exact List.mem_append_right _ hx), ?_⟩
          rw [← Bool.not_eq_true, dictHas_pairs]
          intro hmem
          exact hnd.2.2 hmem hx)
        hnd.2.1]
      rw [flatNodesL, List.map_append, List.append_assoc]

theorem buildPathLookup_eq :
    ∀ (t : MerkleNode) (acc : List (String × MerkleNode)),
    (∀ x ∈ (flatNodes t).map MerkleNode.path, dictHas acc x = false) →
    ((flatNodes t).map MerkleNode.path).Nodup →
    buildPathLookup t acc =
      acc ++ (flatNodes t).map (fun m => (m.path, m)) := by
  intro t
  induction t using MerkleNode.indNode with
  | h hs ty pa ch sz mt ih =>
    intro acc hdisj hnd
    rw [flatNodes] at hnd hdisj ⊢
    simp only [MerkleNode.children, MerkleNode.path, List.map_cons,
      List.nodup_cons] at hnd hdisj ⊢
    rw [buildPathLookup]
    simp only [MerkleNode.children, MerkleNode.path]
    rw [dictSet_fresh pa _ acc (hdisj pa (List.mem_cons_self _ _))]
    rw [buildPathLookupCh_eq ch (acc ++ [(pa, MerkleNode.mk hs ty pa ch sz mt)])
      (fun p hp => ih p hp)
      (fun x hx => by
        rw [dictHas_append, Bool.or_eq_false_iff]
        refine ⟨hdisj x (List.mem_cons_of_mem _ hx), ?_⟩
        simp only [dictHas, List.any_cons, List.any_nil, Bool.or_false,
          decide_eq_false_iff_not]
        intro he
        exact hnd.1 (he ▸ hx))
      hnd.2]
    rw [List.append_assoc]
    rfl

theorem lookup_correct (t1 : MerkleNode) (hw : WFT t1 []) :
    ∀ (Q : List String) (m : MerkleNode), nodeAt t1 Q = some m →
      dictGet? (buildPathLookup t1 []) (encode Q) = some m := by
  intro Q m hm
  have hnodup : ((flatNodes t1).map MerkleNode.path).Nodup :=
    flat_paths_nodup t1 [] hw (by simp)
  have hL : buildPathLookup t1 [] =
      (flatNodes t1).map (fun m => (m.path, m)) := by
    rw [buildPathLookup_eq t1 [] (fun x _ => rfl) hnodup]
    rfl
  have hmem : m ∈ flatNodes t1 := nodeAt_flat Q t1 m hm
  have hpath : m.path = encode Q := by
    have hwm : WFT m ([] ++ Q) := WFT_nodeAt Q t1 [] m hw hm
    have := (hwm.destruct).1
    simpa [MerkleNode.path] using this
  have hnd2 : (((flatNodes t1).map (fun m => (m.path, m))).map
      (fun p => p.1)).Nodup := by
    rw [List.map_map]
    exact hnodup
  have hfind : ((flatNodes t1).map (fun m => (m.path, m))).find?
      (fun q => q.1 = (m.path, m).1) = some (m.path, m) :=
    find_of_nodup hnd2 (List.mem_map.mpr ⟨m, hmem, rfl⟩)
  rw [dictGet?, hL, ← hpath]
  rw [hfind]
  rfl

theorem nodeAt_child (t m c : MerkleNode) (P : List String) (a : String)
    (hm : nodeAt t P = some m)
    (hf : m.children.find? (fun p => p.1 = a) = some (a, c)) :
    nodeAt t (P ++ [a]) = some c := by
  rw [nodeAt_append P t [a], hm]
  show nodeAt m [a] = some c
  simp only [nodeAt, hf]

theorem buildChildren_mem (h hd : String → String) (excl : String → Bool)
    (exts : List String) (prev : List (String × MerkleNode)) :
    ∀ (es : List FSEntry) (B : List String) (p : String × MerkleNode),
    p ∈ buildChildren h hd excl exts prev es B →
    ∃ x ∈ es, p.1 = x.name ∧
      buildNode h hd excl exts prev x (B ++ [x.name]) = some p.2 := by
  intro es
  induction es with
  | nil =>
    intro B p hp
    rw [buildChildren] at hp
    simp at hp
  | cons e rest ih =>
    intro B p hp
    rw [buildChildren] at hp
    cases hb : buildNode h hd excl exts prev e (B ++ [e.name]) with
    | none =>
      rw [hb] at hp
      rcases ih B p hp with ⟨x, hx, h1, h2⟩
      exact ⟨x, List.mem_cons_of_mem _ hx, h1, h2⟩
    | some n =>
      rw [hb] at hp
      rcases List.mem_cons.mp hp with hc | hc
      · subst hc
        exact ⟨e, List.mem_cons_self _ _, rfl, hb⟩
      · rcases ih B p hc with ⟨x, hx, h1, h2⟩
        exact ⟨x, List.mem_cons_of_mem _ hx, h1, h2⟩

theorem buildChildren_pair_mem (h hd : String → String)
    (excl : String → Bool) (exts : List String)
    (prev : List (String × MerkleNode)) :
    ∀ (es : List FSEntry) (B : List String) (x : FSEntry) (c : MerkleNode),
    x ∈ es → buildNode h hd excl exts prev x (B ++ [x.name]) = some c →
    (x.name, c) ∈ buildChildren h hd excl exts prev es B := by
  intro es
  induction es with
  | nil =>
    intro B x c hx
    simp at hx
  | cons e rest ih =>
    intro B x c hx hb
    rw [buildChildren]
    rcases List.mem_cons.mp hx with hc | hc
    · subst hc
      rw [hb]
      exact List.mem_cons_self _ _
    · cases hbe : buildNode h hd excl exts prev e (B ++ [e.name]) with
      | none =>
        exact ih B x c hc hb
      | some n =>
        exact List.mem_cons_of_mem _ (ih B x c hc hb)

/-- `_build_node` produces a well-formed Merkle subtree (recorded paths are
the encoded positions, file nodes are leaves, sibling names distinct). -/
theorem buildNode_WFT (h hd : String → String) (excl : String → Bool)
    (exts : List String) (prev : List (String × MerkleNode)) :
    ∀ (e : FSEntry), wfFS e = true → ∀ (P : List String) (n : MerkleNode),
      buildNode h hd excl exts prev e P = some n → WFT n P := by
  intro e
  induction e using FSEntry.indEntry with
  | hf nm c mt =>
    intro hw P n hb
    rw [buildNode] at hb
    by_cases hA : excl nm = true
    · rw [if_pos hA] at hb
      exact absurd hb (by simp)
    · rw [if_neg hA] at hb
      by_cases hB : (!exts.isEmpty && !(exts.contains (pySuffix nm))) = true
      · rw [if_pos hB] at hb
        exact absurd hb (by simp)
      · rw [if_neg hB] at hb
        by_cases hC : is_binary_file c = true
        · rw [if_pos hC] at hb
          exact absurd hb (by simp)
        · rw [if_neg hC] at hb
          obtain rfl := (Option.some.inj hb).symm
          exact WFT.node _ "file" _ [] _ _ P rfl (Or.inl rfl)
            (fun _ => rfl) (by simp) (by simp) (by simp)
  | hdd nm es ih =>
    intro hw P n hb
    rw [wfFS, Bool.and_eq_true, Bool.and_eq_true] at hw
    obtain ⟨⟨hgd, hndB⟩, hwl⟩ := hw
    have hnd : (es.map FSEntry.name).Nodup := of_decide_eq_true hndB
    rw [buildNode] at hb
    by_cases hA : excl nm = true
    · rw [if_pos hA] at hb
      exact absurd hb (by simp)
    · by_cases hE : (buildChildren h hd excl exts prev
          (ssort (fun a b => strLe a.name b.name) es) P).isEmpty = true
      · rw [if_neg hA, if_pos hE] at hb
        exact absurd hb (by simp)
      · rw [if_neg hA, if_neg hE] at hb
        obtain rfl := (Option.some.inj hb).symm
        have hndS : ((ssort (fun a b => strLe a.name b.name) es).map
            FSEntry.name).Nodup :=
          ((ssort_perm _ es).map FSEntry.name).nodup_iff.mpr hnd
        have hsub := buildChildren_names h hd excl exts prev
          (ssort (fun a b => strLe a.name b.name) es) P
        refine WFT.node _ "directory" _ _ _ _ P rfl (Or.inr rfl)
          (fun hfd => absurd hfd (by simp)) (List.Nodup.sublist hsub hndS)
          ?_ ?_
        · intro p hp
          rcases buildChildren_mem h hd excl exts prev _ P p hp with
            ⟨x, hx, h1, h2⟩
          rw [h1]
          exact wfFS_name (wfFSL_mem hwl x (mem_ssort.mp hx))
        · intro p hp
          rcases buildChildren_mem h hd excl exts prev _ P p hp with
            ⟨x, hx, h1, h2⟩
          rw [h1]
          exact ih x (mem_ssort.mp hx) (wfFSL_mem hwl x (mem_ssort.mp hx))
            (P ++ [x.name]) p.2 h2

theorem buildChildren_empty_indep (h hd : String → String)
    (excl : String → Bool) (exts : List String)
    (prevA prevB : List (String × MerkleNode)) :
    ∀ (l : List FSEntry) (P : List String),
    (∀ x ∈ l, ∀ Q, buildNode h hd excl exts prevA x Q = none →
      buildNode h hd excl exts prevB x Q = none) →
    buildChildren h hd excl exts prevA l P = [] →
    buildChildren h hd excl exts prevB l P = [] := by
  intro l
  induction l with
  | nil =>
    intro P _ _
    rw [buildChildren]
  | cons e rest ihl =>
    intro P hmem hA
    rw [buildChildren] at hA ⊢
    cases hbA : buildNode h hd excl exts prevA e (P ++ [e.name]) with
    | some n =>
      simp [hbA] at hA
    | none =>
      rw [hbA] at hA
      rw [hmem e (List.mem_cons_self _ _) _ hbA]
      exact ihl P (fun x hx Q => hmem x (List.mem_cons_of_mem _ hx) Q) hA

/-- Whether `_build_node` returns a node at all is independent of the
`previous_nodes` cache: the cache only chooses between the cached hash and a
fresh hash. -/
theorem buildNode_none_indep (h hd : String → String) (excl : String → Bool)
    (exts : List String) (prevA prevB : List (String × MerkleNode)) :
    ∀ (e : FSEntry) (P : List String),
      buildNode h hd excl exts prevA e P = none →
      buildNode h hd excl exts prevB e P = none := by
  intro e
  induction e using FSEntry.indEntry with
  | hf nm c mt =>
    intro P hb
    rw [buildNode] at hb ⊢
    by_cases hA : excl nm = true
    · rw [if_pos hA]
    · rw [if_neg hA] at hb ⊢
      by_cases hB : (!exts.isEmpty && !(exts.contains (pySuffix nm))) = true
      · rw [if_pos hB]
      · rw [if_neg hB] at hb ⊢
        by_cases hC : is_binary_file c = true
        · rw [if_pos hC]
        · rw [if_neg hC] at hb
          exact absurd hb (by simp)
  | hdd nm es ih =>
    intro P hb
    rw [buildNode] at hb ⊢
    by_cases hA : excl nm = true
    · rw [if_pos hA]
    · rw [if_neg hA] at hb ⊢
      by_cases hE : (buildChildren h hd excl exts prevA
          (ssort (fun a b => strLe a.name b.name) es) P).isEmpty = true
      · have hAe : buildChildren h hd excl exts prevA
            (ssort (fun a b => strLe a.name b.name) es) P = [] :=
          List.isEmpty_iff.mp hE
        have hBe := buildChildren_empty_indep h hd excl exts prevA prevB
          (ssort (fun a b => strLe a.name b.name) es) P
          (fun x hx Q => ih x (mem_ssort.mp hx) Q) hAe
        rw [if_pos (by rw [hBe]; rfl)]
      · rw [if_neg hE] at hb
        exact absurd hb (by simp)

theorem rebuild_children (h hd : String → String) (excl : String → Bool)
    (exts : List String) (prevA L : List (String × MerkleNode))
    (t1 : MerkleNode) :
    ∀ (l : List FSEntry) (P : List String),
    (∀ x ∈ l, ∀ P2 cx, wfFS x = true →
      buildNode h hd excl exts prevA x P2 = some cx →
      nodeAt t1 P2 = some cx →
      buildNode h hd excl exts L x P2 = some cx) →
    (∀ x ∈ l, wfFS x = true) →
    (∀ x ∈ l, ∀ cx,
      buildNode h hd excl exts prevA x (P ++ [x.name]) = some cx →
      nodeAt t1 (P ++ [x.name]) = some cx) →
    buildChildren h hd excl exts L l P =
      buildChildren h hd excl exts prevA l P := by
  intro l
  induction l with
  | nil =>
    intro P _ _ _
    rw [buildChildren, buildChildren]
  | cons e rest ihl =>
    intro P hIH hwf hinv
    rw [buildChildren, buildChildren]
    cases hbA : buildNode h hd excl exts prevA e (P ++ [e.name]) with
    | none =>
      rw [buildNode_none_indep h hd excl exts prevA L e (P ++ [e.name]) hbA]
      exact ihl P (fun x hx => hIH x (List.mem_cons_of_mem _ hx))
        (fun x hx => hwf x (List.mem_cons_of_mem _ hx))
        (fun x hx => hinv x (List.mem_cons_of_mem _ hx))
    | some c =>
      have hbL := hIH e (List.mem_cons_self _ _) (P ++ [e.name]) c
        (hwf e (List.mem_cons_self _ _)) hbA
        (hinv e (List.mem_cons_self _ _) c hbA)
      rw [hbL]
      show (e.name, c) :: buildChildren h hd excl exts L rest P =
        (e.name, c) :: buildChildren h hd excl exts prevA rest P
      rw [ihl P (fun x hx => hIH x (List.mem_cons_of_mem _ hx))
        (fun x hx => hwf x (List.mem_cons_of_mem _ hx))
        (fun x hx => hinv x (List.mem_cons_of_mem _ hx))]

/-- Rebuilding an unchanged entry against a `previous_nodes` lookup that
reproduces the previous tree's nodes returns the previous node exactly:
files hit the mtime fast path and reuse the stored hash. -/
theorem rebuild (h hd : String → String) (excl : String → Bool)
    (exts : List String) (prevA L : List (String × MerkleNode))
    (t1 : MerkleNode)
    (HL : ∀ Q m, nodeAt t1 Q = some m → dictGet? L (encode Q) = some m) :
    ∀ (e : FSEntry), wfFS e = true → ∀ (P : List String) (n1 : MerkleNode),
    buildNode h hd excl exts prevA e P = some n1 →
    nodeAt t1 P = some n1 →
    buildNode h hd excl exts L e P = some n1 := by
  intro e
  induction e using FSEntry.indEntry with
  | hf nm c mt =>
    intro hw P n1 hbA hn1
    rw [buildNode] at hbA ⊢
    by_cases hA : excl nm = true
    · rw [if_pos hA] at hbA
      exact absurd hbA (by simp)
    · rw [if_neg hA] at hbA ⊢
      by_cases hB : (!exts.isEmpty && !(exts.contains (pySuffix nm))) = true
      · rw [if_pos hB] at hbA
        exact absurd hbA (by simp)
      · rw [if_neg hB] at hbA ⊢
        by_cases hC : is_binary_file c = true
        · rw [if_pos hC] at hbA
          exact absurd hbA (by simp)
        · rw [if_neg hC] at hbA ⊢
          obtain rfl := (Option.some.inj hbA).symm
          have hget := HL P _ hn1
          split
          · rename_i previous hprev
            rw [hget] at hprev
            obtain rfl := Option.some.inj hprev
            rw [if_pos ⟨rfl, rfl, rfl⟩]
            rfl
          · rename_i hprev
            rw [hget] at hprev
            exact absurd hprev (by simp)
  | hdd nm es ih =>
    intro hw P n1 hbA hn1
    rw [wfFS, Bool.and_eq_true, Bool.and_eq_true] at hw
    obtain ⟨⟨hgd, hndB⟩, hwl⟩ := hw
    have hnd : (es.map FSEntry.name).Nodup := of_decide_eq_true hndB
    rw [buildNode] at hbA ⊢
    by_cases hA : excl nm = true
    · rw [if_pos hA] at hbA
      exact absurd hbA (by simp)
    · by_cases hE : (buildChildren h hd excl exts prevA
          (ssort (fun a b => strLe a.name b.name) es) P).isEmpty = true
      · rw [if_neg hA, if_pos hE] at hbA
        exact absurd hbA (by simp)
      · rw [if_neg hA, if_neg hE] at hbA
        obtain rfl := (Option.some.inj hbA).symm
        rw [if_neg hA]
        have hndS : ((ssort (fun a b => strLe a.name b.name) es).map
            FSEntry.name).Nodup :=
          ((ssort_perm _ es).map FSEntry.name).nodup_iff.mpr hnd
        have hsub := buildChildren_names h hd excl exts prevA
          (ssort (fun a b => strLe a.name b.name) es) P
        have hndC : ((buildChildren h hd excl exts prevA
            (ssort (fun a b => strLe a.name b.name) es) P).map
            (fun p => p.1)).Nodup := List.Nodup.sublist hsub hndS
        have hbc : buildChildren h hd excl exts L
            (ssort (fun a b => strLe a.name b.name) es) P =
            buildChildren h hd excl exts prevA
            (ssort (fun a b => strLe a.name b.name) es) P := by
          apply rebuild_children h hd excl exts prevA L t1
          · intro x hx P2 cx hwx hbx hnx
            exact ih x (mem_ssort.mp hx) hwx P2 cx hbx hnx
          · intro x hx
            exact wfFSL_mem hwl x (mem_ssort.mp hx)
          · intro x hx cx hbx
            have hpair := buildChildren_pair_mem h hd excl exts prevA
              (ssort (fun a b => strLe a.name b.name) es) P x cx hx hbx
            have hfind : (buildChildren h hd excl exts prevA
                (ssort (fun a b => strLe a.name b.name) es) P).find?
                (fun p => p.1 = x.name) = some (x.name, cx) := by
              have := find_of_nodup hndC hpair
              simpa using this
            exact nodeAt_child t1 _ cx P x.name hn1
              (by simpa [MerkleNode.children] using hfind)
        rw [hbc, if_neg hE]

theorem getChanges_fst (h hd : String → String) (excl : String → Bool)
    (exts : List String) (fs : FSEntry) (manifest : Option Manifest)
    (force : Bool) :
    ∃ prevX, (getChanges h hd excl exts fs manifest force).1 =
      buildNode h hd excl exts prevX fs [] := by
  cases manifest with
  | none => exact ⟨[], by cases force <;> rfl⟩
  | some m =>
    cases hmt : m.tree with
    | none => exact ⟨[], by cases force <;> simp [getChanges, hmt]⟩
    | some t =>
      cases force with
      | false => exact ⟨buildPathLookup t [], by simp [getChanges, hmt]⟩
      | true => exact ⟨[], by simp [getChanges, hmt]⟩

theorem indexRun_manifest_tree (h hd : String → String)
    (excl : String → Bool) (exts : List String)
    (chunkf : String → String → List Chunk)
    (embed : List String → List (List ℚ)) (fs : FSEntry) (S : SysState)
    (force : Bool) :
    ∃ m1, (indexRun h hd excl exts chunkf embed fs S force).2.manifest =
      some m1 ∧
      m1.tree = (getChanges h hd excl exts fs S.manifest force).1 := by
  by_cases hnc : (getChanges h hd excl exts fs
      S.manifest force).2.has_changes = false
  · rw [indexRun_nochanges h hd excl exts chunkf embed fs S force hnc]
    exact ⟨_, rfl, rfl⟩
  · simp only [indexRun, if_neg hnc]
    exact ⟨_, rfl, rfl⟩

/-- `_get_changes` on an unchanged filesystem against the manifest written by
a previous run: the rebuilt tree equals the stored tree node-for-node (the
mtime fast path reuses every stored hash), so the diff is empty. -/
theorem getChanges_second (h hd : String → String) (excl : String → Bool)
    (exts : List String) (fs : FSEntry) (hw : wfFS fs = true)
    (prevX : List (String × MerkleNode)) (m1 : Manifest)
    (hm : m1.tree = buildNode h hd excl exts prevX fs []) :
    getChanges h hd excl exts fs (some m1) false =
      (m1.tree, ({} : TreeDiff)) := by
  cases hT : buildNode h hd excl exts prevX fs [] with
  | none =>
    have hb2 : buildNode h hd excl exts [] fs [] = none :=
      buildNode_none_indep h hd excl exts prevX [] fs [] hT
    rw [hT] at hm
    simp [getChanges, hm, hb2, collectTreeFiles]
  | some t =>
    have hWFT : WFT t [] := buildNode_WFT h hd excl exts prevX fs hw [] t hT
    have HL := lookup_correct t hWFT
    have hb2 : buildNode h hd excl exts (buildPathLookup t []) fs [] =
        some t :=
      rebuild h hd excl exts prevX (buildPathLookup t []) t HL fs hw [] t
        hT rfl
    have hcmp : treeCompare (some t) (some t) = {} := compareNodes_self t
    rw [hT] at hm
    simp [getChanges, hm, hb2, hcmp]

/-- **C2.** Running `Indexer.index()` twice on an unchanged filesystem with
`force=false` both times: the second run's diff is empty (the rebuilt tree
reproduces the stored tree because the mtime fast path reuses every stored
hash), so it reports `files_new = 0`, `files_modified = 0`,
`files_deleted = 0` and `embeddings_computed = 0`, deletes no chunks, and
leaves the chunk table length and embedding cache unchanged — only the
manifest is refreshed. -/
theorem c2_index_twice (h hd : String → String) (excl : String → Bool)
    (exts : List String) (chunkf : String → String → List Chunk)
    (embed : List String → List (List ℚ)) (fs : FSEntry) (S : SysState)
    (hw : wfFS fs = true) :
    (indexRun h hd excl exts chunkf embed fs
      (indexRun h hd excl exts chunkf embed fs S false).2
      false).1.files_new = 0 ∧
    (indexRun h hd excl exts chunkf embed fs
      (indexRun h hd excl exts chunkf embed fs S false).2
      false).1.files_modified = 0 ∧
    (indexRun h hd excl exts chunkf embed fs
      (indexRun h hd excl exts chunkf embed fs S false).2
      false).1.files_deleted = 0 ∧
    (indexRun h hd excl exts chunkf embed fs
      (indexRun h hd excl exts chunkf embed fs S false).2
      false).1.chunks_deleted = 0 ∧
    (indexRun h hd excl exts chunkf embed fs
      (indexRun h hd excl exts chunkf embed fs S false).2
      false).1.embeddings_computed = 0 ∧
    chunksLen (indexRun h hd excl exts chunkf embed fs
      (indexRun h hd excl exts chunkf embed fs S false).2
      false).2.storage =
      chunksLen (indexRun h hd excl exts chunkf embed fs S false).2.storage ∧
    (indexRun h hd excl exts chunkf embed fs
      (indexRun h hd excl exts chunkf embed fs S false).2
      false).2.storage.cacheTable =
      (indexRun h hd excl exts chunkf embed fs S false).2.storage.cacheTable
    := by
  obtain ⟨m1, hm1, hmt⟩ := indexRun_manifest_tree h hd excl exts chunkf
    embed fs S false
  obtain ⟨prevX, hpx⟩ := getChanges_fst h hd excl exts fs S.manifest false
  have hg2 : getChanges h hd excl exts fs
      (indexRun h hd excl exts chunkf embed fs S false).2.manifest false =
      (m1.tree, ({} : TreeDiff)) := by
    rw [hm1]
    exact getChanges_second h hd excl exts fs hw prevX m1 (hmt.trans hpx)
  have hnc : (getChanges h hd excl exts fs
      (indexRun h hd excl exts chunkf embed fs S false).2.manifest
      false).2.has_changes = false := by
    rw [hg2]
    rfl
  have hr2 := indexRun_nochanges h hd excl exts chunkf embed fs
    (indexRun h hd excl exts chunkf embed fs S false).2 false hnc
  refine ⟨?_, ?_, ?_, ?_, ?_, ?_, ?_⟩
  · rw [hr2]
    simp [hg2]
  · rw [hr2]
    simp [hg2]
  · rw [hr2]
    simp [hg2]
  · rw [hr2]
  · rw [hr2]
  · rw [hr2]
    dsimp only
    rw [updateManifest_snd, (count_chunks_frame _).2]
    simp
  · rw [hr2]
    dsimp only
    rw [updateManifest_snd, (count_chunks_frame _).1]
    simp

theorem c2_index_twice_witness :
    wfFS (FSEntry.dir "r" [FSEntry.file "a" "x" 0]) = true ∧
    (indexRun (fun s => s) (fun s => s) (fun nm => false) []
      (fun fp ct => []) (fun ts => ts.map (fun t => ([] : List ℚ)))
      (FSEntry.dir "r" [FSEntry.file "a" "x" 0])
      (indexRun (fun s => s) (fun s => s) (fun nm => false) []
        (fun fp ct => []) (fun ts => ts.map (fun t => ([] : List ℚ)))
        (FSEntry.dir "r" [FSEntry.file "a" "x" 0]) ⟨none, {}⟩ false).2
      false).1.files_new = 0 :=
  ⟨by decide,
   (c2_index_twice (fun s => s) (fun s => s) (fun nm => false) []
     (fun fp ct => []) (fun ts => ts.map (fun t => ([] : List ℚ)))
     (FSEntry.dir "r" [FSEntry.file "a" "x" 0]) ⟨none, {}⟩ (by decide)).1⟩
